import Mathlib

/-!
# facefunk/sourcemap: the VLQ segment codec, the string tables and `Append`

A shallow embedding of `sourcemap.go`.

* Go's `int` is the 64-bit two's complement integer: values are `Int`s and every
  arithmetic result goes through `wrapInt`.
* A Go `string` / `[]byte` is a `List Nat` of bytes; `ascii` turns a Lean string
  literal of ASCII text into its bytes.
* `strings.Reader` is a byte list with a read position; `ReadByte` and
  `UnreadByte` follow the standard library.
* A nil slice is `none` where the code tests for nil (`decodedMappings`,
  a source's content); a nil map behaves as the empty map and is `[]`.
* The type `Mapping` holds the six exported fields of a record. The methods of a
  record take the map its back pointer `m` points at as an argument. Where it
  matters which map that is (`Append`), the maps are objects in a heap, each with
  the back pointers of its records next to them (`Obj`).
* The main loop of `decodeMappings` need not terminate, so it takes fuel and
  `none` means that the fuel ran out.
* `sort.Sort` is a parameter of `EncodeMappings`. What is assumed of it is what the
  standard library documents (`SortContract`: the result is a rearrangement in
  ascending order, stability is not promised) and, where stated, that it reads the
  records through `Less` only (`SortUsesLessOnly`) or leaves an ascending slice as
  it is (`SortKeepsSorted`). `goSort` is the procedure of the standard library
  itself, written after its source.
* The package `path` is a parameter (`PathLib`) of the resolver; `goPath` follows
  the documentation of the package and serves the examples.
-/

namespace Sourcemap

/-! ## Machine integers and bytes -/

/-- The value of a 64-bit signed integer expression whose exact result is `x`. -/
def wrapInt (x : Int) : Int := (x + 2 ^ 63) % 2 ^ 64 - 2 ^ 63

/-- The bytes of an ASCII string literal. -/
def ascii (s : String) : List Nat := s.toList.map Char.toNat

/-- Go `const base64encode`. -/
def base64encode : List Nat :=
  ascii "ABCDEFGHIJKLMNOPQRSTUVWXYZabcdefghijklmnopqrstuvwxyz0123456789+/"

/-- Go `base64encode[i]`, for an index that is in range. -/
def encodeDigit (i : Nat) : Nat := base64encode.getD i 0

/-- Go `var base64decode [256]int` after `init`: every entry is 0xff, then entry
`base64encode[i]` is set to `i` for `i = 0, ..., 63`. -/
def base64decode : Nat → Nat :=
  (List.range base64encode.length).foldl
    (fun tbl i => Function.update tbl (encodeDigit i) i) (fun _ => 0xff)

/-! ## The data model -/

/-- Go `type Mapping struct`, without the back pointer `m`. -/
structure Mapping where
  GeneratedLine : Int
  GeneratedColumn : Int
  OriginalSourceIndex : Int
  OriginalLine : Int
  OriginalColumn : Int
  OriginalNameIndex : Int
deriving DecidableEq, Repr

/-- Go `type Map struct`. `SourceContent` is `Option (List Nat)`, `none` being nil. -/
structure Map where
  Version : Int
  File : String
  SourceRoot : String
  Sources : List String
  SourcesContent : List (Option (List Nat))
  Names : List String
  Mappings : List Nat
  decodedMappings : Option (List Mapping)
  fileIndexMap : List (String × Int)
  nameIndexMap : List (String × Int)
  fullSources : List (Int × String)
  resolvedSources : List (Int × String)
deriving DecidableEq, Repr

/-- Go `func New() *Map`. -/
def New : Map :=
  { Version := 3, File := "", SourceRoot := "", Sources := [], SourcesContent := [],
    Names := [], Mappings := [], decodedMappings := none, fileIndexMap := [],
    nameIndexMap := [], fullSources := [], resolvedSources := [] }

/-! ## `strings.Reader` -/

/-- A `strings.Reader`: the string and the current reading index. -/
structure Reader where
  s : List Nat
  i : Nat
deriving DecidableEq, Repr

/-- Go `strings.NewReader`. -/
def NewReader (s : List Nat) : Reader := { s := s, i := 0 }

/-- Go `Reader.Len`: the number of unread bytes. -/
def Reader.Len (r : Reader) : Nat :=
  if r.i ≥ r.s.length then 0 else r.s.length - r.i

/-- Go `Reader.ReadByte` with the error dropped, as every call site does
(`b, _ := r.ReadByte()`): at the end the byte is 0 and the reader is unchanged. -/
def Reader.ReadByte (r : Reader) : Nat × Reader :=
  if r.i ≥ r.s.length then (0, r) else (r.s.getD r.i 0, { r with i := r.i + 1 })

/-- Go `Reader.UnreadByte`: steps back one byte unless the index is 0; it does not
look at whether the previous read succeeded. -/
def Reader.UnreadByte (r : Reader) : Reader :=
  if r.i ≤ 0 then r else { r with i := r.i - 1 }

/-! ## Decoding -/

/-- The `for` loop of the closure `readVLQ`, entered with the accumulated value
`v` and shift `s`. `none` is the early `return 0` taken at a byte that is not a
base64 digit (or at the end of the input), after `UnreadByte`; `some v` is the
`break`. Each round that goes on has consumed a byte, so `r.Len + 1` rounds of
fuel are never used up. -/
def readVLQLoop : Nat → Reader → Int → Nat → Option Int × Reader
  | 0, r, _, _ => (none, r)
  | fuel + 1, r, v, s =>
    let (b, r1) := r.ReadByte
    let o := base64decode b
    if o = 0xff then (none, r1.UnreadByte)
    else
      let v1 := wrapInt (v + wrapInt (((o - (o &&& 32) : Nat) : Int) * 2 ^ s))
      if o &&& 32 = 0 then (some v1, r1)
      else readVLQLoop fuel r1 v1 (s + 5)

/-- The closure `readVLQ` of `decodeMappings`: the value returned, the reader
afterwards and the new value of the captured `count`. -/
def readVLQ (r : Reader) (count : Nat) : Int × Reader × Nat :=
  match readVLQLoop (r.Len + 1) r 0 0 with
  | (none, r1) => (0, r1, count)
  | (some v, r1) =>
    if v % 2 ≠ 0 then (wrapInt (-(v >>> (1 : Nat))), r1, count + 1)
    else (v >>> (1 : Nat), r1, count + 1)

/-- The local variables of `decodeMappings` that live across rounds of its main
loop; `decodedMappings` holds the records appended so far. -/
structure DecodeState where
  r : Reader
  generatedLine : Int
  generatedColumn : Int
  originalFile : Int
  originalLine : Int
  originalColumn : Int
  originalName : Int
  decodedMappings : List Mapping
deriving DecidableEq, Repr

/-- The state `decodeMappings` enters its main loop with. -/
def decodeInit (mappings : List Nat) : DecodeState :=
  { r := NewReader mappings, generatedLine := 1, generatedColumn := 0, originalFile := 0,
    originalLine := 1, originalColumn := 0, originalName := 0, decodedMappings := [] }

/-- The `switch count` of `decodeMappings`: the records it appends, from the
values the variables have at that point. -/
def switchCount (count : Nat) (generatedLine generatedColumn originalFile originalLine
    originalColumn originalName : Int) : List Mapping :=
  if count = 1 then
    [⟨generatedLine, generatedColumn, -1, 0, 0, -1⟩]
  else if count = 4 then
    [⟨generatedLine, generatedColumn, originalFile, originalLine, originalColumn, -1⟩]
  else if count = 5 then
    [⟨generatedLine, generatedColumn, originalFile, originalLine, originalColumn, originalName⟩]
  else []

/-- The rest of a round of the main loop of `decodeMappings` once the first byte
has been put back and the reader is `r2`: `count := 0`, the five calls of
`readVLQ` and the `switch`. -/
def readSegment (st : DecodeState) (r2 : Reader) : DecodeState :=
  let (d0, r3, c1) := readVLQ r2 0
  let generatedColumn := wrapInt (st.generatedColumn + d0)
  let (d1, r4, c2) := readVLQ r3 c1
  let originalFile := wrapInt (st.originalFile + d1)
  let (d2, r5, c3) := readVLQ r4 c2
  let originalLine := wrapInt (st.originalLine + d2)
  let (d3, r6, c4) := readVLQ r5 c3
  let originalColumn := wrapInt (st.originalColumn + d3)
  let (d4, r7, count) := readVLQ r6 c4
  let originalName := wrapInt (st.originalName + d4)
  { r := r7, generatedLine := st.generatedLine, generatedColumn := generatedColumn,
    originalFile := originalFile, originalLine := originalLine,
    originalColumn := originalColumn, originalName := originalName,
    decodedMappings := st.decodedMappings ++
      switchCount count st.generatedLine generatedColumn originalFile originalLine
        originalColumn originalName }

/-- One round of the main loop of `decodeMappings` (the loop condition
`r.Len() != 0` holds). `generatedLine++` is not wrapped: the counter is at most one
more than the number of bytes of a string held in memory. -/
def decodeBody (st : DecodeState) : DecodeState :=
  let (b, r1) := st.r.ReadByte
  if b = 44 then { st with r := r1 }
  else if b = 59 then
    { st with r := r1, generatedLine := st.generatedLine + 1, generatedColumn := 0 }
  else readSegment st r1.UnreadByte

/-- The main loop `for r.Len() != 0 { ... }` of `decodeMappings`, run for at most
`fuel` rounds: `none` when the loop is still running after them. -/
def decodeLoop : Nat → DecodeState → Option DecodeState
  | 0, st => if st.r.Len ≠ 0 then none else some st
  | fuel + 1, st => if st.r.Len ≠ 0 then decodeLoop fuel (decodeBody st) else some st

/-- The record list that decoding the string `mappings` builds, starting from
the nil list. -/
def decodeString (fuel : Nat) (mappings : List Nat) : Option (List Mapping) :=
  (decodeLoop fuel (decodeInit mappings)).map (fun st => st.decodedMappings)

/-- Go `func (m *Map) decodeMappings()`. Appending to the nil slice zero times
leaves it nil. -/
def decodeMappings (fuel : Nat) (m : Map) : Option Map :=
  match m.decodedMappings with
  | some _ => some m
  | none =>
    match decodeString fuel m.Mappings with
    | none => none
    | some [] => some m
    | some (x :: xs) => some { m with decodedMappings := some (x :: xs) }

/-- The elements of a slice that may be nil. -/
def sliceOf (l : Option (List Mapping)) : List Mapping := l.getD []

/-- Go `func (m *Map) DecodedMappings() []*Mapping`: the map afterwards and the
records returned. -/
def DecodedMappings (fuel : Nat) (m : Map) : Option (Map × List Mapping) :=
  (decodeMappings fuel m).map (fun m1 => (m1, sliceOf m1.decodedMappings))

/-- Go `func (m *Map) ClearMappings()`. -/
def ClearMappings (m : Map) : Map := { m with Mappings := [], decodedMappings := none }

/-- Go `func (m *Map) AddMapping(mapping *Mapping)`: `append` on the slice as it is,
nil included. -/
def AddMapping (m : Map) (mapping : Mapping) : Map :=
  { m with decodedMappings := some (sliceOf m.decodedMappings ++ [mapping]) }

/-- Go `func (m *Map) Len() int`: the map afterwards and the length. -/
def Len (fuel : Nat) (m : Map) : Option (Map × Nat) :=
  (decodeMappings fuel m).bind fun m1 =>
    (DecodedMappings fuel m1).map fun p => (p.1, p.2.length)

/-- Go `func (m *Map) Less(i, j int) bool`, on the two records `a` and `b` found at
the indices `i` and `j`. -/
def Less (a b : Mapping) : Bool :=
  a.GeneratedLine < b.GeneratedLine ||
    (a.GeneratedLine == b.GeneratedLine && a.GeneratedColumn < b.GeneratedColumn)

/-! ## Encoding -/

/-- The loop `for v >= 32 { ... }` of the closure `writeVLQ` and the final
`WriteByte`, for a non-negative `v`. A non-negative 64-bit value is below 32
after 12 shifts by 5, so the 12 rounds of fuel are never used up. -/
def writeDigits : Nat → Nat → List Nat
  | 0, v => [encodeDigit v]
  | fuel + 1, v =>
    if v ≥ 32 then encodeDigit (32 ||| (v &&& 31)) :: writeDigits fuel (v >>> 5)
    else [encodeDigit v]

/-- The statement `v |= 1` on a two's complement integer: the lowest bit is set. -/
def orOne (v : Int) : Int := if v % 2 = 0 then v + 1 else v

/-- The closure `writeVLQ` of `EncodeMappings`: the bytes written to `buf`, or
`none` when `base64encode[v]` is indexed by a negative `v` and panics. -/
def writeVLQ (v : Int) : Option (List Nat) :=
  let v1 := wrapInt (v * 2)
  let v2 := if v1 < 0 then orOne (wrapInt (-v1)) else v1
  if v2 < 0 then none else some (writeDigits 12 v2.toNat)

/-- The local variables of `EncodeMappings` that live across rounds of its loop
over the records. -/
structure EncodeState where
  generatedLine : Int
  generatedColumn : Int
  originalFile : Int
  originalLine : Int
  originalColumn : Int
  originalName : Int
  comma : Bool
deriving DecidableEq, Repr

/-- The state `EncodeMappings` enters its loop with. -/
def encodeInit : EncodeState :=
  { generatedLine := 1, generatedColumn := 0, originalFile := 0, originalLine := 1,
    originalColumn := 0, originalName := 0, comma := false }

/-- The loop `for mapping.GeneratedLine > generatedLine { ... }`, which runs
`mapping.GeneratedLine - generatedLine` times when that is positive: the state
afterwards. -/
def advanceLines (st : EncodeState) (mapping : Mapping) : EncodeState :=
  if mapping.GeneratedLine > st.generatedLine then
    { st with generatedLine := mapping.GeneratedLine, generatedColumn := 0, comma := false }
  else st

/-- One round of the loop of `EncodeMappings` over the records: the bytes written
to `buf` and the state afterwards; `none` when a `writeVLQ` panics. -/
def encodeRecord (st : EncodeState) (mapping : Mapping) : Option (List Nat × EncodeState) :=
  let semis := List.replicate (mapping.GeneratedLine - st.generatedLine).toNat 59
  let st1 := advanceLines st mapping
  let sep := if st1.comma then [44] else []
  (writeVLQ (wrapInt (mapping.GeneratedColumn - st1.generatedColumn))).bind fun f0 =>
  let st2 := { st1 with generatedColumn := mapping.GeneratedColumn, comma := true }
  if mapping.OriginalSourceIndex ≥ 0 then
    (writeVLQ (wrapInt (mapping.OriginalSourceIndex - st1.originalFile))).bind fun f1 =>
    (writeVLQ (wrapInt (mapping.OriginalLine - st1.originalLine))).bind fun f2 =>
    (writeVLQ (wrapInt (mapping.OriginalColumn - st1.originalColumn))).bind fun f3 =>
    let st3 := { st2 with originalFile := mapping.OriginalSourceIndex,
                          originalLine := mapping.OriginalLine,
                          originalColumn := mapping.OriginalColumn }
    if mapping.OriginalNameIndex ≥ 0 then
      (writeVLQ (wrapInt (mapping.OriginalNameIndex - st1.originalName))).bind fun f4 =>
      some (semis ++ sep ++ f0 ++ f1 ++ f2 ++ f3 ++ f4,
            { st3 with originalName := mapping.OriginalNameIndex })
    else some (semis ++ sep ++ f0 ++ f1 ++ f2 ++ f3, st3)
  else some (semis ++ sep ++ f0, st2)

/-- The loop `for _, mapping := range m.decodedMappings` of `EncodeMappings`: the
bytes written to `buf` from the state `st` on. -/
def encodeLoop : EncodeState → List Mapping → Option (List Nat)
  | _, [] => some []
  | st, mapping :: rest =>
    (encodeRecord st mapping).bind fun p =>
      (encodeLoop p.2 rest).map fun out => p.1 ++ out

/-- The string `EncodeMappings` builds from records that are already in the order
`sort.Sort` left them in. -/
def encodeRecords (sorted : List Mapping) : Option (List Nat) := encodeLoop encodeInit sorted

/-- What `sort.Sort` promises about its result `sort l` on the records `l`: the
same records, none of them `Less` than one that stands before it. The standard
library does not promise more (the sort need not be stable). -/
def SortContract (sort : List Mapping → List Mapping) : Prop :=
  ∀ l, (sort l).Perm l ∧ (sort l).Pairwise (fun a b => Less b a = false)

/-- The inner loop of the standard library's `insertionSort`: the record `x` just
after the sorted run, whose elements are given nearest first, is swapped
leftwards while it is `Less` than its left neighbour. -/
def sinkLeft (x : Mapping) : List Mapping → List Mapping
  | [] => [x]
  | y :: ys => if Less x y then y :: sinkLeft x ys else x :: y :: ys

/-- The standard library's `insertionSort` over the whole slice, which recent
versions of `sort.Sort` run on a slice of at most 12 elements. -/
def insertionSort (l : List Mapping) : List Mapping :=
  (l.foldl (fun run x => sinkLeft x run) []).reverse

/-- Go `func (m *Map) EncodeMappings()`, with `sort.Sort` given by `sort`.
`sort.Sort(m)` starts with `m.Len()`, which decodes the map. `none` when that
decoding runs out of fuel or a `writeVLQ` panics. -/
def EncodeMappings (sort : List Mapping → List Mapping) (fuel : Nat) (m : Map) : Option Map :=
  (Len fuel m).bind fun p =>
    let sorted := p.1.decodedMappings.map sort
    (encodeRecords (sliceOf sorted)).map fun buf =>
      { p.1 with decodedMappings := sorted, Mappings := buf }

/-! ## The string tables -/

/-- A lookup `v, ok := m[k]` in a Go map held as a list of entries, newest first. -/
def mapLookup {κ ν : Type} [DecidableEq κ] (m : List (κ × ν)) (k : κ) : Option ν :=
  (m.find? (fun e => decide (e.1 = k))).map (fun e => e.2)

/-- The assignment `m[k] = v` in a Go map. -/
def mapStore {κ ν : Type} (m : List (κ × ν)) (k : κ) (v : ν) : List (κ × ν) := (k, v) :: m

/-- Go `func (m *Map) IndexForSource(name string) int`. -/
def IndexForSource (m : Map) (name : String) : Int :=
  match mapLookup m.fileIndexMap name with
  | some i => i
  | none => -1

/-- Go `func (m *Map) IndexForName(name string) int`. -/
def IndexForName (m : Map) (name : String) : Int :=
  match mapLookup m.nameIndexMap name with
  | some i => i
  | none => -1

/-- Go `make([]SourceContent, n)` followed by `copy(l, old)`. -/
def growContent (n : Nat) (old : List (Option (List Nat))) : List (Option (List Nat)) :=
  old.take n ++ List.replicate (n - old.length) none

/-- Go `func (m *Map) AddSource(name string, content []byte) int`: the index
returned and the map afterwards. -/
def AddSource (m : Map) (name : String) (content : Option (List Nat)) : Int × Map :=
  if name = "" then (-1, m)
  else
    match mapLookup m.fileIndexMap name with
    | some i => (i, m)
    | none =>
      let i : Nat := m.Sources.length
      let m1 := { m with Sources := m.Sources ++ [name],
                         fileIndexMap := mapStore m.fileIndexMap name (i : Int) }
      match content with
      | none => ((i : Int), m1)
      | some c =>
        let l := if m1.SourcesContent.length ≠ m1.Sources.length
          then growContent m1.Sources.length m1.SourcesContent else m1.SourcesContent
        ((i : Int), { m1 with SourcesContent := l.set i (some c) })

/-- Go `func (m *Map) AddName(name string) int`: the index returned and the map
afterwards. -/
def AddName (m : Map) (name : String) : Int × Map :=
  if name = "" then (-1, m)
  else
    match mapLookup m.nameIndexMap name with
    | some i => (i, m)
    | none =>
      let i : Nat := m.Names.length
      ((i : Int), { m with Names := m.Names ++ [name],
                           nameIndexMap := mapStore m.nameIndexMap name (i : Int) })

/-- The index expression `l[i]` of Go on a slice: `none` is the panic on an index
out of range. -/
def index {α : Type} (l : List α) (i : Int) : Option α :=
  if i < 0 then none else l.get? i.toNat

/-- Go `func (m *Mapping) OriginalSource() string`, for the record `r` of the map
`m`; `none` is the panic on an index out of range. -/
def OriginalSource (m : Map) (r : Mapping) : Option String :=
  if r.OriginalSourceIndex < 0 then some "" else index m.Sources r.OriginalSourceIndex

/-- The functions of the standard package `path` that the resolver calls. -/
structure PathLib where
  Join : String → String → String
  Clean : String → String
  Dir : String → String
  IsAbs : String → Bool

/-- Go `func (m *Mapping) OriginalFullSource() string`: the path and the owning map
afterwards (its cache may have grown). -/
def OriginalFullSource (P : PathLib) (m : Map) (r : Mapping) : Option (String × Map) :=
  if r.OriginalSourceIndex < 0 then some ("", m)
  else if m.SourceRoot = "" then (OriginalSource m r).map fun s => (s, m)
  else
    match mapLookup m.fullSources r.OriginalSourceIndex with
    | some s => some (s, m)
    | none =>
      (OriginalSource m r).map fun raw =>
        let s := P.Join m.SourceRoot raw
        (s, { m with fullSources := mapStore m.fullSources r.OriginalSourceIndex s })

/-- Go `func (m *Mapping) OriginalResolvedSource() string`: the path and the owning
map afterwards. -/
def OriginalResolvedSource (P : PathLib) (m : Map) (r : Mapping) : Option (String × Map) :=
  if r.OriginalSourceIndex < 0 then some ("", m)
  else if m.File = "" then OriginalFullSource P m r
  else
    match mapLookup m.resolvedSources r.OriginalSourceIndex with
    | some s => some (s, m)
    | none =>
      (OriginalFullSource P m r).map fun p =>
        let s := if P.IsAbs p.1 then p.1 else P.Clean (P.Join (P.Dir p.2.File) p.1)
        (s, { p.2 with resolvedSources := mapStore p.2.resolvedSources r.OriginalSourceIndex s })

/-- Go `func (m *Mapping) OriginalSourceContent() []byte`. -/
def OriginalSourceContent (m : Map) (r : Mapping) : Option (List Nat) :=
  if r.OriginalSourceIndex < 0 then none
  else if (m.SourcesContent.length : Int) > r.OriginalSourceIndex then
    (m.SourcesContent.get? r.OriginalSourceIndex.toNat).join
  else none

/-- Go `func (m *Mapping) OriginalName() string`; `none` is the panic on an index
out of range. -/
def OriginalName (m : Map) (r : Mapping) : Option String :=
  if r.OriginalNameIndex < 0 then some "" else index m.Names r.OriginalNameIndex

/-- The lookup tables `ReadFrom` rebuilds after the JSON document has been
decoded into `m`. -/
def rebuildTables (m : Map) : Map :=
  { m with
    fileIndexMap := (List.range m.Sources.length).foldl
      (fun t i => mapStore t (m.Sources.getD i "") (i : Int)) [],
    nameIndexMap := (List.range m.Names.length).foldl
      (fun t i => mapStore t (m.Names.getD i "") (i : Int)) [] }

/-! ## Segments and fields -/

/-- The value `v` of the loop of `readVLQ` after it has gone through the digits
`f`, when it entered with value `v` and shift `s`. -/
def fieldAcc : List Nat → Int → Nat → Int
  | [], v, _ => v
  | b :: bs, v, s =>
    fieldAcc bs
      (wrapInt (v + wrapInt (((base64decode b - (base64decode b &&& 32) : Nat) : Int) * 2 ^ s)))
      (s + 5)

/-- A complete VLQ field: base64 digits, the last one without the continuation
bit and all the others with it. -/
def isField : List Nat → Bool
  | [] => false
  | [t] => base64decode t != 0xff && (base64decode t &&& 32) == 0
  | c :: d :: rest =>
    base64decode c != 0xff && (base64decode c &&& 32) != 0 && isField (d :: rest)

/-- The last two statements of `readVLQ`: the sign is the lowest bit. -/
def signedOf (v : Int) : Int :=
  if v % 2 ≠ 0 then wrapInt (-(v >>> (1 : Nat))) else v >>> (1 : Nat)

/-- The value `readVLQ` returns when it reads the field `f`. -/
def fieldValue (f : List Nat) : Int := (readVLQ (NewReader f) 0).1



/-- The state after a round of the main loop of `decodeMappings` in which the
five calls of `readVLQ` read fields with the values `vals` (a call that read no
field counts as absent) over `len` bytes. -/
def segRound (st : DecodeState) (vals : List Int) (len : Nat) : DecodeState :=
  { r := ⟨st.r.s, st.r.i + len⟩,
    generatedLine := st.generatedLine,
    generatedColumn := wrapInt (st.generatedColumn + vals.getD 0 0),
    originalFile := wrapInt (st.originalFile + vals.getD 1 0),
    originalLine := wrapInt (st.originalLine + vals.getD 2 0),
    originalColumn := wrapInt (st.originalColumn + vals.getD 3 0),
    originalName := wrapInt (st.originalName + vals.getD 4 0),
    decodedMappings := st.decodedMappings ++
      switchCount vals.length st.generatedLine
        (wrapInt (st.generatedColumn + vals.getD 0 0))
        (wrapInt (st.originalFile + vals.getD 1 0))
        (wrapInt (st.originalLine + vals.getD 2 0))
        (wrapInt (st.originalColumn + vals.getD 3 0))
        (wrapInt (st.originalName + vals.getD 4 0)) }

/-- The state after a round of the main loop of `decodeMappings` that read the
separator `sep`. -/
def sepRound (st : DecodeState) (sep : Nat) : DecodeState :=
  if sep = 44 then { st with r := ⟨st.r.s, st.r.i + 1⟩ }
  else { st with r := ⟨st.r.s, st.r.i + 1⟩, generatedLine := st.generatedLine + 1,
                 generatedColumn := 0 }



/-- A segment of a mappings string together with the separator that follows it:
the text between two separators, as a list of fields, and the byte `,` or `;`
that ends it. No fields at all is a stray separator. -/
structure Segment where
  fields : List (List Nat)
  sep : Nat
deriving DecidableEq, Repr

/-- The bytes of a segment and its separator. -/
def Segment.bytes (c : Segment) : List Nat := c.fields.flatten ++ [c.sep]

/-- The mappings string made of the segments `cs`, each followed by its
separator. -/
def render (cs : List Segment) : List Nat := (cs.map Segment.bytes).flatten

/-- A segment of at most five complete VLQ fields that ends in `,` or `;`. -/
def Segment.wf (c : Segment) : Bool :=
  c.fields.all isField && decide (c.fields.length ≤ 5) && (c.sep == 44 || c.sep == 59)

/-- The values of the fields of a segment, as `readVLQ` returns them. -/
def Segment.deltas (c : Segment) : List Int := c.fields.map fieldValue

/-- The state of the decoder after the rounds of its main loop that read the
segment `c` and its separator. -/
def segStep (st : DecodeState) (c : Segment) : DecodeState :=
  sepRound (if c.fields = [] then st else segRound st c.deltas c.fields.flatten.length) c.sep

/-- Whether the `switch count` appends a record for a segment of that many fields. -/
def Segment.hasRecord (c : Segment) : Bool :=
  c.fields.length = 1 || c.fields.length = 4 || c.fields.length = 5

/-- The sum of the deltas that the segments `cs` hold in field number `j`
(0 the generated column, 1 the source index, 2 the original line, 3 the original
column, 4 the name index); a segment without that field adds nothing. -/
def deltaSum (j : Nat) (cs : List Segment) : Int := (cs.map fun c => c.deltas.getD j 0).sum

/-- The segments of the last line of `cs`: those after the last `;`. -/
def lastLine (cs : List Segment) : List Segment :=
  (cs.reverse.takeWhile fun c => c.sep != 59).reverse

/-- The number of `;` among the separators of `cs`. -/
def lineBreaks (cs : List Segment) : Nat := (cs.filter fun c => c.sep == 59).length



/-- The state of the decoder after the segments `cs`, the reader left aside. -/
def stateAfter (cs : List Segment) : DecodeState := cs.foldl segStep (decodeInit [])



/-- The variables of the decoder other than the reader. -/
def DecodeState.vars (st : DecodeState) : Int × Int × Int × Int × Int × Int × List Mapping :=
  (st.generatedLine, st.generatedColumn, st.originalFile, st.originalLine, st.originalColumn,
    st.originalName, st.decodedMappings)



/-- A record the encoder can write as a segment of 4 or 5 fields that the decoder
reads back: a line number from 1 on, a source, a name index that is an index or
-1, and columns, lines and indices below 2^61 in magnitude, so that the doubled
difference of any two of them fits the 64-bit integer. -/
def Mapping.encodable (m : Mapping) : Prop :=
  1 ≤ m.GeneratedLine ∧ 0 ≤ m.OriginalSourceIndex ∧ -1 ≤ m.OriginalNameIndex ∧
  |m.GeneratedColumn| < 2 ^ 61 ∧ m.OriginalSourceIndex < 2 ^ 61 ∧ |m.OriginalLine| < 2 ^ 61 ∧
  |m.OriginalColumn| < 2 ^ 61 ∧ m.OriginalNameIndex < 2 ^ 61

instance (m : Mapping) : Decidable m.encodable := by
  unfold Mapping.encodable
  exact inferInstance

/-- The key `Less` compares records by. -/
def Mapping.key (m : Mapping) : Int × Int := (m.GeneratedLine, m.GeneratedColumn)



/-- The running variables of the encoder stay small enough for every difference
with a field of an encodable record to be written. -/
def EncodeState.small (st : EncodeState) : Prop :=
  |st.generatedColumn| < 2 ^ 61 ∧ |st.originalFile| < 2 ^ 61 ∧ |st.originalLine| < 2 ^ 61 ∧
  |st.originalColumn| < 2 ^ 61 ∧ |st.originalName| < 2 ^ 61

/-- The decoder stands where the encoder stood: their running variables agree. -/
def linked (est : EncodeState) (dst : DecodeState) : Prop :=
  dst.generatedLine = est.generatedLine ∧ dst.generatedColumn = est.generatedColumn ∧
  dst.originalFile = est.originalFile ∧ dst.originalLine = est.originalLine ∧
  dst.originalColumn = est.originalColumn ∧ dst.originalName = est.originalName



/-! ## Sample inputs -/

/-- Three records, two of them on line 1, in no particular order. -/
def sampleRecords : List Mapping :=
  [⟨2, 0, 1, 1, 0, -1⟩, ⟨1, 1, 0, 1, 1, -1⟩, ⟨1, 5, 0, 1, 5, 0⟩]

/-- The records of `sampleRecords` in another order. -/
def sampleRecordsShuffled : List Mapping :=
  [⟨1, 5, 0, 1, 5, 0⟩, ⟨2, 0, 1, 1, 0, -1⟩, ⟨1, 1, 0, 1, 1, -1⟩]



/-- The segment `CAAC` followed by `,`. -/
def sampleSegmentCAAC : Segment := ⟨[ascii "C", ascii "A", ascii "A", ascii "C"], 44⟩

/-- The segment `IAAI` followed by `,`. -/
def sampleSegmentIAAI : Segment := ⟨[ascii "I", ascii "A", ascii "A", ascii "I"], 44⟩

/-- The one-field segment `C` followed by `,`. -/
def sampleSegmentC : Segment := ⟨[ascii "C"], 44⟩

/-- A stray `,`: a segment without fields. -/
def sampleStrayComma : Segment := ⟨[], 44⟩



/-- The map `a` of the merge scenario: `one.js` and `two.js` interned, no records. -/
def sampleA : Map := (AddSource (AddSource New "one.js" none).2 "two.js" none).2

/-- The map `b` of the merge scenario: sources `three.js` and `four.js`, one name,
no source root, no file, and three decoded records that refer to both sources. -/
def sampleB : Map :=
  rebuildTables { New with
    Sources := ["three.js", "four.js"], Names := ["foo"],
    decodedMappings := some [⟨1, 0, 0, 1, 0, 0⟩, ⟨1, 4, 0, 1, 4, -1⟩, ⟨2, 0, 1, 1, 0, -1⟩] }

/-! ## Sequences of interning calls -/

/-- A sequence of `AddSource` calls, one per entry of `calls` (name and content):
the indices returned, in order, and the map afterwards. -/
def addSources (m : Map) : List (String × Option (List Nat)) → List Int × Map
  | [] => ([], m)
  | c :: rest =>
    let r := AddSource m c.1 c.2
    let q := addSources r.2 rest
    (r.1 :: q.1, q.2)

/-- A sequence of `AddName` calls: the indices returned, in order, and the map
afterwards. -/
def addNames (m : Map) : List String → List Int × Map
  | [] => ([], m)
  | n :: rest =>
    let r := AddName m n
    let q := addNames r.2 rest
    (r.1 :: q.1, q.2)

/-- The distinct values of `l` in the order in which they first occur. -/
def firstSeen : List String → List String
  | [] => []
  | s :: rest => s :: (firstSeen rest).filter (fun x => x ≠ s)

/-- The lookup table `tbl` is exactly the index of `l`: a value of `l` is looked up
to the position where it first stands, and no other value has an entry. -/
def tableExact (l : List String) (tbl : List (String × Int)) : Prop :=
  ∀ x, mapLookup tbl x = if x ∈ l then some (l.indexOf x : Int) else none

/-- The string-table invariant of a map: no value twice in `Sources` or in `Names`,
and both lookup tables are exactly the indices of their lists. -/
def Map.tablesExact (m : Map) : Prop :=
  m.Sources.Nodup ∧ m.Names.Nodup ∧
  tableExact m.Sources m.fileIndexMap ∧ tableExact m.Names m.nameIndexMap

/-- The lookup table that the loop `for i, s := range l` of `ReadFrom` builds from
the list `l`; `rebuildTables` holds this table for `Sources` and for `Names`. -/
def tableOf (l : List String) : List (String × Int) :=
  (List.range l.length).foldl (fun t i => mapStore t (l.getD i "") (i : Int)) []

/-! ## Sorting -/

/-- The procedure `sort` looks at the records only through `Less`, as `sort.Sort`
does through the methods `Len`, `Less` and `Swap`: changing fields of the records
that `Less` does not read changes nothing in how they are rearranged. -/
def SortUsesLessOnly (sort : List Mapping → List Mapping) : Prop :=
  ∀ f : Mapping → Mapping, (∀ x, (f x).key = x.key) → ∀ l, sort (l.map f) = (sort l).map f

/-- The record `m` with the fields that mean nothing without a source put to the
values the decoder gives a one-field segment; a record with a source is left as it
is. -/
def collapse (m : Mapping) : Mapping :=
  if m.OriginalSourceIndex < 0 then
    { m with OriginalLine := 0, OriginalColumn := 0, OriginalNameIndex := -1 }
  else m

/-! ## The package `path` -/

/-- The elements of a path between its slashes. -/
def pathElems (p : List Char) : List (List Char) :=
  p.foldr (fun c acc =>
    if c = '/' then [] :: acc
    else match acc with
      | [] => [[c]]
      | e :: es => (c :: e) :: es) [[]]

/-- One element met by `path.Clean`, the elements kept so far given last first:
an empty element and `.` are dropped, `..` removes the element before it, is
dropped at the root, and is kept at the start of a path that is not rooted. -/
def cleanStep (rooted : Bool) (kept : List (List Char)) (e : List Char) : List (List Char) :=
  if e = [] ∨ e = ['.'] then kept
  else if e = ['.', '.'] then
    match kept with
    | [] => if rooted then [] else [e]
    | top :: rest => if top = ['.', '.'] then e :: kept else rest
  else e :: kept

/-- Go `path.Clean`, after its documentation. -/
def pathClean (p : String) : String :=
  if p = "" then "."
  else
    let rooted : Bool := p.data.head? = some '/'
    let body := String.mk
      (List.intercalate ['/'] ((pathElems p.data).foldl (cleanStep rooted) []).reverse)
    if rooted then "/" ++ body else if body = "" then "." else body

/-- Go `path.Join` of two elements, after its documentation: empty elements are
ignored and the result is cleaned; two empty elements give the empty string. -/
def pathJoin (a b : String) : String :=
  if a = "" then (if b = "" then "" else pathClean b)
  else if b = "" then pathClean a
  else pathClean (a ++ "/" ++ b)

/-- The part of a path up to and including its last slash. -/
def dirPart (p : List Char) : List Char :=
  (p.reverse.dropWhile (fun c => c ≠ '/')).reverse

/-- Go `path.Dir`, after its documentation. -/
def pathDir (p : String) : String := pathClean (String.mk (dirPart p.data))

/-- The package `path` of the standard library, as far as the resolver calls it. -/
def goPath : PathLib :=
  { Join := pathJoin, Clean := pathClean, Dir := pathDir,
    IsAbs := fun p => p.data.head? = some '/' }

/-! ## More sample inputs -/

/-- Four `AddSource` calls, the third with a name given before. -/
def sampleCalls : List (String × Option (List Nat)) :=
  [("a.js", none), ("b.js", some [1]), ("a.js", some [2]), ("c.js", none)]

/-- Three `AddName` calls, the third with a name given before. -/
def sampleNames : List String := ["x", "y", "x"]

/-- A map that holds the records of `sampleRecordsShuffled` and no string. -/
def sampleShuffledMap : Map := { New with decodedMappings := some sampleRecordsShuffled }

/-- The map `EncodeMappings` makes of `sampleShuffledMap`. -/
def sampleEncoded : Map :=
  { New with
    decodedMappings := some [⟨1, 1, 0, 1, 1, -1⟩, ⟨1, 5, 0, 1, 5, 0⟩, ⟨2, 0, 1, 1, 0, -1⟩],
    Mappings := ascii "CAAC,IAAIA;ACAL" }

/-- Two records, the first without a source and with values in the fields that
mean nothing without a source. -/
def sampleSourceless : List Mapping := [⟨1, 0, -1, 5, 6, 7⟩, ⟨1, 4, 0, 1, 4, -1⟩]

/-- A map as `ReadFrom` leaves it, loaded from a document with the source root
`/the/root`, the file `min.js` and the sources `one.js` and `two.js`. -/
def sampleLoaded : Map :=
  rebuildTables { New with File := "min.js", SourceRoot := "/the/root",
                           Sources := ["one.js", "two.js"] }

/-- A map with three sources, of which only the first has a content. -/
def sampleContent : Map :=
  (addSources New [("a.js", some [97]), ("b.js", none), ("c.js", none)]).2

/-- A map as `ReadFrom` leaves it, loaded from a document that lists the source
`a.js` twice. -/
def sampleDuplicates : Map :=
  rebuildTables { New with Sources := ["a.js", "b.js", "a.js"], Names := ["n", "n"] }

/-- A map as `ReadFrom` leaves it, loaded from a document with the mappings string
`CAAC,` and one source; the string has not been decoded. -/
def sampleUndecoded : Map :=
  rebuildTables { New with Sources := ["one.js"], Mappings := ascii "CAAC," }

/-! ## The standard library's `sort.Sort`

The procedure `sort.Sort` of Go's package `sort` (pattern-defeating quicksort, the
implementation of Go 1.19 and later), written
after its source over the slice of records, with `data.Less(i, j)` the method
`Less` of `Map` and `data.Swap(i, j)` the method `Swap`. The loops run on fuel that
their bounds never use up. -/

/-- The procedure `sort` leaves a slice that is in ascending order as it is. -/
def SortKeepsSorted (sort : List Mapping → List Mapping) : Prop :=
  ∀ l, l.Pairwise (fun a b => Less b a = false) → sort l = l

/-- Go `func (m *Map) Less(i, j int) bool` on the slice `d`. -/
def lessAt (d : List Mapping) (i j : Nat) : Bool :=
  match d.get? i, d.get? j with
  | some x, some y => Less x y
  | _, _ => false

/-- Go `func (m *Map) Swap(i, j int)` on the slice `d`. -/
def swapAt (d : List Mapping) (i j : Nat) : List Mapping :=
  match d.get? i, d.get? j with
  | some x, some y => (d.set i y).set j x
  | _, _ => d

/-- Go `bits.Len(uint(n))`: the number of bits of `n`. -/
def bitsLen : Nat → Nat → Nat
  | 0, _ => 0
  | fuel + 1, n => if n = 0 then 0 else bitsLen fuel (n / 2) + 1

/-- The library's `insertionSort(data, a, b)`: insertion sort of `data[a:b]`. -/
def insertionSortRange (d : List Mapping) (a b : Nat) : List Mapping :=
  d.take a ++ insertionSort ((d.drop a).take (b - a)) ++ d.drop b

/-- The library's `siftDown(data, lo, hi, first)`, `lo` being `root`. -/
def siftDown (first hi : Nat) : Nat → Nat → List Mapping → List Mapping
  | 0, _, d => d
  | fuel + 1, root, d =>
    let child := 2 * root + 1
    if child ≥ hi then d
    else
      let child1 :=
        if child + 1 < hi && lessAt d (first + child) (first + child + 1) then child + 1
        else child
      if !lessAt d (first + root) (first + child1) then d
      else siftDown first hi fuel child1 (swapAt d (first + root) (first + child1))

/-- The library's `heapSort(data, a, b)`. -/
def heapSort (d : List Mapping) (a b : Nat) : List Mapping :=
  let hi := b - a
  let built := (List.range ((hi - 1) / 2 + 1)).reverse.foldl
    (fun d i => siftDown a hi hi i d) d
  (List.range hi).reverse.foldl (fun d i => siftDown a i hi 0 (swapAt d a (a + i))) built

/-- The library's `func (r *xorshift) Next() uint64`, on 64 bits. -/
def xorshiftNext (r : Nat) : Nat :=
  let r1 := r ^^^ ((r <<< 13) % 2 ^ 64)
  let r2 := r1 ^^^ (r1 >>> 7)
  r2 ^^^ ((r2 <<< 17) % 2 ^ 64)

/-- The library's `breakPatterns(data, a, b)`: three swaps at positions drawn from
`xorshift(length)`. -/
def breakPatterns (d : List Mapping) (a b : Nat) : List Mapping :=
  let length := b - a
  if length ≥ 8 then
    let modulus := 2 ^ bitsLen 64 length
    let idx := a + (length / 4) * 2 - 1
    let r1 := xorshiftNext length
    let r2 := xorshiftNext r1
    let r3 := xorshiftNext r2
    let other := fun r : Nat =>
      if r % modulus ≥ length then r % modulus - length else r % modulus
    swapAt (swapAt (swapAt d (idx - 1) (a + other r1)) idx (a + other r2)) (idx + 1)
      (a + other r3)
  else d

/-- The library's `sortedHint`. -/
inductive SortedHint where
  | unknownHint
  | increasingHint
  | decreasingHint
deriving DecidableEq, Repr

/-- The library's `order2(data, a, b, swaps)`: the two indices in order, and the
count of swaps. -/
def order2 (d : List Mapping) (a b swaps : Nat) : Nat × Nat × Nat :=
  if lessAt d b a then (b, a, swaps + 1) else (a, b, swaps)

/-- The library's `median(data, a, b, c, swaps)`: the index of the median and the
count of swaps. -/
def median (d : List Mapping) (a b c swaps : Nat) : Nat × Nat :=
  let p := order2 d a b swaps
  let q := order2 d p.2.1 c p.2.2
  let r := order2 d p.1 q.1 q.2.2
  (r.2.1, r.2.2)

/-- The library's `medianAdjacent(data, a, swaps)`. -/
def medianAdjacent (d : List Mapping) (a swaps : Nat) : Nat × Nat :=
  median d (a - 1) a (a + 1) swaps

/-- The library's `choosePivot(data, a, b)`. -/
def choosePivot (d : List Mapping) (a b : Nat) : Nat × SortedHint :=
  let l := b - a
  let i := a + l / 4 * 1
  let j := a + l / 4 * 2
  let k := a + l / 4 * 3
  let r : Nat × Nat :=
    if l ≥ 8 then
      if l ≥ 50 then
        let mi := medianAdjacent d i 0
        let mj := medianAdjacent d j mi.2
        let mk := medianAdjacent d k mj.2
        median d mi.1 mj.1 mk.1 mk.2
      else median d i j k 0
    else (j, 0)
  (r.1, if r.2 = 0 then SortedHint.increasingHint
        else if r.2 = 12 then SortedHint.decreasingHint else SortedHint.unknownHint)

/-- The library's `reverseRange(data, a, b)`. -/
def reverseRange (d : List Mapping) (a b : Nat) : List Mapping :=
  d.take a ++ ((d.drop a).take (b - a)).reverse ++ d.drop b

/-- The loop `for i <= j && p(i) { i++ }`, on fuel: the length of the slice is
enough, `j` being an index of it. -/
def scanUp (p : Nat → Bool) (j : Nat) : Nat → Nat → Nat
  | 0, i => i
  | fuel + 1, i => if i ≤ j && p i then scanUp p j fuel (i + 1) else i

/-- The loop `for i <= j && p(j) { j-- }`. -/
def scanDown (p : Nat → Bool) (i : Nat) : Nat → Nat → Nat
  | 0, j => j
  | fuel + 1, j => if i ≤ j && p j then scanDown p i fuel (j - 1) else j

/-- The loop `for { ... }` of the library's `partition`: the slice and `j`
afterwards. -/
def partitionLoop (a : Nat) : Nat → List Mapping → Nat → Nat → List Mapping × Nat
  | 0, d, _, j => (d, j)
  | fuel + 1, d, i, j =>
    let i1 := scanUp (fun x => lessAt d x a) j d.length i
    let j1 := scanDown (fun x => !lessAt d x a) i1 d.length j
    if i1 > j1 then (d, j1)
    else partitionLoop a fuel (swapAt d i1 j1) (i1 + 1) (j1 - 1)

/-- The library's `partition(data, a, b, pivot)`: the slice, the new pivot index
and `alreadyPartitioned`. -/
def partition (d : List Mapping) (a b pivot : Nat) : List Mapping × Nat × Bool :=
  let d1 := swapAt d a pivot
  let i := scanUp (fun x => lessAt d1 x a) (b - 1) d.length (a + 1)
  let j := scanDown (fun x => !lessAt d1 x a) i d.length (b - 1)
  if i > j then (swapAt d1 j a, j, true)
  else
    let r := partitionLoop a (b - a) (swapAt d1 i j) (i + 1) (j - 1)
    (swapAt r.1 r.2 a, r.2, false)

/-- The loop `for { ... }` of the library's `partitionEqual`: the slice and `i`
afterwards. -/
def partitionEqualLoop (a : Nat) : Nat → List Mapping → Nat → Nat → List Mapping × Nat
  | 0, d, i, _ => (d, i)
  | fuel + 1, d, i, j =>
    let i1 := scanUp (fun x => !lessAt d a x) j d.length i
    let j1 := scanDown (fun x => lessAt d a x) i1 d.length j
    if i1 > j1 then (d, i1)
    else partitionEqualLoop a fuel (swapAt d i1 j1) (i1 + 1) (j1 - 1)

/-- The library's `partitionEqual(data, a, b, pivot)`: the slice and the new pivot
index. -/
def partitionEqual (d : List Mapping) (a b pivot : Nat) : List Mapping × Nat :=
  partitionEqualLoop a (b - a) (swapAt d a pivot) (a + 1) (b - 1)

/-- The loop `for j := i - 1; j >= 1; j-- { ... }` of `partialInsertionSort`, which
shifts the smaller record to the left; the argument is `j`. -/
def shiftSmaller : Nat → List Mapping → List Mapping
  | 0, d => d
  | j + 1, d => if !lessAt d (j + 1) j then d else shiftSmaller j (swapAt d (j + 1) j)

/-- The loop `for j := i + 1; j < b; j++ { ... }` of `partialInsertionSort`, which
shifts the greater record to the right. -/
def shiftGreater (b : Nat) : Nat → Nat → List Mapping → List Mapping
  | 0, _, d => d
  | fuel + 1, j, d =>
    if j < b then
      if !lessAt d j (j - 1) then d else shiftGreater b fuel (j + 1) (swapAt d j (j - 1))
    else d

/-- The loop `for i < b && !data.Less(i, i-1) { i++ }` of `partialInsertionSort`. -/
def walkSorted (d : List Mapping) (b : Nat) : Nat → Nat → Nat
  | 0, i => i
  | fuel + 1, i => if i < b && !lessAt d i (i - 1) then walkSorted d b fuel (i + 1) else i

/-- The loop `for j := 0; j < maxSteps; j++ { ... }` of `partialInsertionSort`,
with `steps` rounds left. -/
def partialInsertionSteps (a b : Nat) : Nat → Nat → List Mapping → List Mapping × Bool
  | 0, _, d => (d, false)
  | steps + 1, i, d =>
    let i1 := walkSorted d b d.length i
    if i1 = b then (d, true)
    else if b - a < 50 then (d, false)
    else
      let d1 := swapAt d i1 (i1 - 1)
      let d2 := if i1 - a ≥ 2 then shiftSmaller (i1 - 1) d1 else d1
      let d3 := if b - i1 ≥ 2 then shiftGreater b (b - i1) (i1 + 1) d2 else d2
      partialInsertionSteps a b steps i1 d3

/-- The library's `partialInsertionSort(data, a, b)`: the slice, and whether it is
sorted at the end. -/
def partialInsertionSort (d : List Mapping) (a b : Nat) : List Mapping × Bool :=
  partialInsertionSteps a b 5 (a + 1) d

/-- The library's `pdqsort(data, a, b, limit)`, entered with the values
`wasBalanced` and `wasPartitioned` of its loop; a call from outside enters with
both true. Every round of the loop and every recursive call works on a shorter
`data[a:b]`, so fuel `b - a` is never used up. -/
def pdqsort : Nat → List Mapping → Nat → Nat → Nat → Bool → Bool → List Mapping
  | 0, d, _, _, _, _, _ => d
  | fuel + 1, d, a, b, limit, wasBalanced, wasPartitioned =>
    let length := b - a
    if length ≤ 12 then insertionSortRange d a b
    else if limit = 0 then heapSort d a b
    else
      let d1 := if wasBalanced then d else breakPatterns d a b
      let limit1 := if wasBalanced then limit else limit - 1
      let c := choosePivot d1 a b
      let d2 := if c.2 = SortedHint.decreasingHint then reverseRange d1 a b else d1
      let pivot := if c.2 = SortedHint.decreasingHint then (b - 1) - (c.1 - a) else c.1
      let hint :=
        if c.2 = SortedHint.decreasingHint then SortedHint.increasingHint else c.2
      let s : List Mapping × Bool :=
        if wasBalanced && wasPartitioned && hint = SortedHint.increasingHint then
          partialInsertionSort d2 a b
        else (d2, false)
      if s.2 then s.1
      else if a > 0 && !lessAt s.1 (a - 1) pivot then
        let e := partitionEqual s.1 a b pivot
        pdqsort fuel e.1 e.2 b limit1 wasBalanced wasPartitioned
      else
        let t := partition s.1 a b pivot
        let mid := t.2.1
        let leftLen := mid - a
        let rightLen := b - mid
        let balanceThreshold := length / 8
        if leftLen < rightLen then
          pdqsort fuel (pdqsort fuel t.1 a mid limit1 true true) (mid + 1) b limit1
            (decide (leftLen ≥ balanceThreshold)) t.2.2
        else
          pdqsort fuel (pdqsort fuel t.1 (mid + 1) b limit1 true true) a mid limit1
            (decide (rightLen ≥ balanceThreshold)) t.2.2

/-- Go `sort.Sort(data)` on the slice of records of a map. -/
def goSort (l : List Mapping) : List Mapping :=
  if l.length ≤ 1 then l
  else pdqsort l.length l 0 l.length (bitsLen 64 l.length) true true

/-- Thirteen records: twelve on line 1, column 5, numbered 0 to 11 by their original
column, followed by one on line 1, column 0. -/
def sampleThirteen : List Mapping :=
  (List.range 12).map (fun i => (⟨1, 5, 0, 1, (i : Int), -1⟩ : Mapping)) ++ [⟨1, 0, 0, 1, 12, -1⟩]

/-- A map that holds the records of `sampleThirteen`. -/
def sampleThirteenMap : Map := { New with decodedMappings := some sampleThirteen }

/-! ## Maps as objects: the back pointer of a record

Every `Mapping` of the code points back at a map (its field `m`), and the methods
of a record read the tables of that map, whichever map holds the record.
`decodeMappings` makes the records of `m` point back at `m`, `Append` makes the
copies point back at `a`, and `AddMapping` stores the record it is given as it is.
To follow the pointer, the maps are the objects of a heap: a `*Map` is a position
in the list of objects and nil is `none`. A record is its back pointer and its six
fields. A result `none` is a panic (nil or an index out of range), or a decoding
that ran out of fuel. -/

/-- A map as an object: the struct, and next to it the back pointers `m` of the
records of its `decodedMappings`, in the order of the slice. -/
structure Obj where
  map : Map
  owners : List (Option Nat)
deriving DecidableEq, Repr

/-- The records of a map, each with its back pointer. A record whose back pointer
the object does not list has the nil pointer. -/
def ownedRecords (o : Obj) : List (Option Nat × Mapping) :=
  (o.owners ++ List.replicate (sliceOf o.map.decodedMappings).length none).zip
    (sliceOf o.map.decodedMappings)

/-- Go `func (m *Map) decodeMappings()` for the map at `p`: the records it builds
point back at `p`. -/
def decodeAt (fuel : Nat) (h : List Obj) (p : Nat) : Option (List Obj) :=
  match h.get? p with
  | none => none
  | some o =>
    match o.map.decodedMappings with
    | some _ => some h
    | none =>
      (decodeMappings fuel o.map).map fun m1 =>
        h.set p { map := m1,
                  owners := List.replicate (sliceOf m1.decodedMappings).length (some p) }

/-- Go `func (m *Map) DecodedMappings() []*Mapping` for the map at `p`: the heap
afterwards and the records returned. -/
def DecodedMappingsAt (fuel : Nat) (h : List Obj) (p : Nat) :
    Option (List Obj × List (Option Nat × Mapping)) :=
  (decodeAt fuel h p).bind fun h1 => (h1.get? p).map fun o => (h1, ownedRecords o)

/-- Go `func (m *Map) AddSource(name string, content []byte) int` for the map at
`p`: the heap afterwards. -/
def AddSourceAt (h : List Obj) (p : Nat) (name : String) (content : Option (List Nat)) :
    Option (List Obj) :=
  (h.get? p).map fun o => h.set p { o with map := (AddSource o.map name content).2 }

/-- Go `func (m *Map) AddName(name string) int` for the map at `p`: the heap
afterwards. -/
def AddNameAt (h : List Obj) (p : Nat) (name : String) : Option (List Obj) :=
  (h.get? p).map fun o => h.set p { o with map := (AddName o.map name).2 }

/-- Go `func (m *Map) AddMapping(mapping *Mapping)` for the map at `p`: the record
is stored with the back pointer it has. -/
def AddMappingAt (h : List Obj) (p : Nat) (mapping : Option Nat × Mapping) :
    Option (List Obj) :=
  (h.get? p).map fun o =>
    h.set p { map := AddMapping o.map mapping.2,
              owners := (ownedRecords o).map Prod.fst ++ [mapping.1] }

/-- Go `func (m *Map) ClearMappings()` for the map at `p`. -/
def ClearMappingsAt (h : List Obj) (p : Nat) : Option (List Obj) :=
  (h.get? p).map fun o => h.set p { map := ClearMappings o.map, owners := [] }

/-- Go `func (m *Map) EncodeMappings()` for the map at `p`, with `sort.Sort` given
by `osort` on the records with their back pointers; a nil slice stays nil. -/
def EncodeMappingsAt (osort : List (Option Nat × Mapping) → List (Option Nat × Mapping))
    (fuel : Nat) (h : List Obj) (p : Nat) : Option (List Obj) :=
  (decodeAt fuel h p).bind fun h1 =>
  (h1.get? p).bind fun o =>
    let sorted := if o.map.decodedMappings.isSome then osort (ownedRecords o) else []
    (encodeRecords (sorted.map Prod.snd)).map fun buf =>
      h1.set p { map := { o.map with
                          decodedMappings := o.map.decodedMappings.map fun _ => sorted.map Prod.snd,
                          Mappings := buf },
                 owners := sorted.map Prod.fst }

/-- The inner loop of `insertionSort` on records with their back pointers. -/
def sinkLeftOwned (x : Option Nat × Mapping) :
    List (Option Nat × Mapping) → List (Option Nat × Mapping)
  | [] => [x]
  | y :: ys => if Less x.2 y.2 then y :: sinkLeftOwned x ys else x :: y :: ys

/-- The standard library's `insertionSort` on records with their back pointers. -/
def insertionSortOwned (l : List (Option Nat × Mapping)) : List (Option Nat × Mapping) :=
  (l.foldl (fun run x => sinkLeftOwned x run) []).reverse

/-- Go `func (m *Mapping) OriginalSource() string` for the record `r` in the heap
`h`: the map read is the one the back pointer points at. -/
def OriginalSourceAt (h : List Obj) (r : Option Nat × Mapping) : Option String :=
  if r.2.OriginalSourceIndex < 0 then some ""
  else
    match r.1 with
    | none => none
    | some q =>
      match h.get? q with
      | none => none
      | some o => OriginalSource o.map r.2

/-- Go `func (m *Mapping) OriginalResolvedSource() string` for the record `r` in the
heap `h`: the path, and the heap afterwards (the caches of the map the back pointer
points at may have grown). -/
def OriginalResolvedSourceAt (P : PathLib) (h : List Obj) (r : Option Nat × Mapping) :
    Option (String × List Obj) :=
  if r.2.OriginalSourceIndex < 0 then some ("", h)
  else
    match r.1 with
    | none => none
    | some q =>
      match h.get? q with
      | none => none
      | some o =>
        (OriginalResolvedSource P o.map r.2).map fun s => (s.1, h.set q { o with map := s.2 })

/-- Go `func (m *Mapping) OriginalSourceContent() []byte` for the record `r` in the
heap `h`; `some none` is the nil content. -/
def OriginalSourceContentAt (h : List Obj) (r : Option Nat × Mapping) :
    Option (Option (List Nat)) :=
  if r.2.OriginalSourceIndex < 0 then some none
  else
    match r.1 with
    | none => none
    | some q =>
      match h.get? q with
      | none => none
      | some o => some (OriginalSourceContent o.map r.2)

/-- Go `func (m *Mapping) OriginalName() string` for the record `r` in the heap
`h`. -/
def OriginalNameAt (h : List Obj) (r : Option Nat × Mapping) : Option String :=
  if r.2.OriginalNameIndex < 0 then some ""
  else
    match r.1 with
    | none => none
    | some q =>
      match h.get? q with
      | none => none
      | some o => OriginalName o.map r.2

/-! ## `Append` -/

/-- The variables of the loop of `Append`, with the heap. -/
structure AppendState where
  h : List Obj
  a_last_source_index : Int
  b_last_source_index : Int

/-- The statement `if b_last_source_index == bm.OriginalSourceIndex { ... } else
{ ... }` of the loop of `Append`, `a` being the map at `pa`: the state afterwards,
in which `a_last_source_index` is the source index of the copy. -/
def appendSource (P : PathLib) (pa : Nat) (st : AppendState) (bm : Option Nat × Mapping) :
    Option AppendState :=
  if st.b_last_source_index = bm.2.OriginalSourceIndex then some st
  else
    (OriginalResolvedSourceAt P st.h bm).bind fun s =>
    (OriginalSourceContentAt s.2 bm).bind fun c =>
    (s.2.get? pa).map fun oa =>
      { h := s.2.set pa { oa with map := (AddSource oa.map s.1 c).2 },
        a_last_source_index := (AddSource oa.map s.1 c).1,
        b_last_source_index := bm.2.OriginalSourceIndex }

/-- The body of the loop of `Append` for the record `bm` of `b`: the state
afterwards and the fields of the copy `am`, whose back pointer is `a`. -/
def appendRecord (P : PathLib) (pa : Nat) (line_offset : Int) (st : AppendState)
    (bm : Option Nat × Mapping) : Option (AppendState × Mapping) :=
  (appendSource P pa st bm).bind fun st1 =>
  (OriginalNameAt st1.h bm).bind fun n =>
  (st1.h.get? pa).map fun oa =>
    ({ st1 with h := st1.h.set pa { oa with map := (AddName oa.map n).2 } },
     { bm.2 with OriginalSourceIndex := st1.a_last_source_index,
                 OriginalNameIndex := (AddName oa.map n).1,
                 GeneratedLine := wrapInt (bm.2.GeneratedLine + line_offset) })

/-- The loop `for i, bm := range appended` of `Append`: the state afterwards and
the copies. -/
def appendLoop (P : PathLib) (pa : Nat) (line_offset : Int) :
    AppendState → List (Option Nat × Mapping) → Option (AppendState × List Mapping)
  | st, [] => some (st, [])
  | st, bm :: rest =>
    (appendRecord P pa line_offset st bm).bind fun r =>
      (appendLoop P pa line_offset r.1 rest).map fun q => (q.1, r.2 :: q.2)

/-- Go `func (a *Map) Append(b *Map, line_offset int)`, `a` being the map at `pa` and
`b` the map at `pb` (which may be the same): the heap afterwards. The slice `out`
is made by `make` and is not nil. -/
def Append (P : PathLib) (fuel : Nat) (h : List Obj) (pa pb : Nat) (line_offset : Int) :
    Option (List Obj) :=
  (decodeAt fuel h pa).bind fun h1 =>
  (decodeAt fuel h1 pb).bind fun h2 =>
  (h2.get? pa).bind fun oa =>
  (h2.get? pb).bind fun ob =>
  (appendLoop P pa line_offset ⟨h2, -1, -1⟩ (ownedRecords ob)).bind fun res =>
  (res.1.h.get? pa).map fun oa2 =>
    res.1.h.set pa
      { map := { oa2.map with
                 decodedMappings := some (sliceOf oa.map.decodedMappings ++ res.2) },
        owners := (ownedRecords oa).map Prod.fst ++ List.replicate res.2.length (some pa) }

/-- The body of the loop of the naive version of `Append`, which calls
`a.AddSource(bm.OriginalResolvedSource(), bm.OriginalSourceContent())` for every
record of `b`. -/
def appendRecordNaive (P : PathLib) (pa : Nat) (line_offset : Int) (h : List Obj)
    (bm : Option Nat × Mapping) : Option (List Obj × Mapping) :=
  (OriginalResolvedSourceAt P h bm).bind fun s =>
  (OriginalSourceContentAt s.2 bm).bind fun c =>
  (s.2.get? pa).bind fun oa =>
    let h1 := s.2.set pa { oa with map := (AddSource oa.map s.1 c).2 }
    (OriginalNameAt h1 bm).bind fun n =>
    (h1.get? pa).map fun oa1 =>
      (h1.set pa { oa1 with map := (AddName oa1.map n).2 },
       { bm.2 with OriginalSourceIndex := (AddSource oa.map s.1 c).1,
                   OriginalNameIndex := (AddName oa1.map n).1,
                   GeneratedLine := wrapInt (bm.2.GeneratedLine + line_offset) })

/-- The loop of the naive version of `Append`. -/
def appendLoopNaive (P : PathLib) (pa : Nat) (line_offset : Int) :
    List Obj → List (Option Nat × Mapping) → Option (List Obj × List Mapping)
  | h, [] => some (h, [])
  | h, bm :: rest =>
    (appendRecordNaive P pa line_offset h bm).bind fun r =>
      (appendLoopNaive P pa line_offset r.1 rest).map fun q => (q.1, r.2 :: q.2)

/-- The naive version of `Append`: as `Append`, without the reuse of the previous
destination index. -/
def AppendNaive (P : PathLib) (fuel : Nat) (h : List Obj) (pa pb : Nat) (line_offset : Int) :
    Option (List Obj) :=
  (decodeAt fuel h pa).bind fun h1 =>
  (decodeAt fuel h1 pb).bind fun h2 =>
  (h2.get? pa).bind fun oa =>
  (h2.get? pb).bind fun ob =>
  (appendLoopNaive P pa line_offset h2 (ownedRecords ob)).bind fun res =>
  (res.1.get? pa).map fun oa2 =>
    res.1.set pa
      { map := { oa2.map with
                 decodedMappings := some (sliceOf oa.map.decodedMappings ++ res.2) },
        owners := (ownedRecords oa).map Prod.fst ++ List.replicate res.2.length (some pa) }

/-- The indices of the record `bm` can be looked up in the heap `h`: each is
negative, or the back pointer points at a map whose table has the index. -/
def resolvable (h : List Obj) (bm : Option Nat × Mapping) : Bool :=
  (decide (bm.2.OriginalSourceIndex < 0) ||
    match bm.1.bind fun q => h.get? q with
    | some o => decide (bm.2.OriginalSourceIndex < o.map.Sources.length)
    | none => false) &&
  (decide (bm.2.OriginalNameIndex < 0) ||
    match bm.1.bind fun q => h.get? q with
    | some o => decide (bm.2.OriginalNameIndex < o.map.Names.length)
    | none => false)

/-- What a call may do to the tables of a map `m`, leaving `m1`: `Sources` and
`Names` do not get shorter, and the string-table invariant is kept. -/
def mapStep (m m1 : Map) : Prop :=
  m.Sources.length ≤ m1.Sources.length ∧ m.Names.length ≤ m1.Names.length ∧
    (m.tablesExact → m1.tablesExact)

/-- The heap `h1` holds the maps of the heap `h`, each after a `mapStep`. -/
def heapStep (h h1 : List Obj) : Prop :=
  h.length = h1.length ∧
    ∀ q o, h.get? q = some o → ∃ o1, h1.get? q = some o1 ∧ mapStep o.map o1.map

/-! ## Sequences of calls on the heap -/

/-- A call of the package: `New()`, or a method of the map at a position of the
heap. `AddMapping` is given a record with its back pointer. -/
inductive Op where
  | new
  | addSource (p : Nat) (name : String) (content : Option (List Nat))
  | addName (p : Nat) (name : String)
  | addMapping (p : Nat) (mapping : Option Nat × Mapping)
  | clearMappings (p : Nat)
  | encodeMappings (p : Nat)
  | append (pa pb : Nat) (line_offset : Int)

/-- The heap after one call; `New()` puts its map at the end of the heap. -/
def applyOp (P : PathLib)
    (osort : List (Option Nat × Mapping) → List (Option Nat × Mapping)) (fuel : Nat)
    (h : List Obj) : Op → Option (List Obj)
  | .new => some (h ++ [⟨New, []⟩])
  | .addSource p name content => AddSourceAt h p name content
  | .addName p name => AddNameAt h p name
  | .addMapping p mapping => AddMappingAt h p mapping
  | .clearMappings p => ClearMappingsAt h p
  | .encodeMappings p => EncodeMappingsAt osort fuel h p
  | .append pa pb line_offset => Append P fuel h pa pb line_offset

/-- The heap after a sequence of calls, each of which returns. -/
def runOps (P : PathLib)
    (osort : List (Option Nat × Mapping) → List (Option Nat × Mapping)) (fuel : Nat) :
    List Obj → List Op → Option (List Obj)
  | h, [] => some h
  | h, op :: ops => (applyOp P osort fuel h op).bind fun h1 => runOps P osort fuel h1 ops

/-! ## Examples -/

/-- The merge scenario as a heap: `a` (`sampleA`) at 0 and `b` (`sampleB`) at 1,
whose three records point back at it, as decoded records do. -/
def sampleMerge : List Obj := [⟨sampleA, []⟩, ⟨sampleB, [some 1, some 1, some 1]⟩]

/-- A map as loaded from a document with the source `x.js` and the mappings
`AAAA`: one record, not yet decoded. -/
def sampleX : Map := rebuildTables { New with Sources := ["x.js"], Mappings := ascii "AAAA" }

/-- A map as loaded from a document with the source `y.js` and the mappings
`IAAA`: one record, not yet decoded. -/
def sampleY : Map := rebuildTables { New with Sources := ["y.js"], Mappings := ascii "IAAA" }

/-- Four maps: `a` as `New()` makes it at 0, `b` with the source `b.js` and no
record at 1, `x` (`sampleX`) at 2 and `y` (`sampleY`) at 3. -/
def sampleForeignStart : List Obj :=
  [⟨New, []⟩, ⟨(AddSource New "b.js" none).2, []⟩, ⟨sampleX, []⟩, ⟨sampleY, []⟩]

/-- The heap after `b.AddMapping(x.DecodedMappings()[0])` and
`b.AddMapping(y.DecodedMappings()[0])` on `sampleForeignStart`: `b` holds the record
of `x` and the record of `y`, both with the source index 0. -/
def sampleForeign : List Obj :=
  [⟨New, []⟩,
   ⟨{ (AddSource New "b.js" none).2 with
      decodedMappings := some [⟨1, 0, 0, 1, 0, -1⟩, ⟨1, 4, 0, 1, 0, -1⟩] }, [some 2, some 3]⟩,
   ⟨{ sampleX with decodedMappings := some [⟨1, 0, 0, 1, 0, -1⟩] }, [some 2]⟩,
   ⟨{ sampleY with decodedMappings := some [⟨1, 4, 0, 1, 0, -1⟩] }, [some 3]⟩]

/-- The calls that lead from `sampleForeignStart` to `sampleForeign`. -/
def sampleForeignCalls : Option (List Obj) :=
  (DecodedMappingsAt 8 sampleForeignStart 2).bind fun x =>
  (x.2.get? 0).bind fun rx =>
  (AddMappingAt x.1 1 rx).bind fun h1 =>
  (DecodedMappingsAt 8 h1 3).bind fun y =>
  (y.2.get? 0).bind fun ry => AddMappingAt y.1 1 ry

/-- Two maps: `a` as `New()` makes it at 0, and at 1 the map `b` after
`b.AddSource("one.js", nil)` and `b.AddMapping(&Mapping{...})` with a record made
by the caller, whose back pointer is nil and whose source index is 0. -/
def sampleFresh : List Obj :=
  [⟨New, []⟩, ⟨AddMapping (AddSource New "one.js" none).2 ⟨1, 0, 0, 1, 0, -1⟩, [none]⟩]

/-- A map as loaded from a document with the sources `three.js` and `four.js`, the
name `foo` and the mappings `AAAAA,IAAI;ACDJ`: three records, not yet decoded. -/
def sampleDocument : Map :=
  rebuildTables { New with Sources := ["three.js", "four.js"], Names := ["foo"],
                           Mappings := ascii "AAAAA,IAAI;ACDJ" }

/-- A sequence of calls on the heap that holds `sampleDocument` at 0: `New()` makes
the map at 1, which every method is then called on, `Append` with the
loaded map and with itself as the source. -/
def sampleOps : List Op :=
  [.new, .addSource 1 "one.js" none, .addSource 1 "three.js" (some (ascii "x")),
   .addName 1 "bar", .addMapping 1 (none, ⟨1, 0, -1, 0, 0, -1⟩), .append 1 0 2,
   .encodeMappings 1, .append 1 1 4, .addSource 1 "one.js" none, .clearMappings 1,
   .append 1 0 0, .encodeMappings 1]

/-! ## Lemmas: reading and writing a VLQ field -/

theorem wrapInt_of_fits {x : Int} (h1 : -2 ^ 63 ≤ x) (h2 : x < 2 ^ 63) : wrapInt x = x := by
  unfold wrapInt
  omega

theorem wrapInt_fits (x : Int) : -2 ^ 63 ≤ wrapInt x ∧ wrapInt x < 2 ^ 63 := by
  unfold wrapInt
  omega

theorem base64decode_encodeDigit : ∀ o < 64, base64decode (encodeDigit o) = o := by decide

theorem digit_bits : ∀ o < 64, o - (o &&& 32) = o % 32 ∧ ((o &&& 32 = 0) ↔ o < 32) := by decide

theorem readByte_of_drop {r : Reader} {b : Nat} {t : List Nat}
    (h : r.s.drop r.i = b :: t) :
    r.ReadByte = (b, ⟨r.s, r.i + 1⟩) ∧ r.s.drop (r.i + 1) = t := by
  have hlt : r.i < r.s.length := by
    by_contra hc
    rw [List.drop_eq_nil_of_le (by omega)] at h
    cases h
  have hb : r.s.getD r.i 0 = b := by
    rw [List.getD_eq_getElem _ _ hlt]
    have := List.drop_eq_getElem_cons hlt
    rw [h] at this
    injection this with h1 h2
    exact h1.symm
  have hr : r.s.drop (r.i + 1) = t := by
    have := List.drop_eq_getElem_cons hlt
    rw [h] at this
    injection this with h1 h2
    exact h2.symm
  refine ⟨?_, hr⟩
  unfold Reader.ReadByte
  rw [if_neg (by omega), hb]

theorem readByte_eof {r : Reader} (h : r.s.drop r.i = []) : r.ReadByte = (0, r) := by
  have : r.s.length ≤ r.i := by
    simpa [List.drop_eq_nil_iff] using h
  unfold Reader.ReadByte
  rw [if_pos this]

theorem readVLQLoop_field : ∀ (f : List Nat), isField f = true →
    ∀ (fuel : Nat) (r : Reader) (v : Int) (s : Nat) (post : List Nat),
      r.s.drop r.i = f ++ post → f.length ≤ fuel →
      readVLQLoop fuel r v s = (some (fieldAcc f v s), ⟨r.s, r.i + f.length⟩) := by
  intro f
  induction f with
  | nil => intro h; simp [isField] at h
  | cons b rest ih =>
    intro hf fuel r v s post hdrop hfuel
    obtain ⟨fuel, rfl⟩ : ∃ k, fuel = k + 1 := ⟨fuel - 1, by simp at hfuel; omega⟩
    obtain ⟨hread, hdrop1⟩ := readByte_of_drop (r := r) (b := b) (t := rest ++ post) (by simpa using hdrop)
    cases rest with
    | nil =>
      simp only [isField, Bool.and_eq_true, bne_iff_ne, ne_eq, beq_iff_eq] at hf
      simp only [readVLQLoop, hread, fieldAcc, List.length_singleton]
      rw [if_neg hf.1, if_pos hf.2]
    | cons d rest =>
      simp only [isField, Bool.and_eq_true, bne_iff_ne, ne_eq] at hf
      have := ih hf.2 fuel ⟨r.s, r.i + 1⟩
        (wrapInt (v + wrapInt (((base64decode b - (base64decode b &&& 32) : Nat) : Int) * 2 ^ s)))
        (s + 5) post hdrop1 (by simp at hfuel ⊢; omega)
      simp only [readVLQLoop, hread, fieldAcc]
      rw [if_neg hf.1.1, if_neg hf.1.2]
      rw [this]
      simp only [List.length_cons]
      congr 2
      omega

theorem drop_length_of_eq {r : Reader} {f post : List Nat} (h : r.s.drop r.i = f ++ post) :
    r.i + f.length + post.length = r.s.length ∨ (f = [] ∧ post = []) := by
  by_cases hlt : r.i < r.s.length
  · left
    have := congrArg List.length h
    simp only [List.length_drop, List.length_append] at this
    omega
  · right
    rw [List.drop_eq_nil_of_le (by omega)] at h
    have := congrArg List.length h
    simp only [List.length_nil, List.length_append] at this
    constructor
    · exact List.length_eq_zero.mp (by omega)
    · exact List.length_eq_zero.mp (by omega)

theorem isField_ne_nil {f : List Nat} (h : isField f = true) : f ≠ [] := by
  intro hf; subst hf; simp [isField] at h

theorem readVLQ_field_acc {f : List Nat} (hf : isField f = true) (r : Reader) (count : Nat)
    (post : List Nat) (hdrop : r.s.drop r.i = f ++ post) :
    readVLQ r count = (signedOf (fieldAcc f 0 0), ⟨r.s, r.i + f.length⟩, count + 1) := by
  have hlen : f.length ≤ r.Len + 1 := by
    rcases drop_length_of_eq hdrop with h | ⟨h, _⟩
    · unfold Reader.Len
      split <;> omega
    · simp [h]
  unfold readVLQ
  rw [readVLQLoop_field f hf _ r 0 0 post hdrop hlen]
  simp only [signedOf]
  split <;> rfl

theorem fieldValue_eq {f : List Nat} (hf : isField f = true) :
    fieldValue f = signedOf (fieldAcc f 0 0) := by
  unfold fieldValue
  rw [readVLQ_field_acc hf (NewReader f) 0 [] (by simp [NewReader])]

/-- Reading a complete field: its value, the reader just past it, one more field counted. -/
theorem readVLQ_field {f : List Nat} (hf : isField f = true) (r : Reader) (count : Nat)
    (post : List Nat) (hdrop : r.s.drop r.i = f ++ post) :
    readVLQ r count = (fieldValue f, ⟨r.s, r.i + f.length⟩, count + 1) := by
  rw [fieldValue_eq hf]
  exact readVLQ_field_acc hf r count post hdrop

/-- At a byte that is no base64 digit `readVLQ` returns 0 and leaves reader and count alone. -/
theorem readVLQ_stop {r : Reader} {b : Nat} {rest : List Nat} (hdrop : r.s.drop r.i = b :: rest)
    (hb : base64decode b = 0xff) (count : Nat) : readVLQ r count = (0, r, count) := by
  obtain ⟨hread, -⟩ := readByte_of_drop hdrop
  unfold readVLQ
  simp only [readVLQLoop, hread]
  rw [if_pos hb]
  simp [Reader.UnreadByte]

theorem base64decode_zero : base64decode 0 = 0xff := by decide

theorem base64decode_comma : base64decode 44 = 0xff := by decide

theorem base64decode_semicolon : base64decode 59 = 0xff := by decide

/-- At the end of the input `readVLQ` returns 0 and steps the reader back. -/
theorem readVLQ_eof {r : Reader} (hdrop : r.s.drop r.i = []) (count : Nat) :
    readVLQ r count = (0, r.UnreadByte, count) := by
  have hread := readByte_eof hdrop
  unfold readVLQ
  simp only [readVLQLoop, hread]
  rw [if_pos base64decode_zero]

theorem isField_cons {c : Nat} {rest : List Nat} (h1 : base64decode c ≠ 0xff)
    (h2 : base64decode c &&& 32 ≠ 0) (h3 : isField rest = true) : isField (c :: rest) = true := by
  cases rest with
  | nil => simp [isField] at h3
  | cons d rest => simp [isField, h1, h2, h3]

theorem isField_single {t : Nat} (h1 : base64decode t ≠ 0xff) (h2 : base64decode t &&& 32 = 0) :
    isField [t] = true := by
  simp [isField, h1, h2]

theorem cont_digit (n : Nat) : 32 ||| (n &&& 31) = 32 + n % 32 := by
  have h1 : n &&& 31 = n % 32 := Nat.and_pow_two_sub_one_eq_mod n 5
  have h2 : ∀ m < 32, 32 ||| m = 32 + m := by decide
  rw [h1, h2 _ (Nat.mod_lt _ (by norm_num))]

theorem writeDigits_isField : ∀ (fuel n : Nat), n < 32 ^ (fuel + 1) →
    isField (writeDigits fuel n) = true := by
  intro fuel
  induction fuel with
  | zero =>
    intro n hn
    simp only [zero_add, pow_one] at hn
    have ho := base64decode_encodeDigit n (by omega)
    have hb := digit_bits n (by omega)
    simp only [writeDigits]
    apply isField_single <;> rw [ho]
    · omega
    · exact hb.2.mpr hn
  | succ fuel ih =>
    intro n hn
    simp only [writeDigits]
    split
    · rename_i h32
      rw [cont_digit]
      have hlt : 32 + n % 32 < 64 := by omega
      have ho := base64decode_encodeDigit _ hlt
      have hb := digit_bits _ hlt
      apply isField_cons
      · rw [ho]; omega
      · rw [ho]; intro hc; have := hb.2.mp hc; omega
      · apply ih
        rw [Nat.shiftRight_eq_div_pow]
        rw [pow_succ] at hn
        exact Nat.div_lt_of_lt_mul (by rw [Nat.mul_comm]; simpa using hn)
    · rename_i h32
      have hn : n < 32 := by omega
      have ho := base64decode_encodeDigit n (by omega)
      have hb := digit_bits n (by omega)
      apply isField_single <;> rw [ho]
      · omega
      · exact hb.2.mpr hn

theorem fieldAcc_single_digit (n : Nat) (hn : n < 32) (v : Int) (s : Nat) (hv : 0 ≤ v)
    (hfit : v + (n : Int) * 2 ^ s < 2 ^ 63) :
    fieldAcc [encodeDigit n] v s = v + (n : Int) * 2 ^ s := by
  have ho := base64decode_encodeDigit n (by omega)
  have hb := digit_bits n (by omega)
  simp only [fieldAcc, ho]
  rw [hb.1, Nat.mod_eq_of_lt hn]
  have hpos : (0 : Int) ≤ (n : Int) * 2 ^ s := by positivity
  rw [wrapInt_of_fits (x := (n : Int) * 2 ^ s) (by omega) (by omega),
    wrapInt_of_fits (by omega) (by omega)]

theorem fieldAcc_writeDigits : ∀ (fuel n : Nat) (v : Int) (s : Nat), n < 32 ^ (fuel + 1) →
    0 ≤ v → v + (n : Int) * 2 ^ s < 2 ^ 63 →
    fieldAcc (writeDigits fuel n) v s = v + (n : Int) * 2 ^ s := by
  intro fuel
  induction fuel with
  | zero =>
    intro n v s hn hv hfit
    simp only [zero_add, pow_one] at hn
    simp only [writeDigits]
    exact fieldAcc_single_digit n hn v s hv hfit
  | succ fuel ih =>
    intro n v s hn hv hfit
    simp only [writeDigits]
    split
    · rename_i h32
      rw [cont_digit]
      have hlt : 32 + n % 32 < 64 := by omega
      have ho := base64decode_encodeDigit _ hlt
      have hb := digit_bits _ hlt
      simp only [fieldAcc, ho]
      rw [hb.1]
      have hmod : (32 + n % 32) % 32 = n % 32 := by omega
      rw [hmod]
      have hsplit : (n : Int) = ((n % 32 : Nat) : Int) + 32 * ((n / 32 : Nat) : Int) := by
        have := Nat.mod_add_div n 32
        exact_mod_cast this.symm
      have hP : (0 : Int) < 2 ^ s := by positivity
      have hlo : (0 : Int) ≤ ((n % 32 : Nat) : Int) * 2 ^ s := by positivity
      have hhi : (0 : Int) ≤ ((n / 32 : Nat) : Int) * 2 ^ (s + 5) := by positivity
      have hsum : (n : Int) * 2 ^ s
          = ((n % 32 : Nat) : Int) * 2 ^ s + ((n / 32 : Nat) : Int) * 2 ^ (s + 5) := by
        rw [pow_add]
        conv_lhs => rw [hsplit]
        ring
      rw [wrapInt_of_fits (x := ((n % 32 : Nat) : Int) * 2 ^ s) (by omega) (by omega),
        wrapInt_of_fits (by omega) (by omega)]
      rw [Nat.shiftRight_eq_div_pow]
      have hdiv : n / 2 ^ 5 = n / 32 := by norm_num
      rw [hdiv]
      rw [ih (n / 32) _ (s + 5) ?_ (by omega) (by omega)]
      · omega
      · rw [pow_succ] at hn
        exact Nat.div_lt_of_lt_mul (by rw [Nat.mul_comm]; simpa using hn)
    · rename_i h32
      exact fieldAcc_single_digit n (by omega) v s hv hfit

theorem orOne_even (m : Nat) (h : m % 2 = 0) : orOne (m : Int) = (m : Int) + 1 := by
  unfold orOne
  rw [if_pos (by omega)]

/-- On a non-negative integer `orOne` is the bitwise or with 1. -/
theorem orOne_eq_lor (m : Nat) : orOne (m : Int) = Int.lor (m : Int) 1 := by
  have h1 : Int.lor (m : Int) 1 = ((m ||| 1 : Nat) : Int) := rfl
  rw [h1]
  unfold orOne
  by_cases h : m % 2 = 0
  · rw [if_pos (by omega)]
    obtain ⟨k, rfl⟩ : ∃ k, m = 2 ^ 1 * k := ⟨m / 2, by omega⟩
    rw [← Nat.mul_add_lt_is_or (i := 1) (b := 1) (by norm_num) k]
    push_cast
    rfl
  · rw [if_neg (by omega)]
    obtain ⟨k, rfl⟩ : ∃ k, m = 2 ^ 1 * k + 1 := ⟨m / 2, by omega⟩
    rw [Nat.mul_add_lt_is_or (i := 1) (b := 1) (by norm_num) k, Nat.lor_assoc]
    rfl

/-- What `writeVLQ` writes for a value whose doubled magnitude fits: the digits of
the sign-folded value `n`. -/
theorem writeVLQ_eq (x : Int) (hx : 2 * |x| < 2 ^ 63) :
    ∃ n : Nat, (n : Int) < 2 ^ 63 ∧ writeVLQ x = some (writeDigits 12 n) ∧
      signedOf (n : Int) = x := by
  have habs := abs_lt.mp (show |x| < 2 ^ 62 by omega)
  by_cases hneg : x < 0
  · obtain ⟨m, hm⟩ : ∃ m : Nat, (m : Int) = -(x * 2) := ⟨(-(x * 2)).toNat, by omega⟩
    refine ⟨m + 1, by omega, ?_, ?_⟩
    · have h1 : wrapInt (x * 2) = x * 2 := wrapInt_of_fits (by omega) (by omega)
      have h2 : wrapInt (-(x * 2)) = (m : Int) := by
        rw [wrapInt_of_fits (by omega) (by omega), hm]
      have h3 : x * 2 < 0 := by omega
      have h4 : ¬ ((m : Int) + 1 < 0) := by omega
      simp only [writeVLQ, h1, if_pos h3, h2, orOne_even m (by omega), if_neg h4]
      congr 2
    · unfold signedOf
      rw [Int.shiftRight_eq_div_pow]
      push_cast
      rw [if_pos (by omega)]
      have : ((m : Int) + 1) / 2 = -x := by omega
      rw [this, wrapInt_of_fits (by omega) (by omega)]
      omega
  · obtain ⟨m, hm⟩ : ∃ m : Nat, (m : Int) = x * 2 := ⟨(x * 2).toNat, by omega⟩
    refine ⟨m, by omega, ?_, ?_⟩
    · have h1 : wrapInt (x * 2) = x * 2 := wrapInt_of_fits (by omega) (by omega)
      have h3 : ¬ (x * 2 < 0) := by omega
      have h4 : ¬ ((m : Int) < 0) := by omega
      simp only [writeVLQ, h1, if_neg h3]
      rw [← hm]
      rfl
    · unfold signedOf
      rw [Int.shiftRight_eq_div_pow]
      rw [if_neg (by omega)]
      omega

/-- The digits `writeVLQ` writes form one complete field whose value is `x`. -/
theorem writeVLQ_field (x : Int) (hx : 2 * |x| < 2 ^ 63) :
    ∃ f, writeVLQ x = some f ∧ isField f = true ∧ fieldValue f = x := by
  obtain ⟨n, hn, hw, hs⟩ := writeVLQ_eq x hx
  have hn32 : n < 32 ^ (12 + 1) := by
    have : (n : Int) < 32 ^ 13 := by
      have : (2 : Int) ^ 63 < 32 ^ 13 := by norm_num
      omega
    exact_mod_cast this
  have hf := writeDigits_isField 12 n hn32
  refine ⟨_, hw, hf, ?_⟩
  rw [fieldValue_eq hf, fieldAcc_writeDigits 12 n 0 0 hn32 le_rfl (by simpa using hn)]
  simpa using hs

/-! ## Lemmas: the rounds of the decoder -/

theorem unread_after_read (s : List Nat) (i : Nat) :
    Reader.UnreadByte ⟨s, i + 1⟩ = ⟨s, i⟩ := by
  simp [Reader.UnreadByte]

theorem len_ne_zero_of_drop {r : Reader} {b : Nat} {rest : List Nat}
    (h : r.s.drop r.i = b :: rest) : r.Len ≠ 0 := by
  have hlt : r.i < r.s.length := by
    by_contra hc
    rw [List.drop_eq_nil_of_le (by omega)] at h
    cases h
  unfold Reader.Len
  rw [if_neg (by omega)]
  omega

theorem len_eq_zero_of_drop {r : Reader} (h : r.s.drop r.i = []) : r.Len = 0 := by
  have : r.s.length ≤ r.i := by simpa [List.drop_eq_nil_iff] using h
  unfold Reader.Len
  rw [if_pos this]

theorem decodeLoop_step (fuel : Nat) (st : DecodeState) (h : st.r.Len ≠ 0) :
    decodeLoop (fuel + 1) st = decodeLoop fuel (decodeBody st) := by
  simp [decodeLoop, h]

theorem decodeLoop_done (fuel : Nat) (st : DecodeState) (h : st.r.Len = 0) :
    decodeLoop fuel st = some st := by
  cases fuel <;> simp [decodeLoop, h]

/-- A round of the main loop at a separator. -/
theorem decodeBody_sep (st : DecodeState) (sep : Nat) (rest : List Nat)
    (hdrop : st.r.s.drop st.r.i = sep :: rest) (hsep : sep = 44 ∨ sep = 59) :
    decodeBody st = sepRound st sep := by
  obtain ⟨hread, -⟩ := readByte_of_drop hdrop
  unfold decodeBody sepRound
  rw [hread]
  rcases hsep with h | h <;> subst h <;> simp

theorem field_head {f : List Nat} (hf : isField f = true) :
    ∃ b rest, f = b :: rest ∧ base64decode b ≠ 0xff := by
  cases f with
  | nil => simp [isField] at hf
  | cons b rest =>
    refine ⟨b, rest, rfl, ?_⟩
    cases rest with
    | nil =>
      simp only [isField, Bool.and_eq_true, bne_iff_ne, ne_eq] at hf
      exact hf.1
    | cons d rest =>
      simp only [isField, Bool.and_eq_true, bne_iff_ne, ne_eq] at hf
      exact hf.1.1

/-- The start of a round of the main loop at the first digit of a field: the byte
is read and put back. -/
theorem decodeBody_at_field (st : DecodeState) (f : List Nat) (post : List Nat)
    (hf : isField f = true) (hdrop : st.r.s.drop st.r.i = f ++ post) :
    decodeBody st = readSegment st st.r := by
  obtain ⟨b, rest, rfl, hb⟩ := field_head hf
  obtain ⟨hread, -⟩ := readByte_of_drop (r := st.r) (b := b) (t := rest ++ post)
    (by simpa using hdrop)
  have h44 : b ≠ 44 := by
    intro h; subst h; exact hb base64decode_comma
  have h59 : b ≠ 59 := by
    intro h; subst h; exact hb base64decode_semicolon
  unfold decodeBody
  rw [hread]
  simp only [if_neg h44, if_neg h59, unread_after_read]

theorem drop_advance {s : List Nat} {i : Nat} {f p : List Nat} (h : s.drop i = f ++ p) :
    s.drop (i + f.length) = p := by
  rw [← List.drop_drop, h, List.drop_left]

/-- One call of `readVLQ` inside a segment whose fields still to be read are `fs`:
it reads the next field, or stops at the byte after the segment. -/
theorem read_next (fs : List (List Nat)) (post : List Nat) (r : Reader) (c : Nat)
    (hfs : ∀ f ∈ fs, isField f = true) (hdrop : r.s.drop r.i = fs.flatten ++ post)
    (hstop : fs = [] → ∃ b rest, post = b :: rest ∧ base64decode b = 0xff) :
    readVLQ r c = ((fs.head?.map fieldValue).getD 0,
        ⟨r.s, r.i + (fs.head?.map List.length).getD 0⟩, c + (if fs = [] then 0 else 1)) ∧
      r.s.drop (r.i + (fs.head?.map List.length).getD 0) = fs.tail.flatten ++ post := by
  cases fs with
  | nil =>
    obtain ⟨b, rest, rfl, hb⟩ := hstop rfl
    simp only [List.flatten_nil, List.nil_append] at hdrop
    refine ⟨?_, by simpa using hdrop⟩
    rw [readVLQ_stop hdrop hb]
    simp
  | cons f fs =>
    have hf := hfs f (List.mem_cons_self _ _)
    simp only [List.flatten_cons, List.append_assoc] at hdrop
    refine ⟨?_, ?_⟩
    · rw [readVLQ_field hf r c _ hdrop]
      simp
    · simpa using drop_advance hdrop

/-- A round of the main loop over a segment of complete fields: up to five of them
are read; fewer than five only when a byte that is no digit follows. -/
theorem readSegment_fields (st : DecodeState) (fs : List (List Nat)) (post : List Nat)
    (hfs : ∀ f ∈ fs, isField f = true)
    (hdrop : st.r.s.drop st.r.i = fs.flatten ++ post)
    (hstop : fs.length < 5 → ∃ b rest, post = b :: rest ∧ base64decode b = 0xff) :
    readSegment st st.r
      = segRound st ((fs.take 5).map fieldValue) ((fs.take 5).flatten.length) := by
  obtain ⟨⟨s, i⟩, gl, gc, ofi, ol, oc, onm, recs⟩ := st
  simp only at hdrop
  match fs, hfs, hdrop, hstop with
  | [], hfs, hdrop, hstop =>
    obtain ⟨h1, d1⟩ := read_next [] post ⟨s, i⟩ 0 hfs hdrop (fun _ => hstop (by simp))
    simp only [List.head?_nil, Option.map_none', Option.getD_none, Nat.add_zero,
      List.tail_nil, ↓reduceIte, Nat.reduceAdd, zero_add] at h1 d1
    unfold readSegment segRound
    simp only [h1]
    simp [switchCount]
  | [f1], hfs, hdrop, hstop =>
    obtain ⟨h1, d1⟩ := read_next [f1] post ⟨s, i⟩ 0 hfs hdrop (by simp)
    simp only [List.head?_cons, Option.map_some', Option.getD_some, List.tail_cons,
      reduceCtorEq, ↓reduceIte, Nat.reduceAdd, zero_add] at h1 d1
    obtain ⟨h2, d2⟩ := read_next [] post ⟨s, i + f1.length⟩ 1 (by simp) d1
      (fun _ => hstop (by simp))
    simp only [List.head?_nil, Option.map_none', Option.getD_none, Nat.add_zero,
      List.tail_nil, ↓reduceIte, Nat.reduceAdd, zero_add] at h2 d2
    unfold readSegment segRound
    simp only [h1, h2]
    simp [switchCount]
  | [f1, f2], hfs, hdrop, hstop =>
    obtain ⟨h1, d1⟩ := read_next [f1, f2] post ⟨s, i⟩ 0 hfs hdrop (by simp)
    simp only [List.head?_cons, Option.map_some', Option.getD_some, List.tail_cons,
      reduceCtorEq, ↓reduceIte, Nat.reduceAdd, zero_add] at h1 d1
    obtain ⟨h2, d2⟩ := read_next [f2] post ⟨s, i + f1.length⟩ 1
      (fun f hf => hfs f (by simp at hf ⊢; simp [hf])) d1 (by simp)
    simp only [List.head?_cons, Option.map_some', Option.getD_some, List.tail_cons,
      reduceCtorEq, ↓reduceIte, Nat.reduceAdd, zero_add] at h2 d2
    obtain ⟨h3, d3⟩ := read_next [] post ⟨s, i + f1.length + f2.length⟩ 2 (by simp) d2
      (fun _ => hstop (by simp))
    simp only [List.head?_nil, Option.map_none', Option.getD_none, Nat.add_zero,
      List.tail_nil, ↓reduceIte, Nat.reduceAdd, zero_add] at h3 d3
    unfold readSegment segRound
    simp only [h1, h2, h3]
    simp [switchCount, Nat.add_assoc]
  | [f1, f2, f3], hfs, hdrop, hstop =>
    obtain ⟨h1, d1⟩ := read_next [f1, f2, f3] post ⟨s, i⟩ 0 hfs hdrop (by simp)
    simp only [List.head?_cons, Option.map_some', Option.getD_some, List.tail_cons,
      reduceCtorEq, ↓reduceIte, Nat.reduceAdd, zero_add] at h1 d1
    obtain ⟨h2, d2⟩ := read_next [f2, f3] post ⟨s, i + f1.length⟩ 1
      (fun f hf => hfs f (by simp at hf ⊢; simp [hf])) d1 (by simp)
    simp only [List.head?_cons, Option.map_some', Option.getD_some, List.tail_cons,
      reduceCtorEq, ↓reduceIte, Nat.reduceAdd, zero_add] at h2 d2
    obtain ⟨h3, d3⟩ := read_next [f3] post ⟨s, i + f1.length + f2.length⟩ 2
      (fun f hf => hfs f (by simp at hf ⊢; simp [hf])) d2 (by simp)
    simp only [List.head?_cons, Option.map_some', Option.getD_some, List.tail_cons,
      reduceCtorEq, ↓reduceIte, Nat.reduceAdd, zero_add] at h3 d3
    obtain ⟨h4, d4⟩ := read_next [] post ⟨s, i + f1.length + f2.length + f3.length⟩
      3 (by simp) d3 (fun _ => hstop (by simp))
    simp only [List.head?_nil, Option.map_none', Option.getD_none, Nat.add_zero,
      List.tail_nil, ↓reduceIte, Nat.reduceAdd, zero_add] at h4 d4
    unfold readSegment segRound
    simp only [h1, h2, h3, h4]
    simp [switchCount, Nat.add_assoc]
  | [f1, f2, f3, f4], hfs, hdrop, hstop =>
    obtain ⟨h1, d1⟩ := read_next [f1, f2, f3, f4] post ⟨s, i⟩ 0 hfs hdrop (by simp)
    simp only [List.head?_cons, Option.map_some', Option.getD_some, List.tail_cons,
      reduceCtorEq, ↓reduceIte, Nat.reduceAdd, zero_add] at h1 d1
    obtain ⟨h2, d2⟩ := read_next [f2, f3, f4] post ⟨s, i + f1.length⟩ 1
      (fun f hf => hfs f (by simp at hf ⊢; simp [hf])) d1 (by simp)
    simp only [List.head?_cons, Option.map_some', Option.getD_some, List.tail_cons,
      reduceCtorEq, ↓reduceIte, Nat.reduceAdd, zero_add] at h2 d2
    obtain ⟨h3, d3⟩ := read_next [f3, f4] post ⟨s, i + f1.length + f2.length⟩ 2
      (fun f hf => hfs f (by simp at hf ⊢; simp [hf])) d2 (by simp)
    simp only [List.head?_cons, Option.map_some', Option.getD_some, List.tail_cons,
      reduceCtorEq, ↓reduceIte, Nat.reduceAdd, zero_add] at h3 d3
    obtain ⟨h4, d4⟩ := read_next [f4] post ⟨s, i + f1.length + f2.length + f3.length⟩
      3 (fun f hf => hfs f (by simp at hf ⊢; simp [hf])) d3 (by simp)
    simp only [List.head?_cons, Option.map_some', Option.getD_some, List.tail_cons,
      reduceCtorEq, ↓reduceIte, Nat.reduceAdd, zero_add] at h4 d4
    obtain ⟨h5, d5⟩ := read_next [] post
      ⟨s, i + f1.length + f2.length + f3.length + f4.length⟩
      4 (by simp) d4 (fun _ => hstop (by simp))
    simp only [List.head?_nil, Option.map_none', Option.getD_none, Nat.add_zero,
      List.tail_nil, ↓reduceIte, Nat.reduceAdd, zero_add] at h5 d5
    unfold readSegment segRound
    simp only [h1, h2, h3, h4, h5]
    simp [switchCount, Nat.add_assoc]
  | f1 :: f2 :: f3 :: f4 :: f5 :: more, hfs, hdrop, hstop =>
    obtain ⟨h1, d1⟩ := read_next (f1 :: f2 :: f3 :: f4 :: f5 :: more) post ⟨s, i⟩ 0 hfs hdrop
      (by simp)
    simp only [List.head?_cons, Option.map_some', Option.getD_some, List.tail_cons,
      reduceCtorEq, ↓reduceIte, Nat.reduceAdd, zero_add] at h1 d1
    obtain ⟨h2, d2⟩ := read_next (f2 :: f3 :: f4 :: f5 :: more) post ⟨s, i + f1.length⟩ 1
      (fun f hf => hfs f (List.mem_cons_of_mem _ hf)) d1 (by simp)
    simp only [List.head?_cons, Option.map_some', Option.getD_some, List.tail_cons,
      reduceCtorEq, ↓reduceIte, Nat.reduceAdd, zero_add] at h2 d2
    obtain ⟨h3, d3⟩ := read_next (f3 :: f4 :: f5 :: more) post
      ⟨s, i + f1.length + f2.length⟩ 2
      (fun f hf => hfs f (List.mem_cons_of_mem _ (List.mem_cons_of_mem _ hf))) d2 (by simp)
    simp only [List.head?_cons, Option.map_some', Option.getD_some, List.tail_cons,
      reduceCtorEq, ↓reduceIte, Nat.reduceAdd, zero_add] at h3 d3
    obtain ⟨h4, d4⟩ := read_next (f4 :: f5 :: more) post
      ⟨s, i + f1.length + f2.length + f3.length⟩ 3
      (fun f hf => hfs f (List.mem_cons_of_mem _ (List.mem_cons_of_mem _
        (List.mem_cons_of_mem _ hf)))) d3 (by simp)
    simp only [List.head?_cons, Option.map_some', Option.getD_some, List.tail_cons,
      reduceCtorEq, ↓reduceIte, Nat.reduceAdd, zero_add] at h4 d4
    obtain ⟨h5, d5⟩ := read_next (f5 :: more) post
      ⟨s, i + f1.length + f2.length + f3.length + f4.length⟩ 4
      (fun f hf => hfs f (List.mem_cons_of_mem _ (List.mem_cons_of_mem _
        (List.mem_cons_of_mem _ (List.mem_cons_of_mem _ hf))))) d4 (by simp)
    simp only [List.head?_cons, Option.map_some', Option.getD_some, List.tail_cons,
      reduceCtorEq, ↓reduceIte, Nat.reduceAdd, zero_add] at h5 d5
    unfold readSegment segRound
    simp only [h1, h2, h3, h4, h5]
    simp [switchCount, Nat.add_assoc]

theorem wf_fields {c : Segment} (h : c.wf = true) : ∀ f ∈ c.fields, isField f = true := by
  simp only [Segment.wf, Bool.and_eq_true, List.all_eq_true] at h
  exact h.1.1

theorem wf_length {c : Segment} (h : c.wf = true) : c.fields.length ≤ 5 := by
  simp only [Segment.wf, Bool.and_eq_true, decide_eq_true_eq] at h
  exact h.1.2

theorem wf_sep {c : Segment} (h : c.wf = true) : c.sep = 44 ∨ c.sep = 59 := by
  simp only [Segment.wf, Bool.and_eq_true, Bool.or_eq_true, beq_iff_eq] at h
  exact h.2

theorem sep_stop {b : Nat} (h : b = 44 ∨ b = 59) : base64decode b = 0xff := by
  rcases h with h | h <;> subst h
  · exact base64decode_comma
  · exact base64decode_semicolon

theorem flatten_ne_nil_of_fields {fs : List (List Nat)} (hfs : ∀ f ∈ fs, isField f = true)
    (hne : fs ≠ []) : ∃ f rest, fs = f :: rest ∧ isField f = true := by
  cases fs with
  | nil => exact absurd rfl hne
  | cons f rest => exact ⟨f, rest, rfl, hfs f (List.mem_cons_self _ _)⟩

/-- The rounds of the main loop over one segment and its separator. -/
theorem decodeLoop_segment (st : DecodeState) (c : Segment) (rest : List Nat)
    (hwf : c.wf = true) (hdrop : st.r.s.drop st.r.i = c.bytes ++ rest) (n : Nat) :
    decodeLoop (n + c.bytes.length) st = decodeLoop (n + (c.bytes.length - 2)) (segStep st c) ∧
      (segStep st c).r.s = st.r.s ∧
      (segStep st c).r.s.drop (segStep st c).r.i = rest ∧
      (c.fields ≠ [] → 2 ≤ c.bytes.length) := by
  have hsep := wf_sep hwf
  have hfs := wf_fields hwf
  by_cases hne : c.fields = []
  · have hb : c.bytes = [c.sep] := by simp [Segment.bytes, hne]
    rw [hb] at hdrop ⊢
    simp only [List.singleton_append] at hdrop
    have hlen := len_ne_zero_of_drop hdrop
    have hstep := decodeLoop_step n st hlen
    rw [decodeBody_sep st c.sep rest hdrop hsep] at hstep
    have hseg : segStep st c = sepRound st c.sep := by simp [segStep, hne]
    refine ⟨?_, ?_, ?_, fun h => absurd hne h⟩
    · rw [hseg]
      simpa using hstep
    · rw [hseg]; unfold sepRound; split <;> rfl
    · rw [hseg]
      have := drop_advance (f := [c.sep]) (p := rest) (by simpa using hdrop)
      unfold sepRound; split <;> simpa using this
  · obtain ⟨f, more, hfm, hf⟩ := flatten_ne_nil_of_fields hfs hne
    have hdrop1 : st.r.s.drop st.r.i = c.fields.flatten ++ (c.sep :: rest) := by
      simpa [Segment.bytes] using hdrop
    have hdropf : st.r.s.drop st.r.i = f ++ (more.flatten ++ (c.sep :: rest)) := by
      rw [hdrop1, hfm]; simp
    obtain ⟨b, frest, hfb, -⟩ := field_head hf
    have hlen : st.r.Len ≠ 0 := by
      rw [hfb] at hdropf
      exact len_ne_zero_of_drop (by simpa using hdropf)
    have hbody : decodeBody st = segRound st c.deltas c.fields.flatten.length := by
      rw [decodeBody_at_field st f _ hf hdropf,
        readSegment_fields st c.fields (c.sep :: rest) hfs hdrop1
          (fun _ => ⟨c.sep, rest, rfl, sep_stop hsep⟩)]
      rw [List.take_of_length_le (wf_length hwf)]
      rfl
    have hdrop2 : (segRound st c.deltas c.fields.flatten.length).r.s.drop
        (segRound st c.deltas c.fields.flatten.length).r.i = c.sep :: rest := by
      simpa [segRound] using drop_advance hdrop1
    have hlen2 := len_ne_zero_of_drop hdrop2
    have hflen : 1 ≤ c.fields.flatten.length := by
      rw [hfm, hfb]; simp
    have hblen : c.bytes.length = (c.bytes.length - 2) + 1 + 1 := by
      simp only [Segment.bytes, List.length_append, List.length_singleton]
      omega
    have hseg : segStep st c = sepRound (segRound st c.deltas c.fields.flatten.length) c.sep := by
      simp [segStep, hne]
    refine ⟨?_, ?_, ?_, fun _ => by omega⟩
    · rw [hseg]
      conv_lhs => rw [hblen, ← Nat.add_assoc, ← Nat.add_assoc]
      rw [decodeLoop_step _ st hlen, hbody, decodeLoop_step _ _ hlen2,
        decodeBody_sep _ c.sep rest hdrop2 hsep]
    · rw [hseg]; unfold sepRound; split <;> rfl
    · rw [hseg]
      have := drop_advance (f := [c.sep]) (p := rest) (by simpa using hdrop2)
      unfold sepRound; split <;> simpa using this

/-- More fuel does not change a result. -/
theorem decodeLoop_mono : ∀ (n : Nat) (st st' : DecodeState), decodeLoop n st = some st' →
    ∀ m, n ≤ m → decodeLoop m st = some st' := by
  intro n
  induction n with
  | zero =>
    intro st st' h m _
    by_cases hl : st.r.Len = 0
    · rw [decodeLoop_done _ _ hl] at h ⊢; exact h
    · simp [decodeLoop, hl] at h
  | succ n ih =>
    intro st st' h m hm
    by_cases hl : st.r.Len = 0
    · rw [decodeLoop_done _ _ hl] at h ⊢; exact h
    · obtain ⟨m, rfl⟩ : ∃ k, m = k + 1 := ⟨m - 1, by omega⟩
      rw [decodeLoop_step _ _ hl] at h ⊢
      exact ih _ _ h m (by omega)

theorem render_cons (c : Segment) (cs : List Segment) : render (c :: cs) = c.bytes ++ render cs := by
  simp [render]

theorem render_append (cs ds : List Segment) : render (cs ++ ds) = render cs ++ render ds := by
  simp [render]

/-- Where the reader stands after a run of well-formed segments. -/
theorem foldl_segStep_reader : ∀ (cs : List Segment) (st : DecodeState) (rest : List Nat),
    (∀ c ∈ cs, c.wf = true) → st.r.s.drop st.r.i = render cs ++ rest →
    (cs.foldl segStep st).r.s = st.r.s ∧
      (cs.foldl segStep st).r.s.drop (cs.foldl segStep st).r.i = rest := by
  intro cs
  induction cs with
  | nil => intro st rest _ h; simpa [render] using h
  | cons c cs ih =>
    intro st rest hwf hdrop
    rw [render_cons, List.append_assoc] at hdrop
    obtain ⟨-, h2, h3, -⟩ := decodeLoop_segment st c (render cs ++ rest)
      (hwf c (List.mem_cons_self _ _)) hdrop 0
    obtain ⟨i1, i2⟩ := ih (segStep st c) rest (fun d hd => hwf d (List.mem_cons_of_mem _ hd)) h3
    rw [List.foldl_cons]
    exact ⟨i1.trans h2, i2⟩

/-- The main loop over a run of well-formed segments: whatever the loop returns
from the state that `segStep` describes, it returns from the start of the run. -/
theorem decodeLoop_segments : ∀ (cs : List Segment) (st : DecodeState) (rest : List Nat),
    (∀ c ∈ cs, c.wf = true) → st.r.s.drop st.r.i = render cs ++ rest →
    ∀ (n : Nat) (st' : DecodeState), decodeLoop n (cs.foldl segStep st) = some st' →
      decodeLoop (n + (render cs).length) st = some st' := by
  intro cs
  induction cs with
  | nil => intro st rest _ _ n st' h; simpa [render] using h
  | cons c cs ih =>
    intro st rest hwf hdrop n st' h
    rw [render_cons, List.append_assoc] at hdrop
    obtain ⟨h1, -, h3, -⟩ := decodeLoop_segment st c (render cs ++ rest)
      (hwf c (List.mem_cons_self _ _)) hdrop (n + (render cs).length)
    have hlen : n + (render (c :: cs)).length = n + (render cs).length + c.bytes.length := by
      rw [render_cons, List.length_append]; omega
    rw [hlen, h1]
    rw [List.foldl_cons] at h
    have ih' := ih (segStep st c) rest (fun d hd => hwf d (List.mem_cons_of_mem _ hd)) h3 n st' h
    exact decodeLoop_mono _ _ _ ih' _ (by omega)

/-- Decoding a string of well-formed segments, each followed by its separator. -/
theorem decodeLoop_render (cs : List Segment) (hwf : ∀ c ∈ cs, c.wf = true) (st : DecodeState)
    (hdrop : st.r.s.drop st.r.i = render cs) (n : Nat) (hn : (render cs).length ≤ n) :
    decodeLoop n st = some (cs.foldl segStep st) := by
  have hd : st.r.s.drop st.r.i = render cs ++ [] := by simpa using hdrop
  obtain ⟨-, hend⟩ := foldl_segStep_reader cs st [] hwf hd
  have h0 := decodeLoop_done 0 _ (len_eq_zero_of_drop hend)
  have := decodeLoop_segments cs st [] hwf hd 0 _ h0
  exact decodeLoop_mono _ _ _ this _ (by omega)

theorem isField_last {f : List Nat} (hf : isField f = true) :
    ∃ init t, f = init ++ [t] ∧ isField [t] = true := by
  induction f with
  | nil => simp [isField] at hf
  | cons b rest ih =>
    cases rest with
    | nil => exact ⟨[], b, rfl, hf⟩
    | cons d rest =>
      simp only [isField, Bool.and_eq_true] at hf
      obtain ⟨init, t, h1, h2⟩ := ih hf.2
      exact ⟨b :: init, t, by rw [h1]; rfl, h2⟩

/-- A round of the main loop that starts at the last byte of the input, a digit
without continuation bit: the digit is read three times, as the fields 1, 3 and 5,
and no record is appended. -/
theorem decodeBody_tail (st : DecodeState) (t : Nat) (ht : isField [t] = true)
    (hdrop : st.r.s.drop st.r.i = [t]) :
    (decodeBody st).decodedMappings = st.decodedMappings ∧
      (decodeBody st).r = ⟨st.r.s, st.r.i + 1⟩ := by
  rw [decodeBody_at_field st [t] [] ht (by simpa using hdrop)]
  obtain ⟨⟨s, i⟩, gl, gc, ofi, ol, oc, onm, recs⟩ := st
  simp only at hdrop
  have hend : s.drop (i + 1) = [] := by
    simpa using drop_advance (f := [t]) (p := []) (by simpa using hdrop)
  have hread : ∀ c, readVLQ ⟨s, i⟩ c = (fieldValue [t], ⟨s, i + 1⟩, c + 1) := by
    intro c
    simpa using readVLQ_field ht ⟨s, i⟩ c [] (by simpa using hdrop)
  have heof : ∀ c, readVLQ ⟨s, i + 1⟩ c = (0, ⟨s, i⟩, c) := by
    intro c
    rw [readVLQ_eof (r := ⟨s, i + 1⟩) hend c, unread_after_read]
  unfold readSegment
  simp only [hread, heof]
  simp [switchCount]

/-- A final segment of five fields with nothing after it. -/
theorem decodeLoop_final5 (st : DecodeState) (fs : List (List Nat))
    (hfs : ∀ f ∈ fs, isField f = true) (hlen : fs.length = 5)
    (hdrop : st.r.s.drop st.r.i = fs.flatten) (n : Nat) :
    decodeLoop (n + 1) st = some (segRound st (fs.map fieldValue) fs.flatten.length) := by
  obtain ⟨f, more, hfm, hf⟩ := flatten_ne_nil_of_fields hfs (by
    intro h; rw [h] at hlen; simp at hlen)
  have hdropf : st.r.s.drop st.r.i = f ++ more.flatten := by rw [hdrop, hfm]; simp
  obtain ⟨b, frest, hfb, -⟩ := field_head hf
  have hl : st.r.Len ≠ 0 := by
    rw [hfb] at hdropf
    exact len_ne_zero_of_drop (by simpa using hdropf)
  have hbody : decodeBody st = segRound st (fs.map fieldValue) fs.flatten.length := by
    rw [decodeBody_at_field st f _ hf hdropf,
      readSegment_fields st fs [] hfs (by simpa using hdrop) (fun h => by omega)]
    rw [List.take_of_length_le (by omega)]
  rw [decodeLoop_step _ _ hl, hbody]
  apply decodeLoop_done
  apply len_eq_zero_of_drop
  simpa [segRound] using drop_advance (f := fs.flatten) (p := []) (by simpa using hdrop)

/-- The five calls of `readVLQ` on a final segment of four fields with nothing
after it: the fifth call is at the end of the input and steps the reader back. -/
theorem readSegment_final4 (st : DecodeState) (f1 f2 f3 f4 : List Nat)
    (hfs : ∀ f ∈ [f1, f2, f3, f4], isField f = true)
    (hdrop : st.r.s.drop st.r.i = [f1, f2, f3, f4].flatten) :
    readSegment st st.r =
      { segRound st ([f1, f2, f3, f4].map fieldValue) [f1, f2, f3, f4].flatten.length with
        r := ⟨st.r.s, st.r.i + [f1, f2, f3, f4].flatten.length - 1⟩ } := by
  obtain ⟨⟨s, i⟩, gl, gc, ofi, ol, oc, onm, recs⟩ := st
  simp only at hdrop
  have hdrop0 : s.drop i = [f1, f2, f3, f4].flatten ++ [] := by simpa using hdrop
  obtain ⟨h1, d1⟩ := read_next [f1, f2, f3, f4] [] ⟨s, i⟩ 0 hfs hdrop0 (by simp)
  simp only [List.head?_cons, Option.map_some', Option.getD_some, List.tail_cons,
    reduceCtorEq, ↓reduceIte, Nat.reduceAdd, zero_add] at h1 d1
  obtain ⟨h2, d2⟩ := read_next [f2, f3, f4] [] ⟨s, i + f1.length⟩ 1
    (fun f hf => hfs f (by simp at hf ⊢; simp [hf])) d1 (by simp)
  simp only [List.head?_cons, Option.map_some', Option.getD_some, List.tail_cons,
    reduceCtorEq, ↓reduceIte, Nat.reduceAdd, zero_add] at h2 d2
  obtain ⟨h3, d3⟩ := read_next [f3, f4] [] ⟨s, i + f1.length + f2.length⟩ 2
    (fun f hf => hfs f (by simp at hf ⊢; simp [hf])) d2 (by simp)
  simp only [List.head?_cons, Option.map_some', Option.getD_some, List.tail_cons,
    reduceCtorEq, ↓reduceIte, Nat.reduceAdd, zero_add] at h3 d3
  obtain ⟨h4, d4⟩ := read_next [f4] [] ⟨s, i + f1.length + f2.length + f3.length⟩ 3
    (fun f hf => hfs f (by simp at hf ⊢; simp [hf])) d3 (by simp)
  simp only [List.head?_cons, Option.map_some', Option.getD_some, List.tail_cons,
    reduceCtorEq, ↓reduceIte, Nat.reduceAdd, zero_add] at h4 d4
  have h5 := readVLQ_eof (r := ⟨s, i + f1.length + f2.length + f3.length + f4.length⟩)
    (by simpa using d4) 4
  unfold readSegment segRound
  simp only [h1, h2, h3, h4, h5]
  simp [switchCount, Nat.add_assoc, Reader.UnreadByte]
  obtain ⟨b, frest, hfb, -⟩ := field_head (hfs f4 (by simp))
  intro _ _ _ _ h
  rw [hfb] at h
  simp at h

/-- A final segment of four fields with nothing after it: its record is appended,
and a further round over the last byte appends nothing and ends the loop. -/
theorem decodeLoop_final4 (st : DecodeState) (fs : List (List Nat))
    (hfs : ∀ f ∈ fs, isField f = true) (hlen : fs.length = 4)
    (hdrop : st.r.s.drop st.r.i = fs.flatten) (n : Nat) :
    ∃ st', decodeLoop (n + 2) st = some st' ∧
      st'.decodedMappings = (segRound st (fs.map fieldValue) fs.flatten.length).decodedMappings := by
  obtain ⟨f1, f2, f3, f4, rfl⟩ : ∃ f1 f2 f3 f4, fs = [f1, f2, f3, f4] := by
    match fs, hlen with
    | [f1, f2, f3, f4], _ => exact ⟨f1, f2, f3, f4, rfl⟩
  have hf1 := hfs f1 (by simp)
  have hdropf : st.r.s.drop st.r.i = f1 ++ [f2, f3, f4].flatten := by rw [hdrop]; simp
  obtain ⟨b, frest, hfb, -⟩ := field_head hf1
  have hl : st.r.Len ≠ 0 := by
    rw [hfb] at hdropf
    exact len_ne_zero_of_drop (by simpa using hdropf)
  obtain ⟨init, t, hit, ht⟩ := isField_last (hfs f4 (by simp))
  have hbody := readSegment_final4 st f1 f2 f3 f4 hfs hdrop
  rw [← decodeBody_at_field st f1 _ hf1 hdropf] at hbody
  have htot : [f1, f2, f3, f4].flatten.length = (f1 ++ f2 ++ f3 ++ init).length + 1 := by
    rw [hit]; simp; omega
  have hdrop1 : (decodeBody st).r.s.drop (decodeBody st).r.i = [t] := by
    rw [hbody]
    simp only
    rw [htot]
    have : st.r.s.drop st.r.i = (f1 ++ f2 ++ f3 ++ init) ++ [t] := by
      rw [hdrop, hit]; simp
    have := drop_advance this
    simpa using this
  obtain ⟨t1, t2⟩ := decodeBody_tail (decodeBody st) t ht hdrop1
  refine ⟨decodeBody (decodeBody st), ?_, ?_⟩
  · rw [decodeLoop_step _ _ hl, decodeLoop_step _ _ (len_ne_zero_of_drop hdrop1)]
    apply decodeLoop_done
    apply len_eq_zero_of_drop
    rw [t2]
    simpa using drop_advance (f := [t]) (p := []) (by simpa using hdrop1)
  · rw [t1, hbody]

/-- A final segment of four or five fields that lacks its separator is decoded to
the same records as with the separator. -/
theorem decodeLoop_open (st : DecodeState) (c : Segment) (hwf : c.wf = true)
    (hlen : c.fields.length = 4 ∨ c.fields.length = 5)
    (hdrop : st.r.s.drop st.r.i = c.fields.flatten) (n : Nat) (hn : 2 ≤ n) :
    ∃ st', decodeLoop n st = some st' ∧
      st'.decodedMappings = (segStep st c).decodedMappings := by
  have hfs := wf_fields hwf
  have hne : c.fields ≠ [] := by
    intro h; rw [h] at hlen; simp at hlen
  have hrec : (segStep st c).decodedMappings
      = (segRound st (c.fields.map fieldValue) c.fields.flatten.length).decodedMappings := by
    simp only [segStep, if_neg hne, sepRound, Segment.deltas]
    split <;> rfl
  obtain ⟨m, rfl⟩ : ∃ m, n = m + 2 := ⟨n - 2, by omega⟩
  rcases hlen with h4 | h5
  · obtain ⟨st', h1, h2⟩ := decodeLoop_final4 st c.fields hfs h4 hdrop m
    exact ⟨st', h1, by rw [h2, hrec]⟩
  · exact ⟨_, decodeLoop_final5 st c.fields hfs h5 hdrop (m + 1), hrec.symm⟩

theorem segStep_vars (st1 st2 : DecodeState) (c : Segment) (h : st1.vars = st2.vars) :
    (segStep st1 c).vars = (segStep st2 c).vars := by
  obtain ⟨r1, gl1, gc1, of1, ol1, oc1, on1, recs1⟩ := st1
  obtain ⟨r2, gl2, gc2, of2, ol2, oc2, on2, recs2⟩ := st2
  simp only [DecodeState.vars, Prod.mk.injEq] at h
  obtain ⟨rfl, rfl, rfl, rfl, rfl, rfl, rfl⟩ := h
  simp only [segStep, sepRound, segRound, DecodeState.vars]
  split <;> split <;> rfl

theorem foldl_segStep_vars : ∀ (cs : List Segment) (st1 st2 : DecodeState),
    st1.vars = st2.vars → (cs.foldl segStep st1).vars = (cs.foldl segStep st2).vars := by
  intro cs
  induction cs with
  | nil => intro st1 st2 h; exact h
  | cons c cs ih =>
    intro st1 st2 h
    exact ih _ _ (segStep_vars st1 st2 c h)

theorem vars_records {st1 st2 : DecodeState} (h : st1.vars = st2.vars) :
    st1.decodedMappings = st2.decodedMappings := by
  simp only [DecodeState.vars, Prod.mk.injEq] at h
  exact h.2.2.2.2.2.2

theorem stateAfter_vars (cs : List Segment) (s : List Nat) :
    (cs.foldl segStep (decodeInit s)).vars = (stateAfter cs).vars :=
  foldl_segStep_vars cs _ _ rfl

/-- Decoding a string of well-formed segments, each followed by its separator,
returns the records of `stateAfter`. -/
theorem decodeString_render (cs : List Segment) (hwf : ∀ c ∈ cs, c.wf = true) (fuel : Nat)
    (hfuel : (render cs).length ≤ fuel) :
    decodeString fuel (render cs) = some (stateAfter cs).decodedMappings := by
  unfold decodeString
  rw [decodeLoop_render cs hwf (decodeInit (render cs)) (by simp [decodeInit, NewReader]) fuel
    hfuel]
  simp only [Option.map_some']
  rw [vars_records (stateAfter_vars cs _)]

/-- The same when the last segment, of four or five fields, lacks its separator. -/
theorem decodeString_render_open (cs : List Segment) (c : Segment)
    (hwf : ∀ d ∈ cs ++ [c], d.wf = true)
    (hlen : c.fields.length = 4 ∨ c.fields.length = 5) (fuel : Nat)
    (hfuel : (render cs ++ c.fields.flatten).length ≤ fuel) :
    decodeString fuel (render cs ++ c.fields.flatten)
      = some (stateAfter (cs ++ [c])).decodedMappings := by
  have hwfc : c.wf = true := hwf c (by simp)
  have hwfcs : ∀ d ∈ cs, d.wf = true := fun d hd => hwf d (by simp [hd])
  set str := render cs ++ c.fields.flatten with hstr
  have hd : (decodeInit str).r.s.drop (decodeInit str).r.i = render cs ++ c.fields.flatten := by
    simp [decodeInit, NewReader, hstr]
  obtain ⟨-, hpos⟩ := foldl_segStep_reader cs (decodeInit str) _ hwfcs hd
  have hflen : 4 ≤ c.fields.flatten.length := by
    have hfs := wf_fields hwfc
    have : ∀ f ∈ c.fields, 1 ≤ f.length := by
      intro f hf
      obtain ⟨b, rest, hb, -⟩ := field_head (hfs f hf)
      rw [hb]; simp
    have h4 : 4 ≤ c.fields.length := by omega
    calc 4 ≤ c.fields.length := h4
      _ = (c.fields.map fun _ => 1).sum := by simp
      _ ≤ (c.fields.map List.length).sum := by
          apply List.sum_le_sum
          intro f hf
          exact this f hf
      _ = c.fields.flatten.length := by rw [List.length_flatten]
  obtain ⟨st', h1, h2⟩ := decodeLoop_open (cs.foldl segStep (decodeInit str)) c hwfc hlen hpos
    (fuel - (render cs).length) (by
      rw [hstr, List.length_append] at hfuel
      omega)
  have h3 := decodeLoop_segments cs (decodeInit str) _ hwfcs hd _ st' h1
  have hfuel' : fuel - (render cs).length + (render cs).length = fuel := by
    rw [hstr, List.length_append] at hfuel
    omega
  rw [hfuel'] at h3
  unfold decodeString
  rw [h3]
  simp only [Option.map_some']
  rw [h2, stateAfter, List.foldl_append, List.foldl_cons, List.foldl_nil]
  exact congrArg some (vars_records (segStep_vars _ _ c (stateAfter_vars cs str)))

theorem wrapInt_add_left (a b : Int) : wrapInt (wrapInt a + b) = wrapInt (a + b) := by
  unfold wrapInt
  omega

theorem wrapInt_idem (a : Int) : wrapInt (wrapInt a) = wrapInt a := by
  unfold wrapInt
  omega

theorem stateAfter_snoc (cs : List Segment) (c : Segment) :
    stateAfter (cs ++ [c]) = segStep (stateAfter cs) c := by
  simp [stateAfter, List.foldl_append]

theorem deltaSum_snoc (j : Nat) (cs : List Segment) (c : Segment) :
    deltaSum j (cs ++ [c]) = deltaSum j cs + c.deltas.getD j 0 := by
  simp [deltaSum]

theorem lastLine_snoc (cs : List Segment) (c : Segment) :
    lastLine (cs ++ [c]) = if c.sep = 59 then [] else lastLine cs ++ [c] := by
  unfold lastLine
  rw [List.reverse_append, List.reverse_singleton, List.singleton_append, List.takeWhile_cons]
  by_cases h : c.sep = 59
  · simp [h]
  · simp [h]

theorem lineBreaks_snoc (cs : List Segment) (c : Segment) :
    lineBreaks (cs ++ [c]) = lineBreaks cs + if c.sep = 59 then 1 else 0 := by
  unfold lineBreaks
  rw [List.filter_append, List.length_append]
  by_cases h : c.sep = 59 <;> simp [List.filter_cons, h]

/-- The running variables of the decoder after the segments `cs`: the line count,
the column sum of the last line, and for each original-side variable its start
value plus the sum of all deltas read. -/
theorem stateAfter_acc (cs : List Segment) (hwf : ∀ c ∈ cs, c.wf = true) :
    (stateAfter cs).generatedLine = 1 + (lineBreaks cs : Int) ∧
    (stateAfter cs).generatedColumn = wrapInt (deltaSum 0 (lastLine cs)) ∧
    (stateAfter cs).originalFile = wrapInt (0 + deltaSum 1 cs) ∧
    (stateAfter cs).originalLine = wrapInt (1 + deltaSum 2 cs) ∧
    (stateAfter cs).originalColumn = wrapInt (0 + deltaSum 3 cs) ∧
    (stateAfter cs).originalName = wrapInt (0 + deltaSum 4 cs) := by
  induction cs using List.reverseRecOn with
  | nil =>
    simp only [stateAfter, List.foldl_nil, decodeInit, lineBreaks, deltaSum, lastLine]
    refine ⟨by simp, ?_, ?_, ?_, ?_, ?_⟩ <;> simp [wrapInt]
  | append_singleton cs c ih =>
    obtain ⟨h1, h2, h3, h4, h5, h6⟩ := ih (fun d hd => hwf d (by simp [hd]))
    have hsep := wf_sep (hwf c (by simp))
    have hstep : ∀ st : DecodeState, (sepRound st c.sep).generatedLine
          = st.generatedLine + (if c.sep = 59 then 1 else 0) ∧
        (sepRound st c.sep).generatedColumn = (if c.sep = 59 then 0 else st.generatedColumn) ∧
        (sepRound st c.sep).originalFile = st.originalFile ∧
        (sepRound st c.sep).originalLine = st.originalLine ∧
        (sepRound st c.sep).originalColumn = st.originalColumn ∧
        (sepRound st c.sep).originalName = st.originalName := by
      intro st
      unfold sepRound
      rcases hsep with h | h <;> simp [h]
    have hfields : ∀ (j : Nat) (a : Int), wrapInt a = a →
        (if c.fields = [] then a else wrapInt (a + c.deltas.getD j 0))
          = wrapInt (a + c.deltas.getD j 0) := by
      intro j a ha
      by_cases hne : c.fields = []
      · have hd : c.deltas.getD j 0 = 0 := by simp [Segment.deltas, hne]
        rw [if_pos hne, hd, add_zero, ha]
      · rw [if_neg hne]
    have hmid : ∀ st : DecodeState,
        (if c.fields = [] then st else segRound st c.deltas c.fields.flatten.length).generatedLine
          = st.generatedLine ∧
        (if c.fields = [] then st else segRound st c.deltas c.fields.flatten.length).generatedColumn
          = (if c.fields = [] then st.generatedColumn
              else wrapInt (st.generatedColumn + c.deltas.getD 0 0)) ∧
        (if c.fields = [] then st else segRound st c.deltas c.fields.flatten.length).originalFile
          = (if c.fields = [] then st.originalFile
              else wrapInt (st.originalFile + c.deltas.getD 1 0)) ∧
        (if c.fields = [] then st else segRound st c.deltas c.fields.flatten.length).originalLine
          = (if c.fields = [] then st.originalLine
              else wrapInt (st.originalLine + c.deltas.getD 2 0)) ∧
        (if c.fields = [] then st else segRound st c.deltas c.fields.flatten.length).originalColumn
          = (if c.fields = [] then st.originalColumn
              else wrapInt (st.originalColumn + c.deltas.getD 3 0)) ∧
        (if c.fields = [] then st else segRound st c.deltas c.fields.flatten.length).originalName
          = (if c.fields = [] then st.originalName
              else wrapInt (st.originalName + c.deltas.getD 4 0)) := by
      intro st
      by_cases hne : c.fields = []
      · simp [hne]
      · simp [hne, segRound]
    rw [stateAfter_snoc, lineBreaks_snoc, lastLine_snoc]
    simp only [deltaSum_snoc]
    obtain ⟨s1, s2, s3, s4, s5, s6⟩ := hstep
      (if c.fields = [] then stateAfter cs
        else segRound (stateAfter cs) c.deltas c.fields.flatten.length)
    obtain ⟨m1, m2, m3, m4, m5, m6⟩ := hmid (stateAfter cs)
    unfold segStep
    rw [s1, s2, s3, s4, s5, s6, m1, m2, m3, m4, m5, m6]
    rw [hfields 0 _ (by rw [h2, wrapInt_idem]), hfields 1 _ (by rw [h3, wrapInt_idem]),
      hfields 2 _ (by rw [h4, wrapInt_idem]), hfields 3 _ (by rw [h5, wrapInt_idem]),
      hfields 4 _ (by rw [h6, wrapInt_idem])]
    rw [h1, h2, h3, h4, h5, h6]
    simp only [wrapInt_add_left]
    refine ⟨?_, ?_, ?_, ?_, ?_, ?_⟩
    · split <;> push_cast <;> ring
    · split
      · simp [deltaSum, wrapInt]
      · rw [deltaSum_snoc]
    · congr 1; ring
    · congr 1; ring
    · congr 1; ring
    · congr 1; ring

/-- The record a segment with fields appends, in terms of the sums. -/
theorem stateAfter_snoc_records (cs : List Segment) (c : Segment)
    (hwf : ∀ d ∈ cs ++ [c], d.wf = true) (hne : c.fields ≠ []) :
    (stateAfter (cs ++ [c])).decodedMappings = (stateAfter cs).decodedMappings ++
      switchCount c.fields.length (1 + (lineBreaks cs : Int))
        (wrapInt (deltaSum 0 (lastLine cs ++ [c])))
        (wrapInt (0 + deltaSum 1 (cs ++ [c])))
        (wrapInt (1 + deltaSum 2 (cs ++ [c])))
        (wrapInt (0 + deltaSum 3 (cs ++ [c])))
        (wrapInt (0 + deltaSum 4 (cs ++ [c]))) := by
  obtain ⟨h1, h2, h3, h4, h5, h6⟩ := stateAfter_acc cs (fun d hd => hwf d (by simp [hd]))
  rw [stateAfter_snoc]
  have hrec : (segStep (stateAfter cs) c).decodedMappings
      = (segRound (stateAfter cs) c.deltas c.fields.flatten.length).decodedMappings := by
    simp only [segStep, if_neg hne, sepRound]
    split <;> rfl
  rw [hrec]
  simp only [segRound, deltaSum_snoc]
  rw [h1, h2, h3, h4, h5, h6]
  simp only [wrapInt_add_left, Segment.deltas, List.length_map]
  congr 2 <;> congr 1 <;> ring

/-- Records are only ever appended, one for each segment of 1, 4 or 5 fields. -/
theorem foldl_segStep_records : ∀ (cs : List Segment) (st : DecodeState),
    ∃ X, (cs.foldl segStep st).decodedMappings = st.decodedMappings ++ X ∧
      X.length = (cs.filter Segment.hasRecord).length := by
  intro cs
  induction cs with
  | nil => intro st; exact ⟨[], by simp, by simp⟩
  | cons c cs ih =>
    intro st
    obtain ⟨X, hX, hlen⟩ := ih (segStep st c)
    have hstep : ∃ Y, (segStep st c).decodedMappings = st.decodedMappings ++ Y ∧
        Y.length = if c.hasRecord then 1 else 0 := by
      by_cases hne : c.fields = []
      · refine ⟨[], ?_, ?_⟩
        · simp only [segStep, if_pos hne, sepRound]
          split <;> simp
        · simp [Segment.hasRecord, hne]
      · refine ⟨switchCount c.deltas.length st.generatedLine
          (wrapInt (st.generatedColumn + c.deltas.getD 0 0))
          (wrapInt (st.originalFile + c.deltas.getD 1 0))
          (wrapInt (st.originalLine + c.deltas.getD 2 0))
          (wrapInt (st.originalColumn + c.deltas.getD 3 0))
          (wrapInt (st.originalName + c.deltas.getD 4 0)), ?_, ?_⟩
        · simp only [segStep, if_neg hne, sepRound, segRound]
          split <;> rfl
        · simp only [switchCount, Segment.deltas, List.length_map, Segment.hasRecord]
          by_cases h1 : c.fields.length = 1
          · simp [h1]
          · by_cases h4 : c.fields.length = 4
            · simp [h4]
            · by_cases h5 : c.fields.length = 5
              · simp [h5]
              · simp [h1, h4, h5]
    obtain ⟨Y, hY, hYlen⟩ := hstep
    refine ⟨Y ++ X, ?_, ?_⟩
    · rw [List.foldl_cons, hX, hY, List.append_assoc]
    · rw [List.length_append, hlen, hYlen, List.filter_cons]
      split <;> first | (simp; omega) | simp

theorem stateAfter_append_records (cs ds : List Segment) :
    ∃ X, (stateAfter (cs ++ ds)).decodedMappings = (stateAfter cs).decodedMappings ++ X ∧
      X.length = (ds.filter Segment.hasRecord).length := by
  have := foldl_segStep_records ds (stateAfter cs)
  simpa [stateAfter, List.foldl_append] using this

/-! ## Lemmas: the encoder, and decoding what it wrote -/

theorem writeVLQ_diff (a b : Int) (ha : |a| < 2 ^ 61) (hb : |b| < 2 ^ 61) :
    ∃ f, writeVLQ (wrapInt (a - b)) = some f ∧ isField f = true ∧ fieldValue f = a - b ∧
      wrapInt (b + fieldValue f) = a := by
  have ha' := abs_lt.mp ha
  have hb' := abs_lt.mp hb
  have hw : wrapInt (a - b) = a - b := wrapInt_of_fits (by omega) (by omega)
  have hfit : 2 * |a - b| < 2 ^ 63 := by
    have : |a - b| < 2 ^ 62 := abs_lt.mpr ⟨by omega, by omega⟩
    omega
  obtain ⟨f, h1, h2, h3⟩ := writeVLQ_field (a - b) hfit
  refine ⟨f, by rw [hw]; exact h1, h2, h3, ?_⟩
  rw [h3]
  have : b + (a - b) = a := by ring
  rw [this]
  exact wrapInt_of_fits (by omega) (by omega)

/-- What `encodeRecord` writes for an encodable record: the `;`s that bring the line
up, a `,` after a record of the same line, and four or five complete fields that
hold the differences to the running variables. -/
theorem encodeRecord_encodable (st : EncodeState) (m : Mapping) (hst : st.small)
    (hm : m.encodable) (hline : st.generatedLine ≤ m.GeneratedLine) :
    ∃ (fs : List (List Nat)) (st' : EncodeState),
      encodeRecord st m = some
        (List.replicate (m.GeneratedLine - st.generatedLine).toNat 59 ++
          (if (m.GeneratedLine > st.generatedLine) then [] else if st.comma then [44] else []) ++
          fs.flatten, st') ∧
      (∀ f ∈ fs, isField f = true) ∧
      fs.length = (if m.OriginalNameIndex ≥ 0 then 5 else 4) ∧
      wrapInt ((if m.GeneratedLine > st.generatedLine then 0 else st.generatedColumn)
        + (fs.map fieldValue).getD 0 0) = m.GeneratedColumn ∧
      wrapInt (st.originalFile + (fs.map fieldValue).getD 1 0) = m.OriginalSourceIndex ∧
      wrapInt (st.originalLine + (fs.map fieldValue).getD 2 0) = m.OriginalLine ∧
      wrapInt (st.originalColumn + (fs.map fieldValue).getD 3 0) = m.OriginalColumn ∧
      wrapInt (st.originalName + (fs.map fieldValue).getD 4 0)
        = (if m.OriginalNameIndex ≥ 0 then m.OriginalNameIndex else st.originalName) ∧
      st'.generatedLine = m.GeneratedLine ∧ st'.generatedColumn = m.GeneratedColumn ∧
      st'.originalFile = m.OriginalSourceIndex ∧ st'.originalLine = m.OriginalLine ∧
      st'.originalColumn = m.OriginalColumn ∧
      st'.originalName = (if m.OriginalNameIndex ≥ 0 then m.OriginalNameIndex
        else st.originalName) ∧
      st'.comma = true := by
  obtain ⟨h1, h2, h3, h4, h5, h6, h7, h8⟩ := hm
  obtain ⟨s1, s2, s3, s4, s5⟩ := hst
  have hgc : |(advanceLines st m).generatedColumn| < 2 ^ 61 := by
    unfold advanceLines; split
    · simp
    · exact s1
  have hadv : (advanceLines st m).generatedColumn
      = if m.GeneratedLine > st.generatedLine then 0 else st.generatedColumn := by
    unfold advanceLines; split <;> rfl
  have hcomma : (if (advanceLines st m).comma = true then [44] else ([] : List Nat))
      = if (m.GeneratedLine > st.generatedLine) then [] else if st.comma then [44] else [] := by
    unfold advanceLines; split <;> simp
  have hof : (advanceLines st m).originalFile = st.originalFile := by
    unfold advanceLines; split <;> rfl
  have hol : (advanceLines st m).originalLine = st.originalLine := by
    unfold advanceLines; split <;> rfl
  have hoc : (advanceLines st m).originalColumn = st.originalColumn := by
    unfold advanceLines; split <;> rfl
  have hon : (advanceLines st m).originalName = st.originalName := by
    unfold advanceLines; split <;> rfl
  have hgl : (advanceLines st m).generatedLine = m.GeneratedLine := by
    unfold advanceLines; split
    · rfl
    · omega
  have hsi : |m.OriginalSourceIndex| < 2 ^ 61 := abs_lt.mpr ⟨by omega, by omega⟩
  obtain ⟨f0, w0, i0, -, r0⟩ := writeVLQ_diff m.GeneratedColumn _ h4 hgc
  obtain ⟨f1, w1, i1, -, r1⟩ := writeVLQ_diff m.OriginalSourceIndex _ hsi s2
  obtain ⟨f2, w2, i2, -, r2⟩ := writeVLQ_diff m.OriginalLine _ h6 s3
  obtain ⟨f3, w3, i3, -, r3⟩ := writeVLQ_diff m.OriginalColumn _ h7 s4
  by_cases hn : m.OriginalNameIndex ≥ 0
  · have hni : |m.OriginalNameIndex| < 2 ^ 61 := abs_lt.mpr ⟨by omega, by omega⟩
    obtain ⟨f4, w4, i4, -, r4⟩ := writeVLQ_diff m.OriginalNameIndex _ hni s5
    refine ⟨[f0, f1, f2, f3, f4],
      { advanceLines st m with
        generatedColumn := m.GeneratedColumn, comma := true,
        originalFile := m.OriginalSourceIndex, originalLine := m.OriginalLine,
        originalColumn := m.OriginalColumn, originalName := m.OriginalNameIndex },
      ?_, ?_, by simp [hn], ?_, ?_, ?_, ?_, ?_, ?_, ?_, ?_, ?_, ?_, ?_, ?_⟩
    · simp only [encodeRecord, hof, hol, hoc, hon, w0, w1, w2, w3, w4, Option.some_bind,
        if_pos h2, if_pos hn, hcomma]
      simp
    · intro f hf
      simp at hf
      rcases hf with rfl | rfl | rfl | rfl | rfl <;> assumption
    · rw [← hadv]; simpa using r0
    · simpa using r1
    · simpa using r2
    · simpa using r3
    · rw [if_pos hn]; simpa using r4
    · exact hgl
    all_goals simp [hn, hon]
  · have hw : wrapInt (st.originalName + 0) = st.originalName := by
      have := abs_lt.mp s5
      rw [add_zero]
      exact wrapInt_of_fits (by omega) (by omega)
    refine ⟨[f0, f1, f2, f3],
      { advanceLines st m with
        generatedColumn := m.GeneratedColumn, comma := true,
        originalFile := m.OriginalSourceIndex, originalLine := m.OriginalLine,
        originalColumn := m.OriginalColumn },
      ?_, ?_, by simp [hn], ?_, ?_, ?_, ?_, ?_, ?_, ?_, ?_, ?_, ?_, ?_, ?_⟩
    · simp only [encodeRecord, hof, hol, hoc, hon, w0, w1, w2, w3, Option.some_bind,
        if_pos h2, if_neg hn, hcomma]
      simp
    · intro f hf
      simp at hf
      rcases hf with rfl | rfl | rfl | rfl <;> assumption
    · rw [← hadv]; simpa using r0
    · simpa using r1
    · simpa using r2
    · simpa using r3
    · rw [if_neg hn]; simpa using hw
    · exact hgl
    all_goals simp [hn, hon]

/-- The rounds of the main loop over a run of `;`. -/
theorem decodeLoop_semis : ∀ (k : Nat) (st : DecodeState) (rest : List Nat),
    st.r.s.drop st.r.i = List.replicate k 59 ++ rest →
    ∃ st1 : DecodeState, (∀ n, decodeLoop (n + k) st = decodeLoop n st1) ∧
      st1.r.s = st.r.s ∧ st1.r.s.drop st1.r.i = rest ∧
      st1.generatedLine = st.generatedLine + k ∧
      st1.generatedColumn = (if k = 0 then st.generatedColumn else 0) ∧
      st1.originalFile = st.originalFile ∧ st1.originalLine = st.originalLine ∧
      st1.originalColumn = st.originalColumn ∧ st1.originalName = st.originalName ∧
      st1.decodedMappings = st.decodedMappings := by
  intro k
  induction k with
  | zero =>
    intro st rest h
    exact ⟨st, fun n => rfl, rfl, by simpa using h, by simp, by simp, rfl, rfl, rfl, rfl, rfl⟩
  | succ k ih =>
    intro st rest h
    have hd : st.r.s.drop st.r.i = 59 :: (List.replicate k 59 ++ rest) := by
      rw [h, List.replicate_succ]; rfl
    have hbody := decodeBody_sep st 59 _ hd (Or.inr rfl)
    have hl := len_ne_zero_of_drop hd
    have hd1 : (sepRound st 59).r.s.drop (sepRound st 59).r.i = List.replicate k 59 ++ rest := by
      have := drop_advance (f := [59]) (p := List.replicate k 59 ++ rest) (by simpa using hd)
      simpa [sepRound] using this
    obtain ⟨st1, g1, g2, g3, g4, g5, g6, g7, g8, g9, g10⟩ := ih (sepRound st 59) rest hd1
    refine ⟨st1, ?_, ?_, g3, ?_, ?_, ?_, ?_, ?_, ?_, ?_⟩
    · intro n
      rw [← Nat.add_assoc, decodeLoop_step _ _ hl, hbody]
      exact g1 n
    · rw [g2]; simp [sepRound]
    · rw [g4]; simp [sepRound]; ring
    · rw [g5]; simp [sepRound]
    · rw [g6]; simp [sepRound]
    · rw [g7]; simp [sepRound]
    · rw [g8]; simp [sepRound]
    · rw [g9]; simp [sepRound]
    · rw [g10]; simp [sepRound]

/-- The rounds of the main loop over the separators that `encodeRecord` writes
before a record: a run of `;`, or a `,`, or nothing. -/
theorem decodeLoop_seps (k : Nat) (comma : Bool) (st : DecodeState) (rest : List Nat)
    (h : st.r.s.drop st.r.i = List.replicate k 59 ++ (if comma then [44] else []) ++ rest) :
    ∃ st1 : DecodeState,
      (∀ n, decodeLoop (n + (k + (if comma then 1 else 0))) st = decodeLoop n st1) ∧
      st1.r.s = st.r.s ∧ st1.r.s.drop st1.r.i = rest ∧
      st1.generatedLine = st.generatedLine + k ∧
      st1.generatedColumn = (if k = 0 then st.generatedColumn else 0) ∧
      st1.originalFile = st.originalFile ∧ st1.originalLine = st.originalLine ∧
      st1.originalColumn = st.originalColumn ∧ st1.originalName = st.originalName ∧
      st1.decodedMappings = st.decodedMappings := by
  rw [List.append_assoc] at h
  obtain ⟨st1, g1, g2, g3, g4, g5, g6, g7, g8, g9, g10⟩ := decodeLoop_semis k st _ h
  cases comma with
  | false =>
    refine ⟨st1, ?_, g2, by simpa using g3, g4, g5, g6, g7, g8, g9, g10⟩
    intro n
    simpa using g1 n
  | true =>
    have hd : st1.r.s.drop st1.r.i = 44 :: rest := by simpa using g3
    have hbody := decodeBody_sep st1 44 _ hd (Or.inl rfl)
    have hl := len_ne_zero_of_drop hd
    refine ⟨sepRound st1 44, ?_, ?_, ?_, ?_, ?_, ?_, ?_, ?_, ?_, ?_⟩
    · intro n
      have : n + (k + (if true = true then 1 else 0)) = (n + 1) + k := by simp; omega
      rw [this, g1 (n + 1), decodeLoop_step _ _ hl, hbody]
    · simpa [sepRound] using g2
    · have := drop_advance (f := [44]) (p := rest) (by simpa using hd)
      simpa [sepRound] using this
    · simpa [sepRound] using g4
    · simpa [sepRound] using g5
    · simpa [sepRound] using g6
    · simpa [sepRound] using g7
    · simpa [sepRound] using g8
    · simpa [sepRound] using g9
    · simpa [sepRound] using g10

theorem fields_flatten_length {fs : List (List Nat)} (hfs : ∀ f ∈ fs, isField f = true) :
    fs.length ≤ fs.flatten.length := by
  have : ∀ f ∈ fs, 1 ≤ f.length := by
    intro f hf
    obtain ⟨b, rest, hb, -⟩ := field_head (hfs f hf)
    rw [hb]; simp
  calc fs.length = (fs.map fun _ => 1).sum := by simp
    _ ≤ (fs.map List.length).sum := by
        apply List.sum_le_sum
        intro f hf
        exact this f hf
    _ = fs.flatten.length := by rw [List.length_flatten]

theorem switchCount_encodable (m : Mapping) (hm : m.encodable) (x : Int) :
    switchCount (if m.OriginalNameIndex ≥ 0 then 5 else 4) m.GeneratedLine m.GeneratedColumn
      m.OriginalSourceIndex m.OriginalLine m.OriginalColumn
      (if m.OriginalNameIndex ≥ 0 then m.OriginalNameIndex else x) = [m] := by
  obtain ⟨gl, gc, si, ol, oc, ni⟩ := m
  obtain ⟨-, -, h3, -⟩ := hm
  simp only at h3 ⊢
  by_cases hn : ni ≥ 0
  · simp [switchCount, hn]
  · have : ni = -1 := by omega
    simp [switchCount, hn, this]

/-- The encoder's output for a list of encodable records in line order, and the
decoder's run over it: the records come back. -/
theorem roundtrip_loop : ∀ (ms : List Mapping) (est : EncodeState), est.small →
    (∀ m ∈ ms, m.encodable) →
    ms.Pairwise (fun a b => a.GeneratedLine ≤ b.GeneratedLine) →
    (∀ m ∈ ms, est.generatedLine ≤ m.GeneratedLine) →
    ∃ out, encodeLoop est ms = some out ∧
      (ms ≠ [] → est.comma = true → ∃ b rest, out = b :: rest ∧ (b = 44 ∨ b = 59)) ∧
      ∀ dst : DecodeState, linked est dst → dst.r.s.drop dst.r.i = out →
        ∀ fuel, out.length ≤ fuel →
          ∃ dst', decodeLoop fuel dst = some dst' ∧
            dst'.decodedMappings = dst.decodedMappings ++ ms := by
  intro ms
  induction ms with
  | nil =>
    intro est _ _ _ _
    refine ⟨[], rfl, fun h => absurd rfl h, ?_⟩
    intro dst _ hdrop fuel _
    exact ⟨dst, decodeLoop_done _ _ (len_eq_zero_of_drop hdrop), by simp⟩
  | cons m rest ih =>
    intro est hsmall hms hsorted hline
    have hm := hms m (List.mem_cons_self _ _)
    have hml := hline m (List.mem_cons_self _ _)
    obtain ⟨fs, est', henc, hfs, hlen, r0, r1, r2, r3, r4, e1, e2, e3, e4, e5, e6, e7⟩ :=
      encodeRecord_encodable est m hsmall hm hml
    have hmb := hm
    obtain ⟨b1, b2, b3, b4, b5, b6, b7, b8⟩ := hmb
    obtain ⟨s1, s2, s3, s4, s5⟩ := hsmall
    have hsmall' : est'.small := by
      refine ⟨by rw [e2]; exact b4, by rw [e3]; exact abs_lt.mpr ⟨by omega, by omega⟩,
        by rw [e4]; exact b6, by rw [e5]; exact b7, ?_⟩
      rw [e6]
      split
      · exact abs_lt.mpr ⟨by omega, by omega⟩
      · exact s5
    rw [List.pairwise_cons] at hsorted
    obtain ⟨out_rest, hrest, hhead, hdec⟩ := ih est' hsmall'
      (fun x hx => hms x (List.mem_cons_of_mem _ hx)) hsorted.2
      (fun x hx => by rw [e1]; exact hsorted.1 x hx)
    set k := (m.GeneratedLine - est.generatedLine).toNat with hk
    set comma' : Bool := decide (¬ m.GeneratedLine > est.generatedLine) && est.comma with hc
    have hsepc : (if (m.GeneratedLine > est.generatedLine) then ([] : List Nat)
        else if est.comma then [44] else []) = (if comma' then [44] else []) := by
      by_cases h : m.GeneratedLine > est.generatedLine
      · simp [hc, h]
      · simp [hc, h]
    rw [hsepc] at henc
    have hfl4 : 4 ≤ fs.length := by rw [hlen]; split <;> omega
    have hfl5 : fs.length ≤ 5 := by rw [hlen]; split <;> omega
    have hflat := fields_flatten_length hfs
    refine ⟨List.replicate k 59 ++ (if comma' then [44] else []) ++ fs.flatten ++ out_rest,
      ?_, ?_, ?_⟩
    · simp [encodeLoop, henc, hrest]
    · intro _ hcomma
      by_cases h : m.GeneratedLine > est.generatedLine
      · obtain ⟨j, hj⟩ : ∃ j, k = j + 1 := ⟨k - 1, by omega⟩
        rw [hj, List.replicate_succ]
        exact ⟨59, _, rfl, Or.inr rfl⟩
      · have hk0 : k = 0 := by omega
        have hct : comma' = true := by simp [hc, h, hcomma]
        rw [hk0, hct]
        exact ⟨44, _, rfl, Or.inl rfl⟩
    · intro dst hlink hdrop fuel hfuel
      obtain ⟨l1, l2, l3, l4, l5, l6⟩ := hlink
      rw [List.append_assoc] at hdrop
      obtain ⟨dst0, g1, g2, g3, g4, g5, g6, g7, g8, g9, g10⟩ :=
        decodeLoop_seps k comma' dst (fs.flatten ++ out_rest) hdrop
      have hgl0 : dst0.generatedLine = m.GeneratedLine := by
        rw [g4, l1]; omega
      have hgc0 : dst0.generatedColumn
          = (if m.GeneratedLine > est.generatedLine then 0 else est.generatedColumn) := by
        rw [g5, l2]
        by_cases h : m.GeneratedLine > est.generatedLine
        · rw [if_neg (by omega), if_pos h]
        · rw [if_pos (by omega), if_neg h]
      have hrecord : switchCount fs.length dst0.generatedLine
          (wrapInt (dst0.generatedColumn + (fs.map fieldValue).getD 0 0))
          (wrapInt (dst0.originalFile + (fs.map fieldValue).getD 1 0))
          (wrapInt (dst0.originalLine + (fs.map fieldValue).getD 2 0))
          (wrapInt (dst0.originalColumn + (fs.map fieldValue).getD 3 0))
          (wrapInt (dst0.originalName + (fs.map fieldValue).getD 4 0)) = [m] := by
        rw [hgl0, hgc0, g6, g7, g8, g9, l3, l4, l5, l6, r0, r1, r2, r3, r4, hlen]
        exact switchCount_encodable m hm _
      have hlenout : (List.replicate k 59 ++ (if comma' then [44] else []) ++ fs.flatten
          ++ out_rest).length
          = k + (if comma' then 1 else 0) + fs.flatten.length + out_rest.length := by
        simp only [List.length_append, List.length_replicate]
        cases comma' <;> simp
      rw [hlenout] at hfuel
      obtain ⟨n, hn⟩ : ∃ n, fuel = n + (k + (if comma' then 1 else 0)) :=
        ⟨fuel - (k + (if comma' then 1 else 0)), by omega⟩
      rw [hn, g1 n]
      cases rest with
      | nil =>
        have hout : out_rest = [] := by
          simp only [encodeLoop, Option.some.injEq] at hrest
          exact hrest.symm
        rw [hout, List.append_nil] at g3
        have hwf : (⟨fs, 44⟩ : Segment).wf = true := by
          simp only [Segment.wf, Bool.and_eq_true, List.all_eq_true, decide_eq_true_eq]
          exact ⟨⟨hfs, hfl5⟩, by simp⟩
        obtain ⟨dst', d1, d2⟩ := decodeLoop_open dst0 ⟨fs, 44⟩ hwf
          (by simp only; rw [hlen]; split <;> simp) g3 n (by omega)
        refine ⟨dst', d1, ?_⟩
        rw [d2]
        have hne : fs ≠ [] := by intro h; rw [h] at hfl4; simp at hfl4
        simp only [segStep, if_neg hne, sepRound, segRound, Segment.deltas, if_true]
        rw [List.length_map, hrecord, g10]
      | cons m2 rest2 =>
        obtain ⟨b, rest', hb, hbsep⟩ := hhead (by simp) e7
        obtain ⟨f, more, hfm, hf⟩ := flatten_ne_nil_of_fields hfs (by
          intro h; rw [h] at hfl4; simp at hfl4)
        have hdropf : dst0.r.s.drop dst0.r.i = f ++ (more.flatten ++ out_rest) := by
          rw [g3, hfm]; simp
        obtain ⟨b0, frest, hfb, -⟩ := field_head hf
        have hl : dst0.r.Len ≠ 0 := by
          rw [hfb] at hdropf
          exact len_ne_zero_of_drop (by simpa using hdropf)
        have hbody : decodeBody dst0 = segRound dst0 (fs.map fieldValue) fs.flatten.length := by
          rw [decodeBody_at_field dst0 f _ hf hdropf,
            readSegment_fields dst0 fs out_rest hfs g3
              (fun _ => ⟨b, rest', hb, sep_stop hbsep⟩)]
          rw [List.take_of_length_le hfl5]
        have hlink1 : linked est' (segRound dst0 (fs.map fieldValue) fs.flatten.length) := by
          simp only [linked, segRound]
          rw [hgl0, hgc0, g6, g7, g8, g9, l3, l4, l5, l6, r0, r1, r2, r3, r4, e1, e2, e3, e4,
            e5, e6]
          exact ⟨rfl, rfl, rfl, rfl, rfl, rfl⟩
        have hdrop1 : (segRound dst0 (fs.map fieldValue) fs.flatten.length).r.s.drop
            (segRound dst0 (fs.map fieldValue) fs.flatten.length).r.i = out_rest := by
          simpa [segRound] using drop_advance g3
        obtain ⟨n1, hn1⟩ : ∃ n1, n = n1 + 1 := ⟨n - 1, by omega⟩
        obtain ⟨dst', d1, d2⟩ := hdec _ hlink1 hdrop1 n1 (by omega)
        refine ⟨dst', ?_, ?_⟩
        · rw [hn1, decodeLoop_step _ _ hl, hbody]
          exact d1
        · rw [d2]
          simp only [segRound]
          rw [List.length_map, hrecord, g10, List.append_assoc]
          rfl

theorem Less_iff (a b : Mapping) : Less a b = true ↔
    a.GeneratedLine < b.GeneratedLine ∨
      (a.GeneratedLine = b.GeneratedLine ∧ a.GeneratedColumn < b.GeneratedColumn) := by
  simp [Less]

theorem Less_false_iff (a b : Mapping) : Less a b = false ↔
    b.GeneratedLine < a.GeneratedLine ∨
      (a.GeneratedLine = b.GeneratedLine ∧ b.GeneratedColumn ≤ a.GeneratedColumn) := by
  rw [← Bool.not_eq_true, Less_iff]
  constructor
  · intro h
    by_cases h1 : b.GeneratedLine < a.GeneratedLine
    · exact Or.inl h1
    · right
      constructor
      · by_contra hne
        exact h (Or.inl (by omega))
      · by_contra hlt
        have : a.GeneratedLine = b.GeneratedLine := by
          by_contra hne
          exact h (Or.inl (by omega))
        exact h (Or.inr ⟨this, by omega⟩)
  · rintro (h | ⟨h1, h2⟩) (h' | ⟨h1', h2'⟩) <;> omega

theorem sinkLeft_perm (x : Mapping) : ∀ run : List Mapping, (sinkLeft x run).Perm (x :: run) := by
  intro run
  induction run with
  | nil => exact List.Perm.refl _
  | cons y ys ih =>
    simp only [sinkLeft]
    split
    · exact ((List.Perm.cons y ih).trans (List.Perm.swap x y ys))
    · exact List.Perm.refl _

theorem sinkLeft_sorted (x : Mapping) : ∀ run : List Mapping,
    run.Pairwise (fun v u => Less v u = false) →
    (sinkLeft x run).Pairwise (fun v u => Less v u = false) := by
  intro run
  induction run with
  | nil => intro _; simp [sinkLeft]
  | cons y ys ih =>
    intro h
    rw [List.pairwise_cons] at h
    simp only [sinkLeft]
    split
    · rename_i hxy
      rw [List.pairwise_cons]
      refine ⟨?_, ih h.2⟩
      intro u hu
      have hu' := (List.Perm.mem_iff (sinkLeft_perm x ys)).mp hu
      rw [List.mem_cons] at hu'
      rcases hu' with rfl | hu'
      · rw [Less_false_iff]
        rw [Less_iff] at hxy
        omega
      · exact h.1 u hu'
    · rename_i hxy
      rw [Bool.not_eq_true] at hxy
      rw [List.pairwise_cons]
      refine ⟨?_, List.pairwise_cons.mpr h⟩
      intro u hu
      simp only [List.mem_cons] at hu
      rcases hu with rfl | hu
      · exact hxy
      · have := h.1 u hu
        rw [Less_false_iff] at this hxy ⊢
        omega

theorem foldl_sinkLeft : ∀ (l run : List Mapping),
    run.Pairwise (fun v u => Less v u = false) →
    (l.foldl (fun run x => sinkLeft x run) run).Perm (l.reverse ++ run) ∧
      (l.foldl (fun run x => sinkLeft x run) run).Pairwise (fun v u => Less v u = false) := by
  intro l
  induction l with
  | nil => intro run h; exact ⟨by simp, h⟩
  | cons x xs ih =>
    intro run h
    obtain ⟨p, s⟩ := ih (sinkLeft x run) (sinkLeft_sorted x run h)
    refine ⟨?_, s⟩
    rw [List.foldl_cons]
    refine p.trans ?_
    rw [List.reverse_cons, List.append_assoc]
    exact List.Perm.append_left _ (sinkLeft_perm x run)

/-- The insertion sort of the standard library keeps the promise of `sort.Sort`. -/
theorem insertionSort_contract : SortContract insertionSort := by
  intro l
  obtain ⟨p, s⟩ := foldl_sinkLeft l [] List.Pairwise.nil
  unfold insertionSort
  constructor
  · refine (List.reverse_perm _).trans (p.trans ?_)
    simp
  · rw [List.pairwise_reverse]
    exact s

theorem strict_of_sorted_distinct {l : List Mapping}
    (hs : l.Pairwise (fun a b => Less b a = false))
    (hd : l.Pairwise (fun a b => a.key ≠ b.key)) :
    l.Pairwise (fun a b => Less a b = true) := by
  refine (hs.and hd).imp ?_
  intro a b h
  obtain ⟨h1, h2⟩ := h
  rw [Less_false_iff] at h1
  rw [Less_iff]
  have hk : ¬ (a.GeneratedLine = b.GeneratedLine ∧ a.GeneratedColumn = b.GeneratedColumn) := by
    rintro ⟨e1, e2⟩
    exact h2 (by simp [Mapping.key, e1, e2])
  omega

theorem strict_sorted_unique {l1 l2 : List Mapping} (hp : l1.Perm l2)
    (h1 : l1.Pairwise (fun a b => Less a b = true))
    (h2 : l2.Pairwise (fun a b => Less a b = true)) : l1 = l2 := by
  haveI : IsAntisymm Mapping (fun a b => Less a b = true) :=
    ⟨fun a b hab hba => by
      rw [Less_iff] at hab hba
      omega⟩
  exact List.eq_of_perm_of_sorted hp h1 h2

/-- With pairwise distinct keys the result of `sort.Sort` does not depend on the
order the records came in. -/
theorem sort_perm_eq (sort : List Mapping → List Mapping) (hsort : SortContract sort)
    (l l' : List Mapping) (hperm : l'.Perm l) (hkeys : l.Pairwise (fun a b => a.key ≠ b.key)) :
    sort l' = sort l ∧ (sort l).Perm l ∧ (sort l).Pairwise (fun a b => Less a b = true) := by
  obtain ⟨p1, s1⟩ := hsort l
  obtain ⟨p2, s2⟩ := hsort l'
  have hsym : ∀ a b : Mapping, a.key ≠ b.key → b.key ≠ a.key := fun a b h => Ne.symm h
  have k1 : (sort l).Pairwise (fun a b => a.key ≠ b.key) :=
    (List.Perm.pairwise_iff (fun {a b} h => hsym a b h) p1).mpr hkeys
  have k2 : (sort l').Pairwise (fun a b => a.key ≠ b.key) :=
    (List.Perm.pairwise_iff (fun {a b} h => hsym a b h) (p2.trans hperm)).mpr hkeys
  have t1 := strict_of_sorted_distinct s1 k1
  have t2 := strict_of_sorted_distinct s2 k2
  exact ⟨strict_sorted_unique (p2.trans (hperm.trans p1.symm)) t2 t1, p1, t1⟩

theorem encodeInit_small : encodeInit.small := by
  simp only [EncodeState.small, encodeInit]
  refine ⟨?_, ?_, ?_, ?_, ?_⟩ <;> norm_num

/-- Encoding records that are in line order and decoding the string. -/
theorem encodeRecords_decode (ms : List Mapping) (hms : ∀ m ∈ ms, m.encodable)
    (hsorted : ms.Pairwise (fun a b => a.GeneratedLine ≤ b.GeneratedLine)) :
    ∃ str, encodeRecords ms = some str ∧
      ∀ fuel, str.length ≤ fuel → decodeString fuel str = some ms := by
  obtain ⟨out, h1, -, h3⟩ := roundtrip_loop ms encodeInit encodeInit_small hms hsorted
    (fun m hm => (hms m hm).1)
  refine ⟨out, h1, ?_⟩
  intro fuel hfuel
  obtain ⟨dst', d1, d2⟩ := h3 (decodeInit out) ⟨rfl, rfl, rfl, rfl, rfl, rfl⟩
    (by simp [decodeInit, NewReader]) fuel hfuel
  unfold decodeString
  rw [d1]
  simp [d2, decodeInit]

/-! ## Lemmas: string tables and path resolution -/

theorem mapLookup_mapStore {κ ν : Type} [DecidableEq κ] (m : List (κ × ν)) (k k' : κ) (v : ν) :
    mapLookup (mapStore m k v) k' = if k = k' then some v else mapLookup m k' := by
  unfold mapLookup mapStore
  by_cases h : k = k'
  · simp [h]
  · simp [h, List.find?_cons]

theorem index_some_of_lt {α : Type} {l : List α} {i : Int} (h0 : 0 ≤ i) (h1 : i < l.length) :
    ∃ a, index l i = some a ∧ a ∈ l := by
  unfold index
  rw [if_neg (by omega)]
  have hlt : i.toNat < l.length := by omega
  refine ⟨l[i.toNat], ?_, List.getElem_mem _⟩
  rw [List.get?_eq_getElem?, List.getElem?_eq_getElem hlt]

theorem AddSource_empty (m : Map) (content : Option (List Nat)) :
    AddSource m "" content = (-1, m) := by
  simp [AddSource]

theorem AddSource_found (m : Map) (name : String) (content : Option (List Nat)) (i : Int)
    (hname : name ≠ "") (hl : mapLookup m.fileIndexMap name = some i) :
    AddSource m name content = (i, m) := by
  simp [AddSource, hname, hl]

theorem AddSource_new (m : Map) (name : String) (content : Option (List Nat))
    (hname : name ≠ "") (hl : mapLookup m.fileIndexMap name = none) :
    (AddSource m name content).1 = (m.Sources.length : Int) ∧
      (AddSource m name content).2.Sources = m.Sources ++ [name] ∧
      (AddSource m name content).2.fileIndexMap
        = mapStore m.fileIndexMap name (m.Sources.length : Int) ∧
      (AddSource m name content).2.Names = m.Names ∧
      (AddSource m name content).2.nameIndexMap = m.nameIndexMap ∧
      (AddSource m name content).2.decodedMappings = m.decodedMappings := by
  cases content <;> simp [AddSource, hname, hl]

theorem AddName_empty (m : Map) : AddName m "" = (-1, m) := by
  simp [AddName]

theorem AddName_found (m : Map) (name : String) (i : Int)
    (hname : name ≠ "") (hl : mapLookup m.nameIndexMap name = some i) :
    AddName m name = (i, m) := by
  simp [AddName, hname, hl]

theorem AddName_new (m : Map) (name : String)
    (hname : name ≠ "") (hl : mapLookup m.nameIndexMap name = none) :
    AddName m name = ((m.Names.length : Int),
      { m with Names := m.Names ++ [name],
               nameIndexMap := mapStore m.nameIndexMap name (m.Names.length : Int) }) := by
  simp [AddName, hname, hl]

/-- The result of `OriginalFullSource` and its effect on the map: the map keeps
everything but its cache, which may gain the entry for the record's index. -/
theorem OriginalFullSource_cases (P : PathLib) (m : Map) (r : Mapping) (s : String) (m2 : Map)
    (h : OriginalFullSource P m r = some (s, m2)) :
    m2 = m ∨ (m2 = { m with fullSources := mapStore m.fullSources r.OriginalSourceIndex s } ∧
      ¬ r.OriginalSourceIndex < 0 ∧ m.SourceRoot ≠ "" ∧
      mapLookup m.fullSources r.OriginalSourceIndex = none) := by
  unfold OriginalFullSource at h
  split at h
  · simp only [Option.some.injEq, Prod.mk.injEq] at h
    exact Or.inl h.2.symm
  · rename_i hneg
    split at h
    · cases ho : OriginalSource m r with
      | none => simp [ho] at h
      | some x =>
        simp only [ho, Option.map_some', Option.some.injEq, Prod.mk.injEq] at h
        exact Or.inl h.2.symm
    · rename_i hroot
      split at h
      · simp only [Option.some.injEq, Prod.mk.injEq] at h
        exact Or.inl h.2.symm
      · rename_i hl
        cases ho : OriginalSource m r with
        | none => simp [ho] at h
        | some x =>
          simp only [ho, Option.map_some', Option.some.injEq, Prod.mk.injEq] at h
          right
          obtain ⟨h1, h2⟩ := h
          subst h1
          exact ⟨h2.symm, hneg, hroot, hl⟩

theorem OriginalFullSource_fields (P : PathLib) (m : Map) (r : Mapping) (s : String) (m2 : Map)
    (h : OriginalFullSource P m r = some (s, m2)) :
    m2.Sources = m.Sources ∧ m2.Names = m.Names ∧ m2.SourcesContent = m.SourcesContent ∧
      m2.File = m.File ∧ m2.SourceRoot = m.SourceRoot ∧
      m2.resolvedSources = m.resolvedSources ∧ m2.decodedMappings = m.decodedMappings := by
  rcases OriginalFullSource_cases P m r s m2 h with rfl | ⟨rfl, -⟩
  · exact ⟨rfl, rfl, rfl, rfl, rfl, rfl, rfl⟩
  · exact ⟨rfl, rfl, rfl, rfl, rfl, rfl, rfl⟩

/-- The path `OriginalResolvedSource` returns, as a function of the path that
`OriginalFullSource` returns. -/
theorem OriginalResolvedSource_fst (P : PathLib) (m : Map) (r : Mapping) :
    (OriginalResolvedSource P m r).map Prod.fst =
      if r.OriginalSourceIndex < 0 then some ""
      else if m.File = "" then (OriginalFullSource P m r).map Prod.fst
      else match mapLookup m.resolvedSources r.OriginalSourceIndex with
        | some s => some s
        | none => ((OriginalFullSource P m r).map Prod.fst).map
            (fun p => if P.IsAbs p then p else P.Clean (P.Join (P.Dir m.File) p)) := by
  unfold OriginalResolvedSource
  by_cases hneg : r.OriginalSourceIndex < 0
  · simp [hneg]
  · by_cases hfile : m.File = ""
    · simp [hneg, hfile]
    · simp only [if_neg hneg, if_neg hfile]
      cases hl : mapLookup m.resolvedSources r.OriginalSourceIndex with
      | some s => simp
      | none =>
        cases ho : OriginalFullSource P m r with
        | none => simp
        | some p =>
          obtain ⟨p1, p2⟩ := p
          obtain ⟨-, -, -, hf, -⟩ := OriginalFullSource_fields P m r p1 p2 ho
          simp [hf]

theorem OriginalResolvedSource_cases (P : PathLib) (m : Map) (r : Mapping) (s : String)
    (m2 : Map) (h : OriginalResolvedSource P m r = some (s, m2)) :
    (∃ t, OriginalFullSource P m r = some (t, m2) ∧ m.File = "" ∧ ¬ r.OriginalSourceIndex < 0) ∨
    m2 = m ∨
    (∃ p1 p2, OriginalFullSource P m r = some (p1, p2) ∧
      m2 = { p2 with resolvedSources := mapStore p2.resolvedSources r.OriginalSourceIndex s } ∧
      ¬ r.OriginalSourceIndex < 0 ∧ m.File ≠ "" ∧
      mapLookup m.resolvedSources r.OriginalSourceIndex = none) := by
  unfold OriginalResolvedSource at h
  split at h
  · simp only [Option.some.injEq, Prod.mk.injEq] at h
    exact Or.inr (Or.inl h.2.symm)
  · rename_i hneg
    split at h
    · rename_i hfile
      exact Or.inl ⟨s, h, hfile, hneg⟩
    · rename_i hfile
      split at h
      · simp only [Option.some.injEq, Prod.mk.injEq] at h
        exact Or.inr (Or.inl h.2.symm)
      · rename_i hl
        cases ho : OriginalFullSource P m r with
        | none => simp [ho] at h
        | some p =>
          obtain ⟨p1, p2⟩ := p
          simp only [ho, Option.map_some', Option.some.injEq, Prod.mk.injEq] at h
          obtain ⟨h1, h2⟩ := h
          right; right
          refine ⟨p1, p2, rfl, ?_, hneg, hfile, hl⟩
          rw [← h2, h1]

/-- The function `OriginalResolvedSource` returns for a record whose source index is in bounds. -/
theorem OriginalResolvedSource_some (P : PathLib) (m : Map) (r : Mapping)
    (hin : r.OriginalSourceIndex < m.Sources.length) :
    ∃ s m2, OriginalResolvedSource P m r = some (s, m2) := by
  have hfull : ∃ s m2, OriginalFullSource P m r = some (s, m2) := by
    unfold OriginalFullSource OriginalSource
    by_cases hneg : r.OriginalSourceIndex < 0
    · exact ⟨_, _, by rw [if_pos hneg]⟩
    · obtain ⟨a, ha, -⟩ := index_some_of_lt (l := m.Sources) (by omega) hin
      simp only [if_neg hneg, ha]
      split
      · exact ⟨_, _, rfl⟩
      · split
        · exact ⟨_, _, rfl⟩
        · exact ⟨_, _, rfl⟩
  obtain ⟨s, m2, hs⟩ := hfull
  unfold OriginalResolvedSource
  split
  · exact ⟨_, _, rfl⟩
  · split
    · exact ⟨s, m2, hs⟩
    · split
      · exact ⟨_, _, rfl⟩
      · rw [hs]
        exact ⟨_, _, rfl⟩

theorem OriginalName_some (m : Map) (r : Mapping) (hin : r.OriginalNameIndex < m.Names.length) :
    ∃ n, OriginalName m r = some n := by
  unfold OriginalName
  split
  · exact ⟨_, rfl⟩
  · obtain ⟨a, ha, -⟩ := index_some_of_lt (l := m.Names) (by omega) hin
    exact ⟨a, ha⟩

theorem decodeMappings_fields (fuel : Nat) (m m1 : Map) (h : decodeMappings fuel m = some m1) :
    m1.Sources = m.Sources ∧ m1.Names = m.Names ∧ m1.fileIndexMap = m.fileIndexMap ∧
      m1.nameIndexMap = m.nameIndexMap ∧ m1.File = m.File ∧ m1.SourceRoot = m.SourceRoot ∧
      m1.SourcesContent = m.SourcesContent ∧ m1.fullSources = m.fullSources ∧
      m1.resolvedSources = m.resolvedSources ∧ m1.Mappings = m.Mappings := by
  unfold decodeMappings at h
  split at h
  · injection h with h; subst h
    exact ⟨rfl, rfl, rfl, rfl, rfl, rfl, rfl, rfl, rfl, rfl⟩
  · split at h
    · cases h
    · injection h with h; subst h
      exact ⟨rfl, rfl, rfl, rfl, rfl, rfl, rfl, rfl, rfl, rfl⟩
    · injection h with h; subst h
      exact ⟨rfl, rfl, rfl, rfl, rfl, rfl, rfl, rfl, rfl, rfl⟩

theorem DecodedMappings_eq (fuel : Nat) (m m1 : Map) (recs : List Mapping)
    (h : DecodedMappings fuel m = some (m1, recs)) :
    decodeMappings fuel m = some m1 ∧ recs = sliceOf m1.decodedMappings := by
  unfold DecodedMappings at h
  cases hd : decodeMappings fuel m with
  | none => simp [hd] at h
  | some x =>
    simp only [hd, Option.map_some', Option.some.injEq, Prod.mk.injEq] at h
    exact ⟨by rw [h.1], by rw [← h.2, h.1]⟩

theorem fieldAcc_fits : ∀ (f : List Nat) (v : Int) (s : Nat), wrapInt v = v →
    wrapInt (fieldAcc f v s) = fieldAcc f v s := by
  intro f
  induction f with
  | nil => intro v s h; exact h
  | cons b bs ih =>
    intro v s _
    simp only [fieldAcc]
    exact ih _ _ (wrapInt_idem _)

theorem signedOf_fits (v : Int) (h : wrapInt v = v) : wrapInt (signedOf v) = signedOf v := by
  have hv := wrapInt_fits v
  rw [h] at hv
  unfold signedOf
  split
  · exact wrapInt_idem _
  · rw [Int.shiftRight_eq_div_pow]
    exact wrapInt_of_fits (by omega) (by omega)

theorem fieldValue_fits {f : List Nat} (hf : isField f = true) :
    wrapInt (fieldValue f) = fieldValue f := by
  rw [fieldValue_eq hf]
  exact signedOf_fits _ (fieldAcc_fits f 0 0 (by simp [wrapInt]))



/-! ## Lemmas: the fuel of the inner loops is never used up -/

/-- The fuel of `readVLQLoop` is never used up: past `r.Len + 1` rounds more fuel
changes nothing. -/
theorem readVLQLoop_fuel : ∀ (n : Nat) (r : Reader) (v : Int) (s k : Nat), r.Len + 1 ≤ n →
    readVLQLoop (n + k) r v s = readVLQLoop n r v s := by
  intro n
  induction n with
  | zero => intro r v s k h; omega
  | succ n ih =>
    intro r v s k h
    rw [show n + 1 + k = (n + k) + 1 by omega]
    simp only [readVLQLoop]
    by_cases hlen : r.i < r.s.length
    · have hr : r.ReadByte = (r.s.getD r.i 0, { r with i := r.i + 1 }) := by
        unfold Reader.ReadByte
        simp [hlen, List.getD_eq_getElem?_getD]
      rw [hr]
      simp only
      have hl : ({ r with i := r.i + 1 } : Reader).Len + 1 ≤ n := by
        unfold Reader.Len at h ⊢
        simp only
        split_ifs at h ⊢ <;> omega
      rw [ih _ _ _ k hl]
    · have hr : r.ReadByte = (0, r) := by
        unfold Reader.ReadByte
        simp [hlen]
      rw [hr]
      simp only
      have h0 : base64decode 0 = 0xff := by decide
      rw [h0]
      simp

/-- The fuel of `writeDigits` is never used up for a value below `32 ^ (fuel + 1)`,
so 12 rounds do for every non-negative 64-bit value. -/
theorem writeDigits_fuel : ∀ (n v k : Nat), v < 32 ^ (n + 1) →
    writeDigits (n + k) v = writeDigits n v := by
  intro n
  induction n with
  | zero =>
    intro v k h
    cases k with
    | zero => rfl
    | succ k =>
      simp only [Nat.zero_add, writeDigits]
      rw [if_neg (by simpa using h)]
  | succ n ih =>
    intro v k h
    rw [show n + 1 + k = (n + k) + 1 by omega]
    simp only [writeDigits]
    split
    · rw [ih (v >>> 5) k (by
        rw [Nat.shiftRight_eq_div_pow]
        rw [pow_succ] at h
        exact Nat.div_lt_of_lt_mul (by rw [Nat.mul_comm]; simpa using h))]
    · rfl

/-! ## The claims -/

/-- C1. VLQ round trip: for every signed integer `x` whose doubled magnitude fits
the 64-bit integer, `writeVLQ` writes digits that `readVLQ`, wherever they stand in
the input, reads back as exactly `x`, stopping just past them and counting one
field; for `x = 0` the digits are the single digit `A`. -/
theorem vlq_round_trip (x : Int) (hx : 2 * |x| < 2 ^ 63) (pre post : List Nat) (count : Nat) :
    ∃ digits, writeVLQ x = some digits ∧
      readVLQ ⟨pre ++ digits ++ post, pre.length⟩ count
        = (x, ⟨pre ++ digits ++ post, pre.length + digits.length⟩, count + 1) ∧
      (x = 0 → digits = ascii "A") := by
  obtain ⟨f, hw, hf, hv⟩ := writeVLQ_field x hx
  refine ⟨f, hw, ?_, ?_⟩
  · have := readVLQ_field hf ⟨pre ++ f ++ post, pre.length⟩ count post (by simp)
    rw [hv] at this
    exact this
  · intro h0
    subst h0
    have h : writeVLQ 0 = some (ascii "A") := by decide
    rw [h] at hw
    injection hw with hw
    exact hw.symm

/-- C1 at `x = -17` between other bytes: the digits are `jB`. -/
theorem vlq_round_trip_witness :
    2 * |(-17 : Int)| < 2 ^ 63 ∧
    ∃ digits, writeVLQ (-17) = some digits ∧
      readVLQ ⟨ascii "C," ++ digits ++ ascii ";", (ascii "C,").length⟩ 0
        = (-17, ⟨ascii "C," ++ digits ++ ascii ";", (ascii "C,").length + digits.length⟩, 0 + 1) ∧
      ((-17 : Int) = 0 → digits = ascii "A") :=
  ⟨by norm_num [abs], vlq_round_trip (-17) (by norm_num [abs]) (ascii "C,") (ascii ";") 0⟩

/-- C2. Failing input `C;`: the string decodes to one record with no source,
`EncodeMappings` writes that record as `C`, and `C` decodes to no record at all. -/
theorem segment_round_trip_fails :
    (DecodedMappings 4 { New with Mappings := ascii "C;" }).map Prod.snd
        = some [⟨1, 1, -1, 0, 0, -1⟩] ∧
      (EncodeMappings insertionSort 4 { New with Mappings := ascii "C;" }).map
        (fun m => m.Mappings) = some (ascii "C") ∧
      (DecodedMappings 4 { New with Mappings := ascii "C" }).map Prod.snd = some [] := by
  decide

/-- C4. Failing input `C`: a single one-field segment with nothing after it yields
no record, while the same segment followed by a separator yields its record. -/
theorem last_single_field_segment_lost :
    (DecodedMappings 4 { New with Mappings := ascii "C" }).map Prod.snd = some [] ∧
      (DecodedMappings 4 { New with Mappings := ascii "C," }).map Prod.snd
        = some [⟨1, 1, -1, 0, 0, -1⟩] ∧
      (DecodedMappings 8 { New with Mappings := ascii "AAAA,C" }).map Prod.snd
        = some [⟨1, 0, 0, 1, 0, -1⟩] := by
  decide

theorem decodeLoop_stuck (st : DecodeState) (hbody : decodeBody st = st) (hlen : st.r.Len ≠ 0) :
    ∀ fuel, decodeLoop fuel st = none := by
  intro fuel
  induction fuel with
  | zero => simp [decodeLoop, hlen]
  | succ n ih => rw [decodeLoop_step _ _ hlen, hbody, ih]

/-- C6. Failing inputs `!`, `C!` and `g`: whatever the number of rounds allowed, the
main loop of `decodeMappings` is still running after them, so `DecodedMappings`
never returns. -/
theorem decode_does_not_terminate (fuel : Nat) :
    DecodedMappings fuel { New with Mappings := ascii "!" } = none ∧
      DecodedMappings fuel { New with Mappings := ascii "C!" } = none ∧
      DecodedMappings fuel { New with Mappings := ascii "g" } = none := by
  have h1 : ∀ n, decodeLoop n (decodeInit (ascii "!")) = none :=
    decodeLoop_stuck _ (by decide) (by decide)
  have h3 : ∀ n, decodeLoop n (decodeInit (ascii "g")) = none :=
    decodeLoop_stuck _ (by decide) (by decide)
  have h2' : ∀ n, decodeLoop n (decodeBody (decodeInit (ascii "C!"))) = none :=
    decodeLoop_stuck _ (by decide) (by decide)
  have h2 : ∀ n, decodeLoop n (decodeInit (ascii "C!")) = none := by
    intro n
    cases n with
    | zero => decide
    | succ n => rw [decodeLoop_step _ _ (by decide)]; exact h2' n
  refine ⟨?_, ?_, ?_⟩
  · simp only [DecodedMappings, decodeMappings, decodeString, New, h1]; rfl
  · simp only [DecodedMappings, decodeMappings, decodeString, New, h2]; rfl
  · simp only [DecodedMappings, decodeMappings, decodeString, New, h3]; rfl

/-- C3, as stated, fails on the code: the record with generated column 2^62 meets
every condition of the claim, yet `writeVLQ` indexes `base64encode` with a negative
number and `EncodeMappings` panics; and with generated column 2^62 + 1 the string
is written but decodes to another column. -/
theorem encode_large_column_fails :
    (1 ≤ (1 : Int) ∧ (0 : Int) ≤ 0 ∧ (-1 : Int) ≤ -1) ∧
      EncodeMappings insertionSort 0
        { New with decodedMappings := some [⟨1, 2 ^ 62, 0, 1, 0, -1⟩] } = none ∧
      ((EncodeMappings insertionSort 0
        { New with decodedMappings := some [⟨1, 2 ^ 62 + 1, 0, 1, 0, -1⟩] }).bind
          fun m => decodeString 40 m.Mappings)
        = some [⟨1, -(2 ^ 62 - 1), 0, 1, 0, -1⟩] := by
  decide!

/-- C3, amended. For every record list whose records have pairwise distinct
(GeneratedLine, GeneratedColumn), GeneratedLine >= 1, OriginalSourceIndex >= 0,
OriginalNameIndex >= -1 and columns, lines and indices below 2^61 in magnitude, for
every permutation of the list and every `sort.Sort` that keeps its promise:
`EncodeMappings` returns, leaves one and the same string and the same record order
for both lists, that order is the records in strictly ascending (line, column)
order, and decoding the string (with fuel for one round per byte) yields exactly
those records. -/
theorem encode_decode_order_independent (sort : List Mapping → List Mapping)
    (hsort : SortContract sort) (l l' : List Mapping) (hperm : l'.Perm l)
    (hkeys : l.Pairwise (fun a b => a.key ≠ b.key)) (hrec : ∀ m ∈ l, m.encodable)
    (ma mb : Map) (ha : ma.decodedMappings = some l) (hb : mb.decodedMappings = some l')
    (fuel : Nat) :
    ∃ str sorted,
      (EncodeMappings sort fuel ma).map (fun m => (m.Mappings, m.decodedMappings))
        = some (str, some sorted) ∧
      (EncodeMappings sort fuel mb).map (fun m => (m.Mappings, m.decodedMappings))
        = some (str, some sorted) ∧
      sorted.Perm l ∧ sorted.Pairwise (fun a b => Less a b = true) ∧
      ∀ fuel' (mc : Map), str.length ≤ fuel' → mc.Mappings = str → mc.decodedMappings = none →
        (DecodedMappings fuel' mc).map Prod.snd = some sorted := by
  obtain ⟨heq, hp, hstrict⟩ := sort_perm_eq sort hsort l l' hperm hkeys
  have hline : (sort l).Pairwise (fun a b => a.GeneratedLine ≤ b.GeneratedLine) := by
    refine hstrict.imp ?_
    intro a b h
    rw [Less_iff] at h
    omega
  have henc : ∀ m ∈ sort l, m.encodable := fun m hm => hrec m ((List.Perm.mem_iff hp).mp hm)
  obtain ⟨str, h1, h2⟩ := encodeRecords_decode (sort l) henc hline
  have hE : ∀ (m : Map) (x : List Mapping), m.decodedMappings = some x → sort x = sort l →
      (EncodeMappings sort fuel m).map (fun m => (m.Mappings, m.decodedMappings))
        = some (str, some (sort l)) := by
    intro m x hm hx
    have hlen : Len fuel m = some (m, x.length) := by
      simp [Len, DecodedMappings, decodeMappings, hm, sliceOf]
    simp [EncodeMappings, hlen, hm, hx, sliceOf, h1]
  refine ⟨str, sort l, hE ma l ha rfl, hE mb l' hb heq, hp, hstrict, ?_⟩
  intro fuel' mc hf hm hd
  have := h2 fuel' hf
  unfold DecodedMappings decodeMappings
  rw [hd, hm]
  simp only [this]
  cases sort l <;> simp [sliceOf, hd]

/-- C3 (amended) on three records given in two orders. -/
theorem encode_decode_order_independent_witness :
    sampleRecordsShuffled.Perm sampleRecords ∧
    sampleRecords.Pairwise (fun a b => a.key ≠ b.key) ∧
    (∀ m ∈ sampleRecords, m.encodable) ∧
    ∃ str sorted,
      (EncodeMappings insertionSort 0 { New with decodedMappings := some sampleRecords }).map
        (fun m => (m.Mappings, m.decodedMappings)) = some (str, some sorted) ∧
      (EncodeMappings insertionSort 0
          { New with decodedMappings := some sampleRecordsShuffled }).map
        (fun m => (m.Mappings, m.decodedMappings)) = some (str, some sorted) ∧
      sorted.Perm sampleRecords ∧
      sorted.Pairwise (fun a b => Less a b = true) ∧
      ∀ fuel' (mc : Map), str.length ≤ fuel' → mc.Mappings = str → mc.decodedMappings = none →
        (DecodedMappings fuel' mc).map Prod.snd = some sorted :=
  ⟨by decide, by decide, by decide,
    encode_decode_order_independent insertionSort insertionSort_contract
      sampleRecords sampleRecordsShuffled (by decide) (by decide) (by decide) _ _ rfl rfl 0⟩

theorem render_length_le_append (before after : List Segment) :
    (render before).length ≤ (render (before ++ after)).length := by
  rw [render_append, List.length_append]
  omega

theorem deltas_getD_fits (c : Segment) (hwf : c.wf = true) (j : Nat) :
    wrapInt (c.deltas.getD j 0) = c.deltas.getD j 0 := by
  unfold Segment.deltas
  by_cases hj : j < c.fields.length
  · rw [List.getD_eq_getElem _ _ (by simpa using hj), List.getElem_map]
    exact fieldValue_fits (wf_fields hwf _ (List.getElem_mem _))
  · rw [List.getD_eq_default _ _ (by simpa using hj)]
    simp [wrapInt]

theorem deltaSum_short (j : Nat) (hj : 1 ≤ j) (cs : List Segment)
    (h : ∀ d ∈ cs, d.fields.length ≤ 1) : deltaSum j cs = 0 := by
  unfold deltaSum
  apply List.sum_eq_zero
  intro x hx
  rw [List.mem_map] at hx
  obtain ⟨d, hd, rfl⟩ := hx
  apply List.getD_eq_default
  have := h d hd
  simp only [Segment.deltas, List.length_map]
  omega

/-- C5, as stated, fails on the code: the original line starts at 1, not at 0. The
first segment `CAAC` has an original-line delta of 0 and its record has
OriginalLine 1. -/
theorem first_record_line_not_own_delta :
    sampleSegmentCAAC.deltas.getD 2 0 = 0 ∧
      decodeString 10 (render [sampleSegmentCAAC]) = some [⟨1, 1, 0, 1, 1, -1⟩] := by
  decide

/-- C5, amended. In a mappings string of segments of at most five complete fields,
each followed by `,` or `;`, the source index, original column and name index start
at 0 and the original line starts at 1, none is reset at `;`, and the record of a
4- or 5-field segment `c` holds for each of them the start value plus the sum, in
64-bit arithmetic, of all deltas read up to and including `c` (the name index only
in a 5-field segment, else -1), while the generated column sums the deltas since
the last `;` only. The record stands right after the records of the segments before
`c`, also when `c` is last and lacks its separator. When no segment before `c` has
more than one field, the source index and original column are the deltas of `c`
itself and the original line is 1 plus its delta. -/
theorem decode_accumulators (before after : List Segment) (c : Segment)
    (hwf : ∀ d ∈ before ++ c :: after, d.wf = true)
    (hc : c.fields.length = 4 ∨ c.fields.length = 5) (fuel : Nat)
    (hfuel : (render (before ++ c :: after)).length ≤ fuel) :
    ∃ recsBefore r recsAfter,
      decodeString fuel (render before) = some recsBefore ∧
      decodeString fuel (render (before ++ c :: after)) = some (recsBefore ++ r :: recsAfter) ∧
      (after = [] →
        decodeString fuel (render before ++ c.fields.flatten) = some (recsBefore ++ [r])) ∧
      r.GeneratedLine = 1 + (lineBreaks before : Int) ∧
      r.GeneratedColumn = wrapInt (deltaSum 0 (lastLine before ++ [c])) ∧
      r.OriginalSourceIndex = wrapInt (0 + deltaSum 1 (before ++ [c])) ∧
      r.OriginalLine = wrapInt (1 + deltaSum 2 (before ++ [c])) ∧
      r.OriginalColumn = wrapInt (0 + deltaSum 3 (before ++ [c])) ∧
      r.OriginalNameIndex
        = (if c.fields.length = 5 then wrapInt (0 + deltaSum 4 (before ++ [c])) else -1) ∧
      ((∀ d ∈ before, d.fields.length ≤ 1) →
        r.OriginalSourceIndex = c.deltas.getD 1 0 ∧
        r.OriginalLine = wrapInt (1 + c.deltas.getD 2 0) ∧
        r.OriginalColumn = c.deltas.getD 3 0) := by
  have hwfb : ∀ d ∈ before, d.wf = true := fun d hd => hwf d (by simp [hd])
  have hwfc : c.wf = true := hwf c (by simp)
  have hwfbc : ∀ d ∈ before ++ [c], d.wf = true := by
    intro d hd
    apply hwf
    simp only [List.mem_append, List.mem_singleton, List.mem_cons] at hd ⊢
    rcases hd with h | h
    · exact Or.inl h
    · exact Or.inr (Or.inl (by simpa using h))
  have hne : c.fields ≠ [] := by
    intro h; rw [h] at hc; simp at hc
  have hsplit : before ++ c :: after = (before ++ [c]) ++ after := by simp
  have hlb := render_length_le_append before (c :: after)
  obtain ⟨X, hX, -⟩ := stateAfter_append_records (before ++ [c]) after
  have hsnoc := stateAfter_snoc_records before c hwfbc hne
  set r : Mapping := ⟨1 + (lineBreaks before : Int), wrapInt (deltaSum 0 (lastLine before ++ [c])),
    wrapInt (0 + deltaSum 1 (before ++ [c])), wrapInt (1 + deltaSum 2 (before ++ [c])),
    wrapInt (0 + deltaSum 3 (before ++ [c])),
    if c.fields.length = 5 then wrapInt (0 + deltaSum 4 (before ++ [c])) else -1⟩ with hr
  have hsw : switchCount c.fields.length (1 + (lineBreaks before : Int))
      (wrapInt (deltaSum 0 (lastLine before ++ [c])))
      (wrapInt (0 + deltaSum 1 (before ++ [c])))
      (wrapInt (1 + deltaSum 2 (before ++ [c])))
      (wrapInt (0 + deltaSum 3 (before ++ [c])))
      (wrapInt (0 + deltaSum 4 (before ++ [c]))) = [r] := by
    rcases hc with h | h <;> simp [switchCount, h, hr]
  rw [hsw] at hsnoc
  refine ⟨(stateAfter before).decodedMappings, r, X,
    decodeString_render before hwfb fuel (by omega), ?_, ?_, rfl, rfl, rfl, rfl, rfl, rfl, ?_⟩
  · rw [decodeString_render _ hwf fuel hfuel, hsplit, hX, hsnoc]
    simp
  · intro hafter
    subst hafter
    rw [decodeString_render_open before c hwfbc hc fuel ?_, hsnoc]
    have : (render (before ++ [c])).length = (render before ++ c.fields.flatten).length + 1 := by
      rw [render_append]
      simp [render, Segment.bytes]
      omega
    omega
  · intro hshort
    have d1 := deltaSum_short 1 le_rfl before hshort
    have d2 := deltaSum_short 2 (by omega) before hshort
    have d3 := deltaSum_short 3 (by omega) before hshort
    simp only [hr, deltaSum_snoc, d1, d2, d3, zero_add, add_zero]
    refine ⟨deltas_getD_fits c hwfc 1, ?_, deltas_getD_fits c hwfc 3⟩
    trivial

/-- C5 (amended) on the string `CAAC,IAAI,` of the specification's scenario, at its
second segment. -/
theorem decode_accumulators_witness :
    (∀ d ∈ [sampleSegmentCAAC] ++ sampleSegmentIAAI :: [], d.wf = true) ∧
    (sampleSegmentIAAI.fields.length = 4 ∨ sampleSegmentIAAI.fields.length = 5) ∧
    (render ([sampleSegmentCAAC] ++ sampleSegmentIAAI :: [])).length ≤ 10 ∧
    ∃ recsBefore r recsAfter,
      decodeString 10 (render [sampleSegmentCAAC]) = some recsBefore ∧
      decodeString 10 (render ([sampleSegmentCAAC] ++ sampleSegmentIAAI :: []))
        = some (recsBefore ++ r :: recsAfter) ∧
      (([] : List Segment) = [] →
        decodeString 10 (render [sampleSegmentCAAC] ++ sampleSegmentIAAI.fields.flatten)
          = some (recsBefore ++ [r])) ∧
      r.GeneratedLine = 1 + (lineBreaks [sampleSegmentCAAC] : Int) ∧
      r.GeneratedColumn
        = wrapInt (deltaSum 0 (lastLine [sampleSegmentCAAC] ++ [sampleSegmentIAAI])) ∧
      r.OriginalSourceIndex
        = wrapInt (0 + deltaSum 1 ([sampleSegmentCAAC] ++ [sampleSegmentIAAI])) ∧
      r.OriginalLine = wrapInt (1 + deltaSum 2 ([sampleSegmentCAAC] ++ [sampleSegmentIAAI])) ∧
      r.OriginalColumn
        = wrapInt (0 + deltaSum 3 ([sampleSegmentCAAC] ++ [sampleSegmentIAAI])) ∧
      r.OriginalNameIndex
        = (if sampleSegmentIAAI.fields.length = 5
            then wrapInt (0 + deltaSum 4 ([sampleSegmentCAAC] ++ [sampleSegmentIAAI])) else -1) ∧
      ((∀ d ∈ [sampleSegmentCAAC], d.fields.length ≤ 1) →
        r.OriginalSourceIndex = sampleSegmentIAAI.deltas.getD 1 0 ∧
        r.OriginalLine = wrapInt (1 + sampleSegmentIAAI.deltas.getD 2 0) ∧
        r.OriginalColumn = sampleSegmentIAAI.deltas.getD 3 0) :=
  ⟨by decide, by decide, by decide,
    decode_accumulators [sampleSegmentCAAC] [] sampleSegmentIAAI (by decide) (by decide) 10
      (by decide)⟩

/-- C7, as stated, fails on the code: the six fields of `AAAAAA,` are read as a
segment of five fields and a segment of one field, which gives two records. -/
theorem six_field_segment_yields_records :
    decodeString 8 (ascii "AAAAAA,")
      = some [⟨1, 0, 0, 1, 0, 0⟩, ⟨1, 0, -1, 0, 0, -1⟩] := by
  decide

/-- C7, amended. In a mappings string of segments of at most five complete fields,
each followed by `,` or `;`, a segment `c` with 0, 2 or 3 fields contributes no
record and decoding goes on: the decoded list is the records of the segments before
`c` followed by exactly one record for every segment of 1, 4 or 5 fields after
it. -/
theorem lenient_field_counts (before after : List Segment) (c : Segment)
    (hwf : ∀ d ∈ before ++ c :: after, d.wf = true)
    (hc : c.fields.length = 0 ∨ c.fields.length = 2 ∨ c.fields.length = 3) (fuel : Nat)
    (hfuel : (render (before ++ c :: after)).length ≤ fuel) :
    ∃ recsBefore recsAfter,
      decodeString fuel (render before) = some recsBefore ∧
      decodeString fuel (render (before ++ c :: after)) = some (recsBefore ++ recsAfter) ∧
      recsAfter.length = (after.filter Segment.hasRecord).length := by
  have hwfb : ∀ d ∈ before, d.wf = true := fun d hd => hwf d (by simp [hd])
  have hlb := render_length_le_append before (c :: after)
  obtain ⟨X, hX, hlen⟩ := stateAfter_append_records before (c :: after)
  refine ⟨(stateAfter before).decodedMappings, X,
    decodeString_render before hwfb fuel (by omega), ?_, ?_⟩
  · rw [decodeString_render _ hwf fuel hfuel, hX]
  · rw [hlen, List.filter_cons]
    have : c.hasRecord = false := by
      rcases hc with h | h | h <;> simp [Segment.hasRecord, h]
    simp [this]

/-- C7 (amended) on the string `C,,C,`, at its stray separator. -/
theorem lenient_field_counts_witness :
    (∀ d ∈ [sampleSegmentC] ++ sampleStrayComma :: [sampleSegmentC], d.wf = true) ∧
    (sampleStrayComma.fields.length = 0 ∨ sampleStrayComma.fields.length = 2 ∨
      sampleStrayComma.fields.length = 3) ∧
    (render ([sampleSegmentC] ++ sampleStrayComma :: [sampleSegmentC])).length ≤ 5 ∧
    ∃ recsBefore recsAfter,
      decodeString 5 (render [sampleSegmentC]) = some recsBefore ∧
      decodeString 5 (render ([sampleSegmentC] ++ sampleStrayComma :: [sampleSegmentC]))
        = some (recsBefore ++ recsAfter) ∧
      recsAfter.length = ([sampleSegmentC].filter Segment.hasRecord).length :=
  ⟨by decide, by decide, by decide,
    lenient_field_counts [sampleSegmentC] [sampleSegmentC] sampleStrayComma (by decide)
      (by decide) 5 (by decide)⟩

/-! ## Lemmas: the string-table invariant -/

theorem tableExact_nil : tableExact [] [] := by
  intro x
  simp [mapLookup]

theorem tableExact_snoc {l : List String} {tbl : List (String × Int)} (h : tableExact l tbl)
    {x : String} (hx : x ∉ l) : tableExact (l ++ [x]) (mapStore tbl x (l.length : Int)) := by
  intro y
  rw [mapLookup_mapStore]
  by_cases hxy : x = y
  · subst hxy
    simp [List.indexOf_append_of_not_mem hx]
  · rw [if_neg hxy, h y]
    have hyx : y ≠ x := fun e => hxy e.symm
    by_cases hy : y ∈ l
    · simp [hy, List.indexOf_append_of_mem hy]
    · simp [hy, hyx]

theorem tableExact_lookup_none {l : List String} {tbl : List (String × Int)}
    (h : tableExact l tbl) {x : String} (hl : mapLookup tbl x = none) : x ∉ l := by
  intro hx
  rw [h x, if_pos hx] at hl
  cases hl

theorem tableExact_lookup_some {l : List String} {tbl : List (String × Int)}
    (h : tableExact l tbl) {x : String} {i : Int} (hl : mapLookup tbl x = some i) :
    x ∈ l ∧ i = (l.indexOf x : Int) := by
  have := h x
  rw [hl] at this
  by_cases hx : x ∈ l
  · rw [if_pos hx] at this
    injection this with this
    exact ⟨hx, this⟩
  · rw [if_neg hx] at this
    cases this

/-- What `AddSource` does to a map whose source lookup table is exact. -/
theorem AddSource_exact (m : Map) (name : String) (content : Option (List Nat))
    (h : tableExact m.Sources m.fileIndexMap) :
    tableExact (AddSource m name content).2.Sources (AddSource m name content).2.fileIndexMap ∧
      (AddSource m name content).2.Sources
        = (if name = "" ∨ name ∈ m.Sources then m.Sources else m.Sources ++ [name]) ∧
      (name ≠ "" → (AddSource m name content).1
        = ((AddSource m name content).2.Sources.indexOf name : Int)) ∧
      (AddSource m name content).2.Names = m.Names ∧
      (AddSource m name content).2.nameIndexMap = m.nameIndexMap := by
  by_cases hname : name = ""
  · subst hname
    rw [AddSource_empty]
    exact ⟨h, by simp, fun hc => absurd rfl hc, rfl, rfl⟩
  · cases hl : mapLookup m.fileIndexMap name with
    | some i =>
      obtain ⟨hmem, hi⟩ := tableExact_lookup_some h hl
      rw [AddSource_found m name content i hname hl]
      exact ⟨h, by simp [hmem], fun _ => hi, rfl, rfl⟩
    | none =>
      have hmem := tableExact_lookup_none h hl
      obtain ⟨n1, n2, n3, n4, n5, -⟩ := AddSource_new m name content hname hl
      rw [n1, n2, n3]
      refine ⟨tableExact_snoc h hmem, by simp [hname, hmem], fun _ => ?_, n4, n5⟩
      simp [List.indexOf_append_of_not_mem hmem]

/-- What `AddName` does to a map whose name lookup table is exact. -/
theorem AddName_exact (m : Map) (name : String) (h : tableExact m.Names m.nameIndexMap) :
    tableExact (AddName m name).2.Names (AddName m name).2.nameIndexMap ∧
      (AddName m name).2.Names
        = (if name = "" ∨ name ∈ m.Names then m.Names else m.Names ++ [name]) ∧
      (name ≠ "" → (AddName m name).1 = ((AddName m name).2.Names.indexOf name : Int)) ∧
      (AddName m name).2.Sources = m.Sources ∧
      (AddName m name).2.fileIndexMap = m.fileIndexMap := by
  by_cases hname : name = ""
  · subst hname
    rw [AddName_empty]
    exact ⟨h, by simp, fun hc => absurd rfl hc, rfl, rfl⟩
  · cases hl : mapLookup m.nameIndexMap name with
    | some i =>
      obtain ⟨hmem, hi⟩ := tableExact_lookup_some h hl
      rw [AddName_found m name i hname hl]
      exact ⟨h, by simp [hmem], fun _ => hi, rfl, rfl⟩
    | none =>
      have hmem := tableExact_lookup_none h hl
      rw [AddName_new m name hname hl]
      refine ⟨tableExact_snoc h hmem, by simp [hname, hmem], fun _ => ?_, rfl, rfl⟩
      simp [List.indexOf_append_of_not_mem hmem]

theorem nodup_intern {l : List String} (h : l.Nodup) (name : String) :
    (if name = "" ∨ name ∈ l then l else l ++ [name]).Nodup := by
  split
  · exact h
  · rename_i hc
    rw [not_or] at hc
    rw [List.nodup_append]
    refine ⟨h, List.nodup_singleton _, ?_⟩
    intro a ha hb
    rw [List.mem_singleton] at hb
    subst hb
    exact hc.2 ha

theorem AddSource_tablesExact (m : Map) (name : String) (content : Option (List Nat))
    (h : m.tablesExact) : (AddSource m name content).2.tablesExact := by
  obtain ⟨h1, h2, h3, h4⟩ := h
  obtain ⟨a1, a2, -, a4, a5⟩ := AddSource_exact m name content h3
  refine ⟨?_, ?_, a1, ?_⟩
  · rw [a2]; exact nodup_intern h1 name
  · rw [a4]; exact h2
  · rw [a4, a5]; exact h4

theorem AddName_tablesExact (m : Map) (name : String) (h : m.tablesExact) :
    (AddName m name).2.tablesExact := by
  obtain ⟨h1, h2, h3, h4⟩ := h
  obtain ⟨a1, a2, -, a4, a5⟩ := AddName_exact m name h4
  refine ⟨?_, ?_, ?_, a1⟩
  · rw [a4]; exact h1
  · rw [a2]; exact nodup_intern h2 name
  · rw [a4, a5]; exact h3

theorem New_tablesExact : New.tablesExact :=
  ⟨List.nodup_nil, List.nodup_nil, tableExact_nil, tableExact_nil⟩

/-- The invariant depends on the four table fields only. -/
theorem tablesExact_of_fields {m m2 : Map} (h : m.tablesExact) (h1 : m2.Sources = m.Sources)
    (h2 : m2.Names = m.Names) (h3 : m2.fileIndexMap = m.fileIndexMap)
    (h4 : m2.nameIndexMap = m.nameIndexMap) : m2.tablesExact := by
  unfold Map.tablesExact
  rw [h1, h2, h3, h4]
  exact h

/-! ## Lemmas: sequences of interning calls -/

theorem mem_firstSeen : ∀ (l : List String) (x : String), x ∈ firstSeen l ↔ x ∈ l := by
  intro l
  induction l with
  | nil => intro x; simp [firstSeen]
  | cons s rest ih =>
    intro x
    simp only [firstSeen, List.mem_cons, List.mem_filter, ih, decide_eq_true_eq]
    constructor
    · rintro (h | ⟨h, -⟩)
      · exact Or.inl h
      · exact Or.inr h
    · rintro (h | h)
      · exact Or.inl h
      · by_cases hx : x = s
        · exact Or.inl hx
        · exact Or.inr ⟨h, hx⟩

theorem firstSeen_append : ∀ (xs ys : List String),
    firstSeen (xs ++ ys) = firstSeen xs ++ (firstSeen ys).filter (fun x => decide (x ∉ xs)) := by
  intro xs
  induction xs with
  | nil => intro ys; simp [firstSeen]
  | cons x xs ih =>
    intro ys
    rw [List.cons_append]
    simp only [firstSeen]
    rw [ih, List.filter_append, List.filter_filter, List.cons_append]
    congr 2
    apply List.filter_congr
    intro a _
    by_cases h1 : a = x
    · simp [h1]
    · by_cases h2 : a ∈ xs
      · simp [h1, h2]
      · simp [h1, h2]

/-- The position of a first-seen name: a name that does not stand in `pre` and
comes right after it is at the position that counts the distinct names of `pre`. -/
theorem indexOf_firstSeen (pre post : List String) (c : String) (hc : c ∉ pre) :
    (firstSeen (pre ++ c :: post)).indexOf c = (firstSeen pre).length := by
  rw [firstSeen_append]
  have h1 : c ∉ firstSeen pre := fun h => hc ((mem_firstSeen pre c).mp h)
  rw [List.indexOf_append_of_not_mem h1]
  simp [firstSeen, hc]

/-- A sequence of `AddSource` calls with non-empty names on a map whose source
lookup table is exact. -/
theorem addSources_spec : ∀ (calls : List (String × Option (List Nat))) (m : Map),
    tableExact m.Sources m.fileIndexMap → (∀ c ∈ calls, c.1 ≠ "") →
    tableExact (addSources m calls).2.Sources (addSources m calls).2.fileIndexMap ∧
      (addSources m calls).2.Sources = m.Sources ++
        (firstSeen (calls.map Prod.fst)).filter (fun x => decide (x ∉ m.Sources)) ∧
      (addSources m calls).1 = (calls.map Prod.fst).map
        (fun n => ((addSources m calls).2.Sources.indexOf n : Int)) := by
  intro calls
  induction calls with
  | nil => intro m h _; exact ⟨h, by simp [addSources, firstSeen], rfl⟩
  | cons c rest ih =>
    intro m h hne
    have hc : c.1 ≠ "" := hne c (List.mem_cons_self _ _)
    obtain ⟨a1, a2, a3, -, -⟩ := AddSource_exact m c.1 c.2 h
    obtain ⟨i1, i2, i3⟩ := ih (AddSource m c.1 c.2).2 a1
      (fun d hd => hne d (List.mem_cons_of_mem _ hd))
    simp only [addSources, List.map_cons, firstSeen]
    have hmem : c.1 ∈ (AddSource m c.1 c.2).2.Sources := by
      rw [a2]
      by_cases hin : c.1 ∈ m.Sources
      · simp [hin]
      · simp [hin, hc]
    refine ⟨i1, ?_, ?_⟩
    · rw [i2, a2]
      by_cases hin : c.1 ∈ m.Sources
      · simp only [hin, or_true, if_true, List.filter_cons, not_true_eq_false, decide_False,
          Bool.false_eq_true, if_false, List.filter_filter, List.append_cancel_left_eq]
        apply List.filter_congr
        intro a _
        by_cases ha : a ∈ m.Sources
        · simp [ha]
        · have : a ≠ c.1 := fun e => ha (e ▸ hin)
          simp [ha, this]
      · simp only [hin, hc, or_self, if_false, List.filter_cons, not_false_eq_true, decide_True,
          if_true, List.filter_filter, List.append_assoc, List.singleton_append,
          List.append_cancel_left_eq, List.cons.injEq, true_and]
        apply List.filter_congr
        intro a _
        simp only [List.mem_append, List.mem_singleton, not_or, Bool.decide_and, decide_not,
          ne_eq]
    · rw [i2, List.indexOf_append_of_mem hmem, ← a3 hc]
      congr 1
      rw [i3, i2]

/-- A sequence of `AddName` calls with non-empty names on a map whose name lookup
table is exact. -/
theorem addNames_spec : ∀ (names : List String) (m : Map),
    tableExact m.Names m.nameIndexMap → (∀ n ∈ names, n ≠ "") →
    tableExact (addNames m names).2.Names (addNames m names).2.nameIndexMap ∧
      (addNames m names).2.Names = m.Names ++
        (firstSeen names).filter (fun x => decide (x ∉ m.Names)) ∧
      (addNames m names).1 = names.map
        (fun n => ((addNames m names).2.Names.indexOf n : Int)) := by
  intro names
  induction names with
  | nil => intro m h _; exact ⟨h, by simp [addNames, firstSeen], rfl⟩
  | cons c rest ih =>
    intro m h hne
    have hc : c ≠ "" := hne c (List.mem_cons_self _ _)
    obtain ⟨a1, a2, a3, -, -⟩ := AddName_exact m c h
    obtain ⟨i1, i2, i3⟩ := ih (AddName m c).2 a1
      (fun d hd => hne d (List.mem_cons_of_mem _ hd))
    simp only [addNames, List.map_cons, firstSeen]
    have hmem : c ∈ (AddName m c).2.Names := by
      rw [a2]
      by_cases hin : c ∈ m.Names
      · simp [hin]
      · simp [hin, hc]
    refine ⟨i1, ?_, ?_⟩
    · rw [i2, a2]
      by_cases hin : c ∈ m.Names
      · simp only [hin, or_true, if_true, List.filter_cons, not_true_eq_false, decide_False,
          Bool.false_eq_true, if_false, List.filter_filter, List.append_cancel_left_eq]
        apply List.filter_congr
        intro a _
        by_cases ha : a ∈ m.Names
        · simp [ha]
        · have : a ≠ c := fun e => ha (e ▸ hin)
          simp [ha, this]
      · simp only [hin, hc, or_self, if_false, List.filter_cons, not_false_eq_true, decide_True,
          if_true, List.filter_filter, List.append_assoc, List.singleton_append,
          List.append_cancel_left_eq, List.cons.injEq, true_and]
        apply List.filter_congr
        intro a _
        simp only [List.mem_append, List.mem_singleton, not_or, Bool.decide_and, decide_not,
          ne_eq]
    · rw [i2, List.indexOf_append_of_mem hmem, ← a3 hc]
      congr 1
      rw [i3, i2]

/-! ## Lemmas: the calls keep the string-table invariant -/

theorem OriginalResolvedSource_tables (P : PathLib) (m : Map) (r : Mapping) (s : String)
    (m2 : Map) (h : OriginalResolvedSource P m r = some (s, m2)) :
    m2.Sources = m.Sources ∧ m2.Names = m.Names ∧ m2.fileIndexMap = m.fileIndexMap ∧
      m2.nameIndexMap = m.nameIndexMap := by
  have hfull : ∀ t m3, OriginalFullSource P m r = some (t, m3) →
      m3.Sources = m.Sources ∧ m3.Names = m.Names ∧ m3.fileIndexMap = m.fileIndexMap ∧
        m3.nameIndexMap = m.nameIndexMap := by
    intro t m3 h3
    rcases OriginalFullSource_cases P m r t m3 h3 with rfl | ⟨rfl, -⟩
    · exact ⟨rfl, rfl, rfl, rfl⟩
    · exact ⟨rfl, rfl, rfl, rfl⟩
  rcases OriginalResolvedSource_cases P m r s m2 h with ⟨t, h1, -⟩ | rfl | ⟨p1, p2, h1, rfl, -⟩
  · exact hfull t m2 h1
  · exact ⟨rfl, rfl, rfl, rfl⟩
  · exact hfull p1 p2 h1

/-- What the invariant says in terms of `IndexForSource`. -/
theorem tableExact_index {l : List String} {tbl : List (String × Int)} (hn : l.Nodup)
    (h : tableExact l tbl) :
    (∀ (i : Nat) (hi : i < l.length), mapLookup tbl (l.get ⟨i, hi⟩) = some (i : Int)) ∧
      (∀ x, x ∉ l → mapLookup tbl x = none) := by
  constructor
  · intro i hi
    rw [h, if_pos (List.get_mem _ _ _)]
    congr 2
    exact List.get_indexOf hn ⟨i, hi⟩
  · intro x hx
    rw [h, if_neg hx]

/-! ## Lemmas: what `EncodeMappings` does to the record list -/

theorem decodeMappings_idem (fuel : Nat) (m m1 : Map) (h : decodeMappings fuel m = some m1) :
    decodeMappings fuel m1 = some m1 := by
  unfold decodeMappings at h
  cases hd : m.decodedMappings with
  | some l =>
    simp only [hd, Option.some.injEq] at h
    subst h
    unfold decodeMappings
    rw [hd]
  | none =>
    simp only [hd] at h
    cases hs : decodeString fuel m.Mappings with
    | none => simp [hs] at h
    | some recs =>
      cases recs with
      | nil =>
        simp only [hs, Option.some.injEq] at h
        subst h
        unfold decodeMappings
        simp [hd, hs]
      | cons x xs =>
        simp only [hs, Option.some.injEq] at h
        subst h
        unfold decodeMappings
        rfl

theorem sort_nil (sort : List Mapping → List Mapping) (hsort : SortContract sort) :
    sort [] = [] :=
  List.Perm.eq_nil (hsort []).1

/-- The map `EncodeMappings` leaves: the decoded map with its records rearranged by
`sort` and with the string written from them. -/
theorem EncodeMappings_eq (sort : List Mapping → List Mapping) (hsort : SortContract sort)
    (fuel : Nat) (m m0 m1 : Map) (l : List Mapping)
    (hd : DecodedMappings fuel m = some (m0, l)) (he : EncodeMappings sort fuel m = some m1) :
    ∃ buf, encodeRecords (sort l) = some buf ∧ sliceOf m1.decodedMappings = sort l ∧
      m1 = { m0 with decodedMappings := m0.decodedMappings.map sort, Mappings := buf } := by
  obtain ⟨h0, hl⟩ := DecodedMappings_eq fuel m m0 l hd
  have h00 := decodeMappings_idem fuel m m0 h0
  have hslice : sliceOf (m0.decodedMappings.map sort) = sort l := by
    rw [hl]
    cases m0.decodedMappings with
    | none => simp [sliceOf, sort_nil sort hsort]
    | some x => simp [sliceOf]
  unfold EncodeMappings Len DecodedMappings at he
  simp only [h0, h00, Option.some_bind, Option.map_some'] at he
  rw [hslice] at he
  cases hb : encodeRecords (sort l) with
  | none => simp [hb] at he
  | some buf =>
    simp only [hb, Option.map_some', Option.some.injEq] at he
    subst he
    exact ⟨buf, rfl, hslice, rfl⟩

theorem Less_congr_key {a b a' b' : Mapping} (ha : a'.key = a.key) (hb : b'.key = b.key) :
    Less a' b' = Less a b := by
  simp only [Mapping.key, Prod.mk.injEq] at ha hb
  simp only [Less, ha.1, ha.2, hb.1, hb.2]

theorem sinkLeft_map (f : Mapping → Mapping) (hf : ∀ x, (f x).key = x.key) (x : Mapping) :
    ∀ run : List Mapping, sinkLeft (f x) (run.map f) = (sinkLeft x run).map f := by
  intro run
  induction run with
  | nil => rfl
  | cons y ys ih =>
    simp only [List.map_cons, sinkLeft, Less_congr_key (hf x) (hf y)]
    split
    · rw [ih]; rfl
    · rfl

theorem insertionSort_usesLessOnly : SortUsesLessOnly insertionSort := by
  intro f hf l
  unfold insertionSort
  rw [List.map_reverse]
  congr 1
  have : ∀ (l run : List Mapping),
      (l.map f).foldl (fun run x => sinkLeft x run) (run.map f)
        = (l.foldl (fun run x => sinkLeft x run) run).map f := by
    intro l
    induction l with
    | nil => intro run; rfl
    | cons x xs ih =>
      intro run
      simp only [List.map_cons, List.foldl_cons]
      rw [sinkLeft_map f hf x run, ih]
  exact this l []

/-! ## Lemmas: the content table -/

theorem growContent_length (n : Nat) (old : List (Option (List Nat))) :
    (growContent n old).length = n := by
  simp only [growContent, List.length_append, List.length_take, List.length_replicate]
  omega

theorem growContent_getElem? (n : Nat) (old : List (Option (List Nat))) (j : Nat) (hj : j < n) :
    (growContent n old)[j]? = some (old[j]?).join := by
  unfold growContent
  by_cases h : j < old.length
  · rw [List.getElem?_append_left (by simp; omega), List.getElem?_take_of_lt hj,
      List.getElem?_eq_getElem h]
    rfl
  · rw [List.getElem?_append_right (by simp; omega)]
    rw [List.getElem?_eq_none (by omega : old.length ≤ j)]
    simp only [List.length_take, Option.join, Option.bind_none]
    rw [List.getElem?_replicate]
    rw [if_pos (by omega)]
    rfl

/-- The content table after `AddSource` has added a new name with a content. -/
theorem AddSource_content (m : Map) (name : String) (c : List Nat) (hname : name ≠ "")
    (hl : mapLookup m.fileIndexMap name = none) :
    (AddSource m name (some c)).2.SourcesContent.length = m.Sources.length + 1 ∧
      (AddSource m name (some c)).2.SourcesContent[m.Sources.length]? = some (some c) ∧
      ∀ j, j < m.Sources.length →
        (AddSource m name (some c)).2.SourcesContent[j]? = some (m.SourcesContent[j]?).join := by
  simp only [AddSource, hname, hl, if_false, List.length_append, List.length_singleton]
  by_cases hlen : m.SourcesContent.length = m.Sources.length + 1
  · simp only [hlen, ne_eq, not_true_eq_false, if_false, List.length_set]
    refine ⟨trivial, ?_, ?_⟩
    · exact List.getElem?_set_self (by omega)
    · intro j hj
      rw [List.getElem?_set_ne (by omega)]
      rw [List.getElem?_eq_getElem (by omega)]
      rfl
  · simp only [ne_eq, hlen, not_false_eq_true, if_true, List.length_set, growContent_length]
    refine ⟨trivial, ?_, ?_⟩
    · exact List.getElem?_set_self (by rw [growContent_length]; omega)
    · intro j hj
      rw [List.getElem?_set_ne (by omega)]
      exact growContent_getElem? _ _ j (by omega)

/-! ## Lemmas: the lookup tables built on load -/

theorem rebuildTables_tables (m : Map) :
    (rebuildTables m).fileIndexMap = tableOf m.Sources ∧
      (rebuildTables m).nameIndexMap = tableOf m.Names ∧
      (rebuildTables m).Sources = m.Sources ∧ (rebuildTables m).Names = m.Names :=
  ⟨rfl, rfl, rfl, rfl⟩

theorem tableOf_fold_congr (l : List String) (y : String) : ∀ n, n ≤ l.length →
    (List.range n).foldl (fun t i => mapStore t ((l ++ [y]).getD i "") (i : Int)) []
      = (List.range n).foldl (fun t i => mapStore t (l.getD i "") (i : Int)) [] := by
  intro n
  induction n with
  | zero => intro _; rfl
  | succ n ih =>
    intro hn
    rw [List.range_succ, List.foldl_append, List.foldl_append, ih (by omega)]
    simp only [List.foldl_cons, List.foldl_nil]
    congr 1
    rw [List.getD_eq_getElem?_getD, List.getD_eq_getElem?_getD,
      List.getElem?_append_left (by omega)]

theorem tableOf_snoc (l : List String) (y : String) :
    tableOf (l ++ [y]) = mapStore (tableOf l) y (l.length : Int) := by
  unfold tableOf
  rw [List.length_append, List.length_singleton, List.range_succ, List.foldl_append,
    tableOf_fold_congr l y l.length le_rfl]
  simp only [List.foldl_cons, List.foldl_nil]
  congr 1
  rw [List.getD_eq_getElem?_getD, List.getElem?_append_right le_rfl]
  simp

/-- The table built on load looks a value up to the position where it stands last. -/
theorem tableOf_lookup : ∀ (l : List String) (x : String),
    (x ∉ l → mapLookup (tableOf l) x = none) ∧
      (x ∈ l → ∃ i : Nat, mapLookup (tableOf l) x = some (i : Int) ∧ l[i]? = some x ∧
        ∀ j, i < j → l[j]? ≠ some x) := by
  intro l
  induction l using List.reverseRecOn with
  | nil =>
    intro x
    exact ⟨fun _ => rfl, fun h => absurd h (List.not_mem_nil x)⟩
  | append_singleton l y ih =>
    intro x
    rw [tableOf_snoc, mapLookup_mapStore]
    by_cases hyx : y = x
    · subst hyx
      rw [if_pos rfl]
      refine ⟨fun h => absurd (by simp) h, fun _ => ⟨l.length, rfl, by simp, ?_⟩⟩
      intro j hj
      rw [List.getElem?_eq_none (by simp; omega)]
      simp
    · rw [if_neg hyx]
      have hxy : x ≠ y := fun e => hyx e.symm
      constructor
      · intro h
        exact (ih x).1 (fun hm => h (List.mem_append_left _ hm))
      · intro h
        have hm : x ∈ l := by
          rcases List.mem_append.mp h with h1 | h1
          · exact h1
          · exact absurd (List.mem_singleton.mp h1) hxy
        obtain ⟨i, h1, h2, h3⟩ := (ih x).2 hm
        have hi : i < l.length := by
          by_contra hc
          rw [List.getElem?_eq_none (by omega)] at h2
          cases h2
        refine ⟨i, h1, by rw [List.getElem?_append_left hi]; exact h2, ?_⟩
        intro j hj
        by_cases hjl : j < l.length
        · rw [List.getElem?_append_left hjl]
          exact h3 j hj
        · rw [List.getElem?_append_right (by omega)]
          by_cases hje : j = l.length
          · subst hje
            simp [hyx]
          · rw [List.getElem?_eq_none (by simp; omega)]
            simp

/-- In a list without duplicates a value stands at one position only. -/
theorem indexOf_of_getElem? {l : List String} (hn : l.Nodup) {i : Nat} {x : String}
    (h : l[i]? = some x) : i = l.indexOf x := by
  have hi : i < l.length := by
    by_contra hc
    rw [List.getElem?_eq_none (by omega)] at h
    cases h
  have hx : l.get ⟨i, hi⟩ = x := by
    rw [List.getElem?_eq_getElem hi] at h
    injection h
  have := List.get_indexOf hn ⟨i, hi⟩
  rw [hx] at this
  exact this.symm

/-! ## Lemmas: the fields the encoder writes for a record -/

/-- Whatever `writeVLQ` writes is one complete field. -/
theorem writeVLQ_isField (v : Int) (f : List Nat) (h : writeVLQ v = some f) :
    isField f = true := by
  unfold writeVLQ at h
  simp only at h
  have hb : (if wrapInt (v * 2) < 0 then orOne (wrapInt (-wrapInt (v * 2)))
      else wrapInt (v * 2)) < 2 ^ 63 := by
    split
    · have := wrapInt_fits (-wrapInt (v * 2))
      unfold orOne
      split <;> omega
    · exact (wrapInt_fits (v * 2)).2
  by_cases hneg : (if wrapInt (v * 2) < 0 then orOne (wrapInt (-wrapInt (v * 2)))
      else wrapInt (v * 2)) < 0
  · rw [if_pos hneg] at h
    cases h
  · rw [if_neg hneg] at h
    injection h with h
    rw [← h]
    apply writeDigits_isField
    have h32 : (2 : Int) ^ 63 < 32 ^ 13 := by norm_num
    have : ((if wrapInt (v * 2) < 0 then orOne (wrapInt (-wrapInt (v * 2)))
        else wrapInt (v * 2)).toNat : Int) < 32 ^ 13 := by
      rw [Int.toNat_of_nonneg (by omega)]
      omega
    exact_mod_cast this

theorem collapse_key (m : Mapping) : (collapse m).key = m.key := by
  unfold collapse
  split <;> rfl

theorem collapse_idem (m : Mapping) : collapse (collapse m) = collapse m := by
  unfold collapse
  by_cases h : m.OriginalSourceIndex < 0
  · simp [h]
  · simp [h]

theorem encodeRecord_collapse (st : EncodeState) (m : Mapping) :
    encodeRecord st (collapse m) = encodeRecord st m := by
  unfold collapse
  by_cases h : m.OriginalSourceIndex < 0
  · rw [if_pos h]
    have h' : ¬ m.OriginalSourceIndex ≥ 0 := by omega
    simp only [encodeRecord, advanceLines, h', if_false]
  · rw [if_neg h]

theorem encodeLoop_collapse : ∀ (l : List Mapping) (st : EncodeState),
    encodeLoop st (l.map collapse) = encodeLoop st l := by
  intro l
  induction l with
  | nil => intro st; rfl
  | cons m rest ih =>
    intro st
    simp only [List.map_cons, encodeLoop, encodeRecord_collapse]
    congr 1
    funext p
    rw [ih]

theorem encodeRecords_congr_collapse (l1 l2 : List Mapping)
    (h : l1.map collapse = l2.map collapse) : encodeRecords l1 = encodeRecords l2 := by
  unfold encodeRecords
  rw [← encodeLoop_collapse l1, ← encodeLoop_collapse l2, h]

/-- The string `EncodeMappings` writes for a map that holds decoded records. -/
theorem EncodeMappings_string (sort : List Mapping → List Mapping) (fuel : Nat) (m : Map)
    (l : List Mapping) (h : m.decodedMappings = some l) :
    (EncodeMappings sort fuel m).map (fun m1 => m1.Mappings) = encodeRecords (sort l) := by
  have hd : decodeMappings fuel m = some m := by
    unfold decodeMappings
    rw [h]
  unfold EncodeMappings Len DecodedMappings
  simp only [hd, Option.some_bind, Option.map_some', h, sliceOf, Option.getD_some]
  cases encodeRecords (sort l) <;> rfl

/-- With a sorting procedure that reads the records through `Less` only, two record
lists that differ in fields of source-less records alone are encoded alike. -/
theorem EncodeMappings_congr_collapse (sort : List Mapping → List Mapping)
    (hsort : SortUsesLessOnly sort) (fuel : Nat) (m1 m2 : Map) (l1 l2 : List Mapping)
    (h1 : m1.decodedMappings = some l1) (h2 : m2.decodedMappings = some l2)
    (h : l1.map collapse = l2.map collapse) :
    (EncodeMappings sort fuel m1).map (fun m => m.Mappings)
      = (EncodeMappings sort fuel m2).map (fun m => m.Mappings) := by
  rw [EncodeMappings_string sort fuel m1 l1 h1, EncodeMappings_string sort fuel m2 l2 h2]
  apply encodeRecords_congr_collapse
  rw [← hsort collapse collapse_key l1, ← hsort collapse collapse_key l2, h]

/-- What `EncodeMappings` writes for one record: one field for a record without
source, which leaves the four original-side variables as they are, and four or
five fields for a record with a source. -/
theorem encodeRecord_fields (st : EncodeState) (m : Mapping) (out : List Nat)
    (st' : EncodeState) (h : encodeRecord st m = some (out, st')) :
    ∃ fs : List (List Nat),
      out = List.replicate (m.GeneratedLine - st.generatedLine).toNat 59 ++
        (if (advanceLines st m).comma = true then [44] else []) ++ fs.flatten ∧
      (∀ f ∈ fs, isField f = true) ∧
      writeVLQ (wrapInt (m.GeneratedColumn - (advanceLines st m).generatedColumn)) = fs.head? ∧
      (m.OriginalSourceIndex < 0 →
        fs.length = 1 ∧ st'.originalFile = st.originalFile ∧
        st'.originalLine = st.originalLine ∧ st'.originalColumn = st.originalColumn ∧
        st'.originalName = st.originalName) ∧
      (0 ≤ m.OriginalSourceIndex → fs.length = if 0 ≤ m.OriginalNameIndex then 5 else 4) := by
  unfold encodeRecord at h
  simp only at h
  cases h0 : writeVLQ (wrapInt (m.GeneratedColumn - (advanceLines st m).generatedColumn)) with
  | none => simp [h0] at h
  | some f0 =>
    have i0 := writeVLQ_isField _ f0 h0
    simp only [h0, Option.some_bind] at h
    by_cases hsrc : m.OriginalSourceIndex ≥ 0
    · rw [if_pos hsrc] at h
      cases h1 : writeVLQ (wrapInt (m.OriginalSourceIndex - (advanceLines st m).originalFile)) with
      | none => simp [h1] at h
      | some f1 =>
        have i1 := writeVLQ_isField _ f1 h1
        simp only [h1, Option.some_bind] at h
        cases h2 : writeVLQ (wrapInt (m.OriginalLine - (advanceLines st m).originalLine)) with
        | none => simp [h2] at h
        | some f2 =>
          have i2 := writeVLQ_isField _ f2 h2
          simp only [h2, Option.some_bind] at h
          cases h3 : writeVLQ
              (wrapInt (m.OriginalColumn - (advanceLines st m).originalColumn)) with
          | none => simp [h3] at h
          | some f3 =>
            have i3 := writeVLQ_isField _ f3 h3
            simp only [h3, Option.some_bind] at h
            by_cases hname : m.OriginalNameIndex ≥ 0
            · rw [if_pos hname] at h
              cases h4 : writeVLQ
                  (wrapInt (m.OriginalNameIndex - (advanceLines st m).originalName)) with
              | none => simp [h4] at h
              | some f4 =>
                have i4 := writeVLQ_isField _ f4 h4
                simp only [h4, Option.some_bind, Option.some.injEq, Prod.mk.injEq] at h
                refine ⟨[f0, f1, f2, f3, f4], ?_, ?_, rfl, fun hc => absurd hsrc (by omega),
                  fun _ => by simp [show (0 : Int) ≤ m.OriginalNameIndex from hname]⟩
                · rw [← h.1]; simp
                · intro f hf
                  simp only [List.mem_cons, List.mem_singleton, List.not_mem_nil, or_false] at hf
                  rcases hf with rfl | rfl | rfl | rfl | rfl <;> assumption
            · rw [if_neg hname] at h
              simp only [Option.some.injEq, Prod.mk.injEq] at h
              refine ⟨[f0, f1, f2, f3], ?_, ?_, rfl, fun hc => absurd hsrc (by omega),
                fun _ => by simp [show ¬ (0 : Int) ≤ m.OriginalNameIndex from hname]⟩
              · rw [← h.1]; simp
              · intro f hf
                simp only [List.mem_cons, List.mem_singleton, List.not_mem_nil, or_false] at hf
                rcases hf with rfl | rfl | rfl | rfl <;> assumption
    · rw [if_neg hsrc] at h
      simp only [Option.some.injEq, Prod.mk.injEq] at h
      refine ⟨[f0], ?_, ?_, rfl, fun _ => ?_, fun hc => absurd hc (by omega)⟩
      · rw [← h.1]; simp
      · intro f hf
        rw [List.mem_singleton] at hf
        rw [hf]; exact i0
      · rw [← h.2]
        unfold advanceLines
        split <;> exact ⟨rfl, rfl, rfl, rfl, rfl⟩

/-! ## Lemmas: `sort.Sort` on a slice in ascending order -/

theorem Less_irrefl (x : Mapping) : Less x x = false := by
  unfold Less
  simp

theorem insertionSort_fold_sorted : ∀ (l pre : List Mapping),
    (pre ++ l).Pairwise (fun a b => Less b a = false) →
    l.foldl (fun run x => sinkLeft x run) pre.reverse = (pre ++ l).reverse := by
  intro l
  induction l with
  | nil => intro pre _; simp
  | cons x xs ih =>
    intro pre hs
    have hstep : sinkLeft x pre.reverse = (pre ++ [x]).reverse := by
      rw [List.reverse_append]
      cases hp : pre.reverse with
      | nil => rfl
      | cons y ys =>
        have hy : y ∈ pre := by
          have : y ∈ pre.reverse := by rw [hp]; exact List.mem_cons_self _ _
          exact List.mem_reverse.mp this
        have hlt : Less x y = false :=
          (List.pairwise_append.mp hs).2.2 y hy x (List.mem_cons_self _ _)
        simp [sinkLeft, hlt]
    rw [List.foldl_cons, hstep]
    have h2 := ih (pre ++ [x]) (by simpa using hs)
    rw [h2]
    simp

theorem insertionSort_keepsSorted : SortKeepsSorted insertionSort := by
  intro l hs
  have h := insertionSort_fold_sorted l [] (by simpa using hs)
  unfold insertionSort
  simp only [List.reverse_nil, List.nil_append] at h
  rw [h, List.reverse_reverse]

theorem lessAt_sorted {d : List Mapping} (hs : d.Pairwise (fun a b => Less b a = false))
    {a b : Nat} (hab : a ≤ b) : lessAt d b a = false := by
  unfold lessAt
  cases hb : d.get? b with
  | none => rfl
  | some y =>
    cases ha : d.get? a with
    | none => rfl
    | some x =>
      simp only
      rcases Nat.lt_or_eq_of_le hab with hlt | heq
      · rw [List.get?_eq_getElem?] at ha hb
        obtain ⟨ha1, ha2⟩ := List.getElem?_eq_some_iff.mp ha
        obtain ⟨hb1, hb2⟩ := List.getElem?_eq_some_iff.mp hb
        have := List.pairwise_iff_getElem.mp hs a b ha1 hb1 hlt
        rw [ha2, hb2] at this
        exact this
      · subst heq
        rw [ha] at hb
        injection hb with hb
        subst hb
        exact Less_irrefl x

theorem order2_sorted {d : List Mapping} (hs : d.Pairwise (fun a b => Less b a = false))
    {a b : Nat} (hab : a ≤ b) (s : Nat) : order2 d a b s = (a, b, s) := by
  unfold order2
  rw [lessAt_sorted hs hab]
  rfl

theorem median_sorted {d : List Mapping} (hs : d.Pairwise (fun a b => Less b a = false))
    {a b c : Nat} (hab : a ≤ b) (hbc : b ≤ c) (s : Nat) : median d a b c s = (b, s) := by
  unfold median
  simp only [order2_sorted hs hab, order2_sorted hs hbc]

theorem choosePivot_sorted {d : List Mapping}
    (hs : d.Pairwise (fun a b => Less b a = false)) (a b : Nat) :
    choosePivot d a b = (a + (b - a) / 4 * 2, SortedHint.increasingHint) := by
  have adj : ∀ x s, median d (x - 1) x (x + 1) s = (x, s) := fun x s =>
    median_sorted hs (Nat.sub_le _ _) (Nat.le_succ _) s
  have mid : median d (a + (b - a) / 4 * 1) (a + (b - a) / 4 * 2) (a + (b - a) / 4 * 3) 0
      = (a + (b - a) / 4 * 2, 0) := median_sorted hs (by omega) (by omega) 0
  unfold choosePivot medianAdjacent
  simp only [adj, mid]
  by_cases h1 : b - a ≥ 8
  · by_cases h2 : b - a ≥ 50
    · simp only [h1, h2, if_true]
    · simp only [h1, h2, if_true, if_false]
  · simp only [h1, if_false, if_true]

theorem walkSorted_sorted {d : List Mapping}
    (hs : d.Pairwise (fun a b => Less b a = false)) (b : Nat) :
    ∀ (fuel i : Nat), i ≤ b → b - i ≤ fuel → walkSorted d b fuel i = b := by
  intro fuel
  induction fuel with
  | zero =>
    intro i h1 h2
    unfold walkSorted
    omega
  | succ n ih =>
    intro i h1 h2
    unfold walkSorted
    rw [lessAt_sorted hs (Nat.sub_le i 1)]
    by_cases hi : i < b
    · simp only [hi, decide_True, Bool.not_false, Bool.and_self, if_true]
      exact ih (i + 1) hi (by omega)
    · have : i = b := by omega
      simp [this]

theorem bitsLen_pos (n : Nat) (hn : 0 < n) : bitsLen 64 n ≠ 0 := by
  unfold bitsLen
  simp only
  rw [if_neg (by omega)]
  omega

theorem partialInsertionSort_sorted {d : List Mapping}
    (hs : d.Pairwise (fun a b => Less b a = false)) (h0 : 0 < d.length) :
    partialInsertionSort d 0 d.length = (d, true) := by
  unfold partialInsertionSort partialInsertionSteps
  simp only
  rw [walkSorted_sorted hs d.length d.length (0 + 1) (by omega) (by omega)]
  simp

theorem goSort_keepsSorted : SortKeepsSorted goSort := by
  intro l hs
  unfold goSort
  by_cases h1 : l.length ≤ 1
  · rw [if_pos h1]
  · rw [if_neg h1]
    obtain ⟨n, hn⟩ : ∃ n, l.length = n + 1 := ⟨l.length - 1, by omega⟩
    have hp := partialInsertionSort_sorted hs (by omega)
    rw [hn] at hp ⊢
    unfold pdqsort
    simp only [Nat.sub_zero, choosePivot_sorted hs]
    by_cases h2 : n + 1 ≤ 12
    · rw [if_pos h2]
      unfold insertionSortRange
      rw [← hn]
      simp only [List.take_zero, List.drop_zero, Nat.sub_zero, List.take_length,
        List.drop_length, List.nil_append, List.append_nil]
      exact insertionSort_keepsSorted l hs
    · rw [if_neg h2, if_neg (bitsLen_pos (n + 1) (by omega))]
      simp [hp, choosePivot_sorted hs]

/-! ## Lemmas: the calls on the heap -/

theorem mapStep_refl (m : Map) : mapStep m m := ⟨le_refl _, le_refl _, id⟩

theorem mapStep_trans {m m1 m2 : Map} (h1 : mapStep m m1) (h2 : mapStep m1 m2) :
    mapStep m m2 :=
  ⟨le_trans h1.1 h2.1, le_trans h1.2.1 h2.2.1, fun h => h2.2.2 (h1.2.2 h)⟩

theorem heapStep_refl (h : List Obj) : heapStep h h :=
  ⟨rfl, fun _ o ho => ⟨o, ho, mapStep_refl _⟩⟩

theorem heapStep_trans {h h1 h2 : List Obj} (s1 : heapStep h h1) (s2 : heapStep h1 h2) :
    heapStep h h2 := by
  refine ⟨s1.1.trans s2.1, ?_⟩
  intro q o ho
  obtain ⟨o1, ho1, m1⟩ := s1.2 q o ho
  obtain ⟨o2, ho2, m2⟩ := s2.2 q o1 ho1
  exact ⟨o2, ho2, mapStep_trans m1 m2⟩

theorem get?_set_self {h : List Obj} {q : Nat} {o : Obj} (ho : h.get? q = some o) (o1 : Obj) :
    (h.set q o1).get? q = some o1 := by
  rw [List.get?_eq_getElem?] at ho ⊢
  obtain ⟨hq, -⟩ := List.getElem?_eq_some_iff.mp ho
  rw [List.getElem?_set_self hq]

theorem get?_set_ne (h : List Obj) {q p : Nat} (hne : q ≠ p) (o1 : Obj) :
    (h.set q o1).get? p = h.get? p := by
  rw [List.get?_eq_getElem?, List.get?_eq_getElem?, List.getElem?_set_ne hne]

theorem heapStep_set {h : List Obj} {q : Nat} {o : Obj} (ho : h.get? q = some o) (o1 : Obj)
    (hs : mapStep o.map o1.map) : heapStep h (h.set q o1) := by
  refine ⟨(List.length_set _ _ _).symm, ?_⟩
  intro p o2 ho2
  by_cases hp : q = p
  · subst hp
    rw [ho] at ho2
    injection ho2 with ho2
    subst ho2
    exact ⟨o1, get?_set_self ho o1, hs⟩
  · exact ⟨o2, by rw [get?_set_ne h hp]; exact ho2, mapStep_refl _⟩

theorem AddSource_step (m : Map) (name : String) (content : Option (List Nat)) :
    mapStep m (AddSource m name content).2 := by
  refine ⟨?_, ?_, AddSource_tablesExact m name content⟩
  · unfold AddSource
    split_ifs
    · exact le_refl _
    · split
      · exact le_refl _
      · split <;> simp
  · unfold AddSource
    split_ifs
    · exact le_refl _
    · split
      · exact le_refl _
      · split <;> simp

theorem AddName_step (m : Map) (name : String) : mapStep m (AddName m name).2 := by
  refine ⟨?_, ?_, AddName_tablesExact m name⟩
  · unfold AddName
    split_ifs
    · exact le_refl _
    · split <;> simp
  · unfold AddName
    split_ifs
    · exact le_refl _
    · split <;> simp

theorem mapStep_of_fields {m m2 : Map} (h1 : m2.Sources = m.Sources) (h2 : m2.Names = m.Names)
    (h3 : m2.fileIndexMap = m.fileIndexMap) (h4 : m2.nameIndexMap = m.nameIndexMap) :
    mapStep m m2 :=
  ⟨by rw [h1], by rw [h2], fun h => tablesExact_of_fields h h1 h2 h3 h4⟩

theorem OriginalResolvedSource_step (P : PathLib) (m : Map) (r : Mapping) (s : String)
    (m2 : Map) (h : OriginalResolvedSource P m r = some (s, m2)) : mapStep m m2 := by
  obtain ⟨h1, h2, h3, h4⟩ := OriginalResolvedSource_tables P m r s m2 h
  exact mapStep_of_fields h1 h2 h3 h4

theorem decodeMappings_step (fuel : Nat) (m m1 : Map) (h : decodeMappings fuel m = some m1) :
    mapStep m m1 := by
  obtain ⟨h1, h2, h3, h4, -⟩ := decodeMappings_fields fuel m m1 h
  exact mapStep_of_fields h1 h2 h3 h4

theorem decodeAt_step (fuel : Nat) (h h1 : List Obj) (p : Nat)
    (hd : decodeAt fuel h p = some h1) : heapStep h h1 := by
  unfold decodeAt at hd
  cases ho : h.get? p with
  | none => rw [ho] at hd; simp at hd
  | some o =>
    simp only [ho] at hd
    cases hdm : o.map.decodedMappings with
    | some l =>
      simp only [hdm, Option.some.injEq] at hd
      subst hd
      exact heapStep_refl h
    | none =>
      simp only [hdm] at hd
      cases hm : decodeMappings fuel o.map with
      | none => simp [hm] at hd
      | some m1 =>
        simp only [hm, Option.map_some', Option.some.injEq] at hd
        subst hd
        exact heapStep_set ho _ (decodeMappings_step fuel o.map m1 hm)

theorem OriginalResolvedSourceAt_step (P : PathLib) (h : List Obj) (r : Option Nat × Mapping)
    (s : String) (h1 : List Obj) (hr : OriginalResolvedSourceAt P h r = some (s, h1)) :
    heapStep h h1 := by
  unfold OriginalResolvedSourceAt at hr
  split_ifs at hr with hneg
  · injection hr with hr
    injection hr with _ hr
    subst hr
    exact heapStep_refl h
  · cases hq : r.1 with
    | none => simp [hq] at hr
    | some q =>
      simp only [hq] at hr
      cases ho : h.get? q with
      | none => rw [ho] at hr; simp at hr
      | some o =>
        simp only [ho] at hr
        cases hm : OriginalResolvedSource P o.map r.2 with
        | none => simp [hm] at hr
        | some sm =>
          obtain ⟨s2, m2⟩ := sm
          simp only [hm, Option.map_some', Option.some.injEq, Prod.mk.injEq] at hr
          obtain ⟨-, hr⟩ := hr
          subst hr
          exact heapStep_set ho _ (OriginalResolvedSource_step P o.map r.2 s2 m2 hm)

theorem appendSource_step (P : PathLib) (pa : Nat) (st st1 : AppendState)
    (bm : Option Nat × Mapping) (hs : appendSource P pa st bm = some st1) :
    heapStep st.h st1.h := by
  unfold appendSource at hs
  split_ifs at hs with heq
  · injection hs with hs
    subst hs
    exact heapStep_refl _
  · cases hr : OriginalResolvedSourceAt P st.h bm with
    | none => simp [hr] at hs
    | some s =>
      obtain ⟨s1, h1⟩ := s
      simp only [hr, Option.some_bind] at hs
      cases hc : OriginalSourceContentAt h1 bm with
      | none => simp [hc] at hs
      | some c =>
        simp only [hc, Option.some_bind] at hs
        cases ho : h1.get? pa with
        | none => rw [ho] at hs; simp at hs
        | some oa =>
          simp only [ho, Option.map_some', Option.some.injEq] at hs
          subst hs
          exact heapStep_trans (OriginalResolvedSourceAt_step P st.h bm s1 h1 hr)
            (heapStep_set ho _ (AddSource_step oa.map s1 c))

theorem appendRecord_step (P : PathLib) (pa : Nat) (k : Int) (st : AppendState)
    (bm : Option Nat × Mapping) (r : AppendState × Mapping)
    (hs : appendRecord P pa k st bm = some r) : heapStep st.h r.1.h := by
  unfold appendRecord at hs
  cases h1 : appendSource P pa st bm with
  | none => simp [h1] at hs
  | some st1 =>
    simp only [h1, Option.some_bind] at hs
    cases hn : OriginalNameAt st1.h bm with
    | none => simp [hn] at hs
    | some n =>
      simp only [hn, Option.some_bind] at hs
      cases ho : st1.h.get? pa with
      | none => rw [ho] at hs; simp at hs
      | some oa =>
        simp only [ho, Option.map_some', Option.some.injEq] at hs
        subst hs
        exact heapStep_trans (appendSource_step P pa st st1 bm h1)
          (heapStep_set ho _ (AddName_step oa.map n))

theorem appendLoop_step (P : PathLib) (pa : Nat) (k : Int) :
    ∀ (l : List (Option Nat × Mapping)) (st : AppendState) (r : AppendState × List Mapping),
      appendLoop P pa k st l = some r → heapStep st.h r.1.h := by
  intro l
  induction l with
  | nil =>
    intro st r hs
    unfold appendLoop at hs
    injection hs with hs
    subst hs
    exact heapStep_refl _
  | cons bm rest ih =>
    intro st r hs
    unfold appendLoop at hs
    cases h1 : appendRecord P pa k st bm with
    | none => simp [h1] at hs
    | some r1 =>
      simp only [h1, Option.some_bind] at hs
      cases h2 : appendLoop P pa k r1.1 rest with
      | none => simp [h2] at hs
      | some q =>
        simp only [h2, Option.map_some', Option.some.injEq] at hs
        subst hs
        exact heapStep_trans (appendRecord_step P pa k st bm r1 h1) (ih r1.1 q h2)

theorem Append_step (P : PathLib) (fuel : Nat) (h h1 : List Obj) (pa pb : Nat) (k : Int)
    (hs : Append P fuel h pa pb k = some h1) : heapStep h h1 := by
  unfold Append at hs
  cases d1 : decodeAt fuel h pa with
  | none => simp [d1] at hs
  | some g1 =>
    simp only [d1, Option.some_bind] at hs
    cases d2 : decodeAt fuel g1 pb with
    | none => simp [d2] at hs
    | some g2 =>
      simp only [d2, Option.some_bind] at hs
      cases e1 : g2.get? pa with
      | none => rw [e1] at hs; simp at hs
      | some oa =>
        simp only [e1, Option.some_bind] at hs
        cases e2 : g2.get? pb with
        | none => rw [e2] at hs; simp at hs
        | some ob =>
          simp only [e2, Option.some_bind] at hs
          cases e3 : appendLoop P pa k ⟨g2, -1, -1⟩ (ownedRecords ob) with
          | none => simp [e3] at hs
          | some res =>
            simp only [e3, Option.some_bind] at hs
            cases e4 : res.1.h.get? pa with
            | none => rw [e4] at hs; simp at hs
            | some oa2 =>
              simp only [e4, Option.map_some', Option.some.injEq] at hs
              subst hs
              refine heapStep_trans (decodeAt_step fuel h g1 pa d1)
                (heapStep_trans (decodeAt_step fuel g1 g2 pb d2)
                  (heapStep_trans (appendLoop_step P pa k _ _ res e3)
                    (heapStep_set e4 _ ?_)))
              exact mapStep_of_fields rfl rfl rfl rfl

theorem ownedRecords_snd (o : Obj) :
    (ownedRecords o).map Prod.snd = sliceOf o.map.decodedMappings := by
  unfold ownedRecords
  apply List.map_snd_zip
  simp

theorem ownedRecords_length (o : Obj) :
    (ownedRecords o).length = (sliceOf o.map.decodedMappings).length := by
  rw [← ownedRecords_snd, List.length_map]

theorem ownedRecords_none {o : Obj} (h : o.map.decodedMappings = none) : ownedRecords o = [] := by
  apply List.eq_nil_of_length_eq_zero
  rw [ownedRecords_length, h]
  rfl

theorem zip_append_left {α β : Type} (a b : List α) (x : List β) (h : a.length = x.length) :
    (a ++ b).zip x = a.zip x := by
  induction a generalizing x with
  | nil =>
    have hx : x = [] := List.length_eq_zero.mp h.symm
    subst hx
    simp
  | cons y ys ih =>
    cases x with
    | nil => simp at h
    | cons z zs =>
      simp only [List.cons_append, List.zip_cons_cons, List.cons.injEq, true_and]
      exact ih zs (by simpa using h)

theorem zip_replicate {α β : Type} (a : α) : ∀ (l : List β),
    (List.replicate l.length a).zip l = l.map (fun c => (a, c)) := by
  intro l
  induction l with
  | nil => rfl
  | cons c cs ih => simp [List.replicate_succ, ih]

theorem ownedRecords_append (owners : List (Option Nat)) (recs copies : List Mapping)
    (m : Map) (p : Nat) (hl : owners.length = recs.length) :
    ownedRecords { map := { m with decodedMappings := some (recs ++ copies) },
                   owners := owners ++ List.replicate copies.length (some p) }
      = owners.zip recs ++ copies.map (fun c => (some p, c)) := by
  unfold ownedRecords
  simp only [sliceOf, Option.getD_some]
  rw [List.append_assoc, List.zip_append hl, zip_append_left _ _ _ (by simp), zip_replicate]

theorem zip_fst_snd {α β : Type} (l : List (α × β)) : (l.map Prod.fst).zip (l.map Prod.snd) = l := by
  induction l with
  | nil => rfl
  | cons x xs ih => simp [ih]

theorem DecodedMappingsAt_eq (fuel : Nat) (h h1 : List Obj) (p : Nat)
    (ra : List (Option Nat × Mapping)) (hd : DecodedMappingsAt fuel h p = some (h1, ra)) :
    decodeAt fuel h p = some h1 ∧ ∃ o, h1.get? p = some o ∧ ra = ownedRecords o := by
  unfold DecodedMappingsAt at hd
  cases d1 : decodeAt fuel h p with
  | none => simp [d1] at hd
  | some g1 =>
    simp only [d1, Option.some_bind] at hd
    cases e1 : g1.get? p with
    | none => rw [e1] at hd; simp at hd
    | some o =>
      simp only [e1, Option.map_some', Option.some.injEq, Prod.mk.injEq] at hd
      obtain ⟨hd1, hd2⟩ := hd
      subst hd1
      exact ⟨rfl, o, e1, hd2.symm⟩

theorem decodeAt_decoded (fuel : Nat) (h h1 : List Obj) (p : Nat) (o1 : Obj)
    (hd : decodeAt fuel h p = some h1) (ho1 : h1.get? p = some o1) :
    decodeMappings fuel o1.map = some o1.map := by
  unfold decodeAt at hd
  cases ho : h.get? p with
  | none => rw [ho] at hd; simp at hd
  | some o =>
    simp only [ho] at hd
    cases hdm : o.map.decodedMappings with
    | some l =>
      simp only [hdm, Option.some.injEq] at hd
      subst hd
      rw [ho] at ho1
      injection ho1 with ho1
      subst ho1
      unfold decodeMappings
      rw [hdm]
    | none =>
      simp only [hdm] at hd
      cases hm : decodeMappings fuel o.map with
      | none => simp [hm] at hd
      | some m1 =>
        simp only [hm, Option.map_some', Option.some.injEq] at hd
        subst hd
        rw [get?_set_self ho] at ho1
        injection ho1 with ho1
        subst ho1
        exact decodeMappings_idem fuel o.map m1 hm

theorem decodeAt_twice (fuel : Nat) (h h1 h2 : List Obj) (pa pb : Nat) (o1 : Obj)
    (hd : decodeAt fuel h pa = some h1) (ho1 : h1.get? pa = some o1)
    (hd2 : decodeAt fuel h1 pb = some h2) :
    ∃ o2, h2.get? pa = some o2 ∧ ownedRecords o2 = ownedRecords o1 ∧
      sliceOf o2.map.decodedMappings = sliceOf o1.map.decodedMappings := by
  have hidem := decodeAt_decoded fuel h h1 pa o1 hd ho1
  unfold decodeAt at hd2
  cases ho : h1.get? pb with
  | none => rw [ho] at hd2; simp at hd2
  | some ob =>
    simp only [ho] at hd2
    cases hdm : ob.map.decodedMappings with
    | some l =>
      simp only [hdm, Option.some.injEq] at hd2
      subst hd2
      exact ⟨o1, ho1, rfl, rfl⟩
    | none =>
      simp only [hdm] at hd2
      cases hm : decodeMappings fuel ob.map with
      | none => simp [hm] at hd2
      | some m1 =>
        simp only [hm, Option.map_some', Option.some.injEq] at hd2
        subst hd2
        by_cases hp : pb = pa
        · subst hp
          rw [ho] at ho1
          injection ho1 with ho1
          subst ho1
          rw [hidem] at hm
          injection hm with hm
          subst hm
          refine ⟨_, get?_set_self ho _, ?_, rfl⟩
          rw [ownedRecords_none hdm]
          exact ownedRecords_none hdm
        · refine ⟨o1, ?_, rfl, rfl⟩
          rw [get?_set_ne h1 hp]
          exact ho1

theorem appendRecord_fields (P : PathLib) (pa : Nat) (k : Int) (st : AppendState)
    (bm : Option Nat × Mapping) (r : AppendState × Mapping)
    (hs : appendRecord P pa k st bm = some r) :
    r.2.GeneratedLine = wrapInt (bm.2.GeneratedLine + k) ∧
      r.2.GeneratedColumn = bm.2.GeneratedColumn ∧ r.2.OriginalLine = bm.2.OriginalLine ∧
      r.2.OriginalColumn = bm.2.OriginalColumn := by
  unfold appendRecord at hs
  cases h1 : appendSource P pa st bm with
  | none => simp [h1] at hs
  | some st1 =>
    simp only [h1, Option.some_bind] at hs
    cases hn : OriginalNameAt st1.h bm with
    | none => simp [hn] at hs
    | some n =>
      simp only [hn, Option.some_bind] at hs
      cases ho : st1.h.get? pa with
      | none => rw [ho] at hs; simp at hs
      | some oa =>
        simp only [ho, Option.map_some', Option.some.injEq] at hs
        subst hs
        exact ⟨rfl, rfl, rfl, rfl⟩

theorem appendLoop_shape (P : PathLib) (pa : Nat) (k : Int) :
    ∀ (l : List (Option Nat × Mapping)) (st : AppendState) (r : AppendState × List Mapping),
      appendLoop P pa k st l = some r →
      List.Forall₂ (fun bm am =>
        am.GeneratedLine = wrapInt (bm.2.GeneratedLine + k) ∧
          am.GeneratedColumn = bm.2.GeneratedColumn ∧ am.OriginalLine = bm.2.OriginalLine ∧
          am.OriginalColumn = bm.2.OriginalColumn) l r.2 := by
  intro l
  induction l with
  | nil =>
    intro st r hs
    unfold appendLoop at hs
    injection hs with hs
    subst hs
    exact List.Forall₂.nil
  | cons bm rest ih =>
    intro st r hs
    unfold appendLoop at hs
    cases h1 : appendRecord P pa k st bm with
    | none => simp [h1] at hs
    | some r1 =>
      simp only [h1, Option.some_bind] at hs
      cases h2 : appendLoop P pa k r1.1 rest with
      | none => simp [h2] at hs
      | some q =>
        simp only [h2, Option.map_some', Option.some.injEq] at hs
        subst hs
        exact List.Forall₂.cons (appendRecord_fields P pa k st bm r1 h1) (ih r1.1 q h2)

theorem resolvable_iff (h : List Obj) (bm : Option Nat × Mapping) :
    resolvable h bm = true ↔
      (bm.2.OriginalSourceIndex < 0 ∨ ∃ q o, bm.1 = some q ∧ h.get? q = some o ∧
        bm.2.OriginalSourceIndex < o.map.Sources.length) ∧
      (bm.2.OriginalNameIndex < 0 ∨ ∃ q o, bm.1 = some q ∧ h.get? q = some o ∧
        bm.2.OriginalNameIndex < o.map.Names.length) := by
  unfold resolvable
  cases hq : bm.1 with
  | none => simp
  | some q =>
    cases ho : h.get? q with
    | none =>
      rw [List.get?_eq_getElem?] at ho
      simp [ho]
    | some o =>
      rw [List.get?_eq_getElem?] at ho
      simp [ho]

theorem resolvable_step {h h1 : List Obj} (hs : heapStep h h1) (bm : Option Nat × Mapping)
    (hr : resolvable h bm = true) : resolvable h1 bm = true := by
  rw [resolvable_iff] at hr ⊢
  obtain ⟨r1, r2⟩ := hr
  refine ⟨?_, ?_⟩
  · rcases r1 with r1 | ⟨q, o, e1, e2, e3⟩
    · exact Or.inl r1
    · obtain ⟨o1, ho1, s1⟩ := hs.2 q o e2
      exact Or.inr ⟨q, o1, e1, ho1, lt_of_lt_of_le e3 (by exact_mod_cast s1.1)⟩
  · rcases r2 with r2 | ⟨q, o, e1, e2, e3⟩
    · exact Or.inl r2
    · obtain ⟨o1, ho1, s1⟩ := hs.2 q o e2
      exact Or.inr ⟨q, o1, e1, ho1, lt_of_lt_of_le e3 (by exact_mod_cast s1.2.1)⟩

theorem OriginalResolvedSourceAt_some (P : PathLib) (h : List Obj) (bm : Option Nat × Mapping)
    (hr : resolvable h bm = true) : ∃ s, OriginalResolvedSourceAt P h bm = some s := by
  rw [resolvable_iff] at hr
  unfold OriginalResolvedSourceAt
  by_cases hneg : bm.2.OriginalSourceIndex < 0
  · rw [if_pos hneg]
    exact ⟨_, rfl⟩
  · rw [if_neg hneg]
    rcases hr.1 with r1 | ⟨q, o, e1, e2, e3⟩
    · exact absurd r1 hneg
    · obtain ⟨s, m2, hs⟩ := OriginalResolvedSource_some P o.map bm.2 e3
      simp only [e1, e2, hs, Option.map_some']
      exact ⟨_, rfl⟩

theorem OriginalSourceContentAt_some (h : List Obj) (bm : Option Nat × Mapping)
    (hr : resolvable h bm = true) : ∃ c, OriginalSourceContentAt h bm = some c := by
  rw [resolvable_iff] at hr
  unfold OriginalSourceContentAt
  by_cases hneg : bm.2.OriginalSourceIndex < 0
  · rw [if_pos hneg]
    exact ⟨_, rfl⟩
  · rw [if_neg hneg]
    rcases hr.1 with r1 | ⟨q, o, e1, e2, e3⟩
    · exact absurd r1 hneg
    · simp only [e1, e2]
      exact ⟨_, rfl⟩

theorem OriginalNameAt_some (h : List Obj) (bm : Option Nat × Mapping)
    (hr : resolvable h bm = true) : ∃ n, OriginalNameAt h bm = some n := by
  rw [resolvable_iff] at hr
  unfold OriginalNameAt
  by_cases hneg : bm.2.OriginalNameIndex < 0
  · rw [if_pos hneg]
    exact ⟨_, rfl⟩
  · rw [if_neg hneg]
    rcases hr.2 with r1 | ⟨q, o, e1, e2, e3⟩
    · exact absurd r1 hneg
    · simp only [e1, e2]
      exact OriginalName_some o.map bm.2 e3

theorem appendSource_some (P : PathLib) (pa : Nat) (st : AppendState)
    (bm : Option Nat × Mapping) (oa : Obj) (hpa : st.h.get? pa = some oa)
    (hr : resolvable st.h bm = true) : ∃ st1, appendSource P pa st bm = some st1 := by
  unfold appendSource
  by_cases heq : st.b_last_source_index = bm.2.OriginalSourceIndex
  · rw [if_pos heq]
    exact ⟨_, rfl⟩
  · rw [if_neg heq]
    obtain ⟨s, hs⟩ := OriginalResolvedSourceAt_some P st.h bm hr
    have hstep := OriginalResolvedSourceAt_step P st.h bm s.1 s.2 hs
    obtain ⟨c, hc⟩ := OriginalSourceContentAt_some s.2 bm (resolvable_step hstep bm hr)
    obtain ⟨oa1, hoa1, -⟩ := hstep.2 pa oa hpa
    simp only [hs, Option.some_bind, hc, hoa1, Option.map_some']
    exact ⟨_, rfl⟩

theorem appendRecord_some (P : PathLib) (pa : Nat) (k : Int) (st : AppendState)
    (bm : Option Nat × Mapping) (oa : Obj) (hpa : st.h.get? pa = some oa)
    (hr : resolvable st.h bm = true) : ∃ r, appendRecord P pa k st bm = some r := by
  obtain ⟨st1, h1⟩ := appendSource_some P pa st bm oa hpa hr
  have hstep := appendSource_step P pa st st1 bm h1
  obtain ⟨n, hn⟩ := OriginalNameAt_some st1.h bm (resolvable_step hstep bm hr)
  obtain ⟨oa1, hoa1, -⟩ := hstep.2 pa oa hpa
  unfold appendRecord
  simp only [h1, Option.some_bind, hn, hoa1, Option.map_some']
  exact ⟨_, rfl⟩

theorem appendLoop_some (P : PathLib) (pa : Nat) (k : Int) :
    ∀ (l : List (Option Nat × Mapping)) (st : AppendState) (oa : Obj),
      st.h.get? pa = some oa → (∀ bm ∈ l, resolvable st.h bm = true) →
      ∃ r, appendLoop P pa k st l = some r := by
  intro l
  induction l with
  | nil =>
    intro st oa _ _
    exact ⟨_, rfl⟩
  | cons bm rest ih =>
    intro st oa hpa hr
    obtain ⟨r1, h1⟩ := appendRecord_some P pa k st bm oa hpa (hr bm (List.mem_cons_self _ _))
    have hstep := appendRecord_step P pa k st bm r1 h1
    obtain ⟨oa1, hoa1, -⟩ := hstep.2 pa oa hpa
    obtain ⟨r2, h2⟩ := ih r1.1 oa1 hoa1
      (fun x hx => resolvable_step hstep x (hr x (List.mem_cons_of_mem _ hx)))
    unfold appendLoop
    simp only [h1, Option.some_bind, h2, Option.map_some']
    exact ⟨_, rfl⟩

theorem Append_some (P : PathLib) (fuel : Nat) (h h1 h2 : List Obj) (pa pb : Nat)
    (ra rb : List (Option Nat × Mapping)) (k : Int)
    (hda : DecodedMappingsAt fuel h pa = some (h1, ra))
    (hdb : DecodedMappingsAt fuel h1 pb = some (h2, rb)) (h3 : List Obj)
    (hs : Append P fuel h pa pb k = some h3) :
    ∃ oa1 copies, h3.get? pa = some oa1 ∧
      ownedRecords oa1 = ra ++ copies.map (fun c => (some pa, c)) ∧
      List.Forall₂ (fun bm am =>
        am.GeneratedLine = wrapInt (bm.2.GeneratedLine + k) ∧
          am.GeneratedColumn = bm.2.GeneratedColumn ∧ am.OriginalLine = bm.2.OriginalLine ∧
          am.OriginalColumn = bm.2.OriginalColumn) rb copies := by
  obtain ⟨d1, o1, ho1, hra⟩ := DecodedMappingsAt_eq fuel h h1 pa ra hda
  obtain ⟨d2, ob, hob, hrb⟩ := DecodedMappingsAt_eq fuel h1 h2 pb rb hdb
  obtain ⟨oa, hoa, hrec, -⟩ := decodeAt_twice fuel h h1 h2 pa pb o1 d1 ho1 d2
  unfold Append at hs
  simp only [d1, Option.some_bind, d2, hoa, hob] at hs
  cases e3 : appendLoop P pa k ⟨h2, -1, -1⟩ (ownedRecords ob) with
  | none => simp [e3] at hs
  | some res =>
    simp only [e3, Option.some_bind] at hs
    cases e4 : res.1.h.get? pa with
    | none => rw [e4] at hs; simp at hs
    | some oa2 =>
      simp only [e4, Option.map_some', Option.some.injEq] at hs
      subst hs
      refine ⟨_, res.2, get?_set_self e4 _, ?_, ?_⟩
      · rw [ownedRecords_append _ _ _ _ _ (by rw [List.length_map, ownedRecords_length]),
          ← ownedRecords_snd oa, zip_fst_snd, hra, hrec]
      · rw [hrb]
        exact appendLoop_shape P pa k _ _ res e3

theorem Append_returns (P : PathLib) (fuel : Nat) (h h1 h2 : List Obj) (pa pb : Nat)
    (ra rb : List (Option Nat × Mapping)) (k : Int)
    (hda : DecodedMappingsAt fuel h pa = some (h1, ra))
    (hdb : DecodedMappingsAt fuel h1 pb = some (h2, rb))
    (hr : ∀ bm ∈ rb, resolvable h2 bm = true) :
    ∃ h3, Append P fuel h pa pb k = some h3 := by
  obtain ⟨d1, o1, ho1, hra⟩ := DecodedMappingsAt_eq fuel h h1 pa ra hda
  obtain ⟨d2, ob, hob, hrb⟩ := DecodedMappingsAt_eq fuel h1 h2 pb rb hdb
  obtain ⟨oa, hoa, -, -⟩ := decodeAt_twice fuel h h1 h2 pa pb o1 d1 ho1 d2
  subst hrb
  obtain ⟨res, e3⟩ := appendLoop_some P pa k (ownedRecords ob) ⟨h2, -1, -1⟩ oa hoa hr
  have hstep := appendLoop_step P pa k _ _ res e3
  obtain ⟨oa2, hoa2, -⟩ := hstep.2 pa oa hoa
  unfold Append
  simp only [d1, Option.some_bind, d2, hoa, hob, e3, hoa2, Option.map_some']
  exact ⟨_, rfl⟩

theorem AddSourceAt_step (h h1 : List Obj) (p : Nat) (name : String)
    (content : Option (List Nat)) (hs : AddSourceAt h p name content = some h1) :
    heapStep h h1 := by
  unfold AddSourceAt at hs
  cases ho : h.get? p with
  | none => rw [ho] at hs; simp at hs
  | some o =>
    simp only [ho, Option.map_some', Option.some.injEq] at hs
    subst hs
    exact heapStep_set ho _ (AddSource_step o.map name content)

theorem AddNameAt_step (h h1 : List Obj) (p : Nat) (name : String)
    (hs : AddNameAt h p name = some h1) : heapStep h h1 := by
  unfold AddNameAt at hs
  cases ho : h.get? p with
  | none => rw [ho] at hs; simp at hs
  | some o =>
    simp only [ho, Option.map_some', Option.some.injEq] at hs
    subst hs
    exact heapStep_set ho _ (AddName_step o.map name)

theorem AddMappingAt_step (h h1 : List Obj) (p : Nat) (mapping : Option Nat × Mapping)
    (hs : AddMappingAt h p mapping = some h1) : heapStep h h1 := by
  unfold AddMappingAt at hs
  cases ho : h.get? p with
  | none => rw [ho] at hs; simp at hs
  | some o =>
    simp only [ho, Option.map_some', Option.some.injEq] at hs
    subst hs
    exact heapStep_set ho _ (mapStep_of_fields rfl rfl rfl rfl)

theorem ClearMappingsAt_step (h h1 : List Obj) (p : Nat)
    (hs : ClearMappingsAt h p = some h1) : heapStep h h1 := by
  unfold ClearMappingsAt at hs
  cases ho : h.get? p with
  | none => rw [ho] at hs; simp at hs
  | some o =>
    simp only [ho, Option.map_some', Option.some.injEq] at hs
    subst hs
    exact heapStep_set ho _ (mapStep_of_fields rfl rfl rfl rfl)

theorem EncodeMappingsAt_step
    (osort : List (Option Nat × Mapping) → List (Option Nat × Mapping)) (fuel : Nat)
    (h h1 : List Obj) (p : Nat) (hs : EncodeMappingsAt osort fuel h p = some h1) :
    heapStep h h1 := by
  unfold EncodeMappingsAt at hs
  cases d1 : decodeAt fuel h p with
  | none => simp [d1] at hs
  | some g1 =>
    simp only [d1, Option.some_bind] at hs
    cases ho : g1.get? p with
    | none => rw [ho] at hs; simp at hs
    | some o =>
      simp only [ho, Option.some_bind] at hs
      cases hb : encodeRecords
          ((if o.map.decodedMappings.isSome = true then osort (ownedRecords o) else []).map
            Prod.snd) with
      | none => simp [hb] at hs
      | some buf =>
        simp only [hb, Option.map_some', Option.some.injEq] at hs
        subst hs
        exact heapStep_trans (decodeAt_step fuel h g1 p d1)
          (heapStep_set ho _ (mapStep_of_fields rfl rfl rfl rfl))

theorem applyOp_tables (P : PathLib)
    (osort : List (Option Nat × Mapping) → List (Option Nat × Mapping)) (fuel : Nat)
    (n : Nat) (h h1 : List Obj) (op : Op) (hs : applyOp P osort fuel h op = some h1)
    (hinv : ∀ p o, n ≤ p → h.get? p = some o → o.map.tablesExact) :
    ∀ p o, n ≤ p → h1.get? p = some o → o.map.tablesExact := by
  have key : heapStep h h1 → ∀ p o, n ≤ p → h1.get? p = some o → o.map.tablesExact := by
    intro hstep p o hp ho
    have hlt : p < h.length := by
      rw [hstep.1]
      rw [List.get?_eq_getElem?] at ho
      exact (List.getElem?_eq_some_iff.mp ho).1
    have hget : h.get? p = some (h.get ⟨p, hlt⟩) := List.get?_eq_get hlt
    obtain ⟨o1, ho1, s1⟩ := hstep.2 p _ hget
    rw [ho] at ho1
    injection ho1 with ho1
    subst ho1
    exact s1.2.2 (hinv p _ hp hget)
  cases op with
  | new =>
    simp only [applyOp, Option.some.injEq] at hs
    subst hs
    intro p o hp ho
    rw [List.get?_eq_getElem?] at ho
    by_cases hlt : p < h.length
    · rw [List.getElem?_append_left hlt] at ho
      exact hinv p o hp (by rw [List.get?_eq_getElem?]; exact ho)
    · rw [List.getElem?_append_right (by omega)] at ho
      have hmem : o ∈ [(⟨New, []⟩ : Obj)] := by
        obtain ⟨hi, he⟩ := List.getElem?_eq_some_iff.mp ho
        rw [← he]
        exact List.getElem_mem _
      rw [List.mem_singleton] at hmem
      subst hmem
      exact New_tablesExact
  | addSource q name content => exact key (AddSourceAt_step h h1 q name content hs)
  | addName q name => exact key (AddNameAt_step h h1 q name hs)
  | addMapping q mapping => exact key (AddMappingAt_step h h1 q mapping hs)
  | clearMappings q => exact key (ClearMappingsAt_step h h1 q hs)
  | encodeMappings q => exact key (EncodeMappingsAt_step osort fuel h h1 q hs)
  | append pa pb k => exact key (Append_step P fuel h h1 pa pb k hs)

theorem runOps_tables (P : PathLib)
    (osort : List (Option Nat × Mapping) → List (Option Nat × Mapping)) (fuel : Nat)
    (n : Nat) : ∀ (ops : List Op) (h h1 : List Obj), runOps P osort fuel h ops = some h1 →
      (∀ p o, n ≤ p → h.get? p = some o → o.map.tablesExact) →
      ∀ p o, n ≤ p → h1.get? p = some o → o.map.tablesExact := by
  intro ops
  induction ops with
  | nil =>
    intro h h1 hs hinv
    unfold runOps at hs
    injection hs with hs
    subst hs
    exact hinv
  | cons op rest ih =>
    intro h h1 hs hinv
    unfold runOps at hs
    cases h2 : applyOp P osort fuel h op with
    | none => simp [h2] at hs
    | some g =>
      simp only [h2, Option.some_bind] at hs
      exact ih g h1 hs (applyOp_tables P osort fuel n h g op h2 hinv)

/-! ## The claims on the merge, the string tables and the sort -/

/-- C8, as stated, fails on the code. In `sampleForeign` the map `b` holds, after
`b.AddMapping(x.DecodedMappings()[0])` and `b.AddMapping(y.DecodedMappings()[0])`,
the record of `x` and the record of `y`, both with the source index 0 (in bounds of
the table of `b`) and no name, and `AddMapping` has left their back pointers as they
were: the records resolve to `x.js` and `y.js`. `a.Append(b, 0)` on the new map `a`
returns, and the second copy, whose index is the reused destination index of the
first, has OriginalSource() `x.js`, where the record of `b` it was copied from has
OriginalResolvedSource() `y.js`. And with a record made by the caller, whose back
pointer is nil (`sampleFresh`, source index 0 in bounds of `b`), `a.Append(b, 0)`
does not return. -/
theorem Append_misattributes_foreign_record :
    sampleForeignCalls = some sampleForeign ∧
    ((sampleForeign.get? 1).map fun b =>
        (ownedRecords b).map fun r =>
          (decide (r.2.OriginalSourceIndex < (b.map.Sources.length : Int)), r.2.OriginalNameIndex))
      = some [(true, -1), (true, -1)] ∧
    ((DecodedMappingsAt 0 sampleForeign 1).map fun p =>
        p.2.map fun r => (OriginalResolvedSourceAt goPath p.1 r).map Prod.fst)
      = some [some "x.js", some "y.js"] ∧
    ((Append goPath 0 sampleForeign 0 1 0).bind fun h =>
        (DecodedMappingsAt 0 h 0).map fun p => p.2.map fun r => OriginalSourceAt p.1 r)
      = some [some "x.js", some "x.js"] ∧
    ((sampleFresh.get? 1).map fun b =>
        (ownedRecords b).map fun r =>
          (r.1, decide (r.2.OriginalSourceIndex < (b.map.Sources.length : Int))))
      = some [(none, true)] ∧
    Append goPath 0 sampleFresh 0 1 0 = none := by
  refine ⟨?_, ?_, ?_, ?_, ?_, ?_⟩ <;> decide!

/-- C9. Shape and line offset of `Append`. Let `a` and `b` be the maps at `pa` and
`pb` of a heap, `ra` the records `a.DecodedMappings()` returns and `rb` the records
`b.DecodedMappings()` returns after it, and `k` any integer. Whenever
`a.Append(b, k)` returns, the records of `a` are `ra`, unchanged and in order, back
pointers included, followed by exactly one copy of each record of `b` in order, which
points back at `a`; each copy has GeneratedLine = the original's GeneratedLine + k
as Go's `int` computes it, which is the exact sum whenever that fits 64 bits, and
the same GeneratedColumn, OriginalLine and OriginalColumn. And the call does return
when every index of a record of `b` is negative or in bounds of the table of the map
that the back pointer of the record points at. -/
theorem Append_shape (P : PathLib) (fuel : Nat) (h h1 h2 : List Obj) (pa pb : Nat)
    (ra rb : List (Option Nat × Mapping)) (k : Int)
    (hda : DecodedMappingsAt fuel h pa = some (h1, ra))
    (hdb : DecodedMappingsAt fuel h1 pb = some (h2, rb)) :
    (∀ h3, Append P fuel h pa pb k = some h3 →
      ∃ oa copies, h3.get? pa = some oa ∧
        ownedRecords oa = ra ++ copies.map (fun c => (some pa, c)) ∧
        List.Forall₂ (fun bm am =>
          am.GeneratedLine = wrapInt (bm.2.GeneratedLine + k) ∧
          (-2 ^ 63 ≤ bm.2.GeneratedLine + k → bm.2.GeneratedLine + k < 2 ^ 63 →
            am.GeneratedLine = bm.2.GeneratedLine + k) ∧
          am.GeneratedColumn = bm.2.GeneratedColumn ∧
          am.OriginalLine = bm.2.OriginalLine ∧ am.OriginalColumn = bm.2.OriginalColumn)
          rb copies) ∧
    ((∀ bm ∈ rb, resolvable h2 bm = true) → ∃ h3, Append P fuel h pa pb k = some h3) := by
  refine ⟨?_, Append_returns P fuel h h1 h2 pa pb ra rb k hda hdb⟩
  intro h3 hs
  obtain ⟨oa, copies, g1, g2, hall⟩ := Append_some P fuel h h1 h2 pa pb ra rb k hda hdb h3 hs
  refine ⟨oa, copies, g1, g2, hall.imp ?_⟩
  intro bm am hf
  obtain ⟨f1, f2, f3, f4⟩ := hf
  exact ⟨f1, fun b1 b2 => by rw [f1]; exact wrapInt_of_fits b1 b2, f2, f3, f4⟩

/-- C9 on the maps of the merge scenario, with the line offset 2: the call returns
and the three copies are on the lines 3, 3 and 4. -/
theorem Append_shape_witness :
    DecodedMappingsAt 0 sampleMerge 0 = some (sampleMerge, []) ∧
    DecodedMappingsAt 0 sampleMerge 1
      = some (sampleMerge, ownedRecords ⟨sampleB, [some 1, some 1, some 1]⟩) ∧
    (∀ bm ∈ ownedRecords ⟨sampleB, [some 1, some 1, some 1]⟩,
      resolvable sampleMerge bm = true) ∧
    ((∀ h3, Append goPath 0 sampleMerge 0 1 2 = some h3 →
      ∃ oa copies, h3.get? 0 = some oa ∧
        ownedRecords oa = [] ++ copies.map (fun c => (some 0, c)) ∧
        List.Forall₂ (fun bm am =>
          am.GeneratedLine = wrapInt (bm.2.GeneratedLine + 2) ∧
          (-2 ^ 63 ≤ bm.2.GeneratedLine + 2 → bm.2.GeneratedLine + 2 < 2 ^ 63 →
            am.GeneratedLine = bm.2.GeneratedLine + 2) ∧
          am.GeneratedColumn = bm.2.GeneratedColumn ∧
          am.OriginalLine = bm.2.OriginalLine ∧ am.OriginalColumn = bm.2.OriginalColumn)
          (ownedRecords ⟨sampleB, [some 1, some 1, some 1]⟩) copies) ∧
    ((∀ bm ∈ ownedRecords ⟨sampleB, [some 1, some 1, some 1]⟩,
        resolvable sampleMerge bm = true) →
      ∃ h3, Append goPath 0 sampleMerge 0 1 2 = some h3)) ∧
    ((Append goPath 0 sampleMerge 0 1 2).bind fun h3 =>
        (h3.get? 0).map fun oa => (ownedRecords oa).map fun r => (r.1, r.2.GeneratedLine))
      = some [(some 0, 3), (some 0, 3), (some 0, 4)] :=
  ⟨by decide!, by decide!, by decide!,
    Append_shape goPath 0 sampleMerge sampleMerge sampleMerge 0 1 []
      (ownedRecords ⟨sampleB, [some 1, some 1, some 1]⟩) 2 (by decide!) (by decide!),
    by decide!⟩

/-- C10, as stated, fails on the code. In `sampleForeign` the records of `b` refer,
in order, to the resolved paths `x.js` and `y.js`, neither of which is in the new
map `a`; after `a.Append(b, 0)` the Sources of `a` are `x.js` alone: the second
record has the source index of the first, so the destination index of the first is
reused and `y.js` is never added. On the merge scenario (`a` with `one.js`,
`two.js`; `b` with `three.js`, `four.js`, no source root, no file, every source
referenced by a record of `b` that points back at `b`) the result is `one.js`,
`two.js`, `three.js`, `four.js`. -/
theorem Append_skips_foreign_source :
    ((DecodedMappingsAt 0 sampleForeign 1).map fun p =>
        p.2.map fun r => (OriginalResolvedSourceAt goPath p.1 r).map Prod.fst)
      = some [some "x.js", some "y.js"] ∧
    (sampleForeign.get? 0).map (fun a => a.map.Sources) = some [] ∧
    ((Append goPath 0 sampleForeign 0 1 0).bind fun h =>
        (h.get? 0).map fun a => a.map.Sources) = some ["x.js"] ∧
    ((sampleMerge.get? 0).map (fun a => a.map.Sources) = some ["one.js", "two.js"] ∧
      (sampleMerge.get? 1).map (fun b => (b.map.Sources, b.map.SourceRoot, b.map.File))
        = some (["three.js", "four.js"], "", "")) ∧
    ((Append goPath 0 sampleMerge 0 1 2).bind fun h =>
        (h.get? 0).map fun a => (a.map.Sources, a.map.Names))
      = some (["one.js", "two.js", "three.js", "four.js"], ["foo"]) := by
  refine ⟨?_, ?_, ?_, ⟨?_, ?_⟩, ?_⟩ <;> decide!

/-- C11. Interning indices. Starting from `New()`, for every sequence of `AddSource`
calls with non-empty names: the sources afterwards are the distinct names in
first-seen order; every call returns the position of its name in that list, so two
calls with the same name return the same index; and a call whose name was not
given before returns the number of distinct names given before it, so the k-th
distinct name gets the index k-1. The same holds for every sequence of `AddName`
calls. -/
theorem interning_indices (calls : List (String × Option (List Nat))) (names : List String)
    (hc : ∀ c ∈ calls, c.1 ≠ "") (hn : ∀ n ∈ names, n ≠ "") :
    ((addSources New calls).2.Sources = firstSeen (calls.map Prod.fst) ∧
      (addSources New calls).1 = (calls.map Prod.fst).map
        (fun n => ((firstSeen (calls.map Prod.fst)).indexOf n : Int)) ∧
      (∀ i j : Nat, (calls.map Prod.fst)[i]? = (calls.map Prod.fst)[j]? →
        (addSources New calls).1[i]? = (addSources New calls).1[j]?) ∧
      (∀ pre c post, calls = pre ++ c :: post → c.1 ∉ pre.map Prod.fst →
        (addSources New calls).1[pre.length]?
          = some ((firstSeen (pre.map Prod.fst)).length : Int))) ∧
    ((addNames New names).2.Names = firstSeen names ∧
      (addNames New names).1 = names.map (fun n => ((firstSeen names).indexOf n : Int)) ∧
      (∀ i j : Nat, names[i]? = names[j]? →
        (addNames New names).1[i]? = (addNames New names).1[j]?) ∧
      (∀ pre c post, names = pre ++ c :: post → c ∉ pre →
        (addNames New names).1[pre.length]? = some ((firstSeen pre).length : Int))) := by
  obtain ⟨-, s2, s3⟩ := addSources_spec calls New tableExact_nil hc
  obtain ⟨-, n2, n3⟩ := addNames_spec names New tableExact_nil hn
  have s2' : (addSources New calls).2.Sources = firstSeen (calls.map Prod.fst) := by
    rw [s2]; simp [New]
  have n2' : (addNames New names).2.Names = firstSeen names := by
    rw [n2]; simp [New]
  rw [s2'] at s3
  rw [n2'] at n3
  refine ⟨⟨s2', s3, ?_, ?_⟩, ⟨n2', n3, ?_, ?_⟩⟩
  · intro i j hij
    rw [s3]
    simp only [List.getElem?_map] at hij ⊢
    rw [hij]
  · intro pre c post hsplit hnew
    rw [s3, hsplit]
    simp only [List.map_append, List.map_cons, List.map_map]
    rw [List.getElem?_append_right (by simp)]
    simp only [List.length_map, Nat.sub_self, List.getElem?_cons_zero, Function.comp_apply,
      Option.some.injEq, Nat.cast_inj]
    exact indexOf_firstSeen _ _ _ hnew
  · intro i j hij
    rw [n3, List.getElem?_map, List.getElem?_map, hij]
  · intro pre c post hsplit hnew
    rw [n3, hsplit]
    simp only [List.map_append, List.map_cons]
    rw [List.getElem?_append_right (by simp)]
    simp only [List.length_map, Nat.sub_self, List.getElem?_cons_zero,
      Option.some.injEq, Nat.cast_inj]
    exact indexOf_firstSeen _ _ _ hnew

/-- C11 on the calls `a.js`, `b.js`, `a.js`, `c.js`, which return 0, 1, 0, 2, and on
the names `x`, `y`, `x`, which return 0, 1, 0. -/
theorem interning_indices_witness :
    (∀ c ∈ sampleCalls, c.1 ≠ "") ∧ (∀ n ∈ sampleNames, n ≠ "") ∧
    ((addSources New sampleCalls).1 = [0, 1, 0, 2] ∧ (addNames New sampleNames).1 = [0, 1, 0]) ∧
    ((addSources New sampleCalls).2.Sources = firstSeen (sampleCalls.map Prod.fst) ∧
      (addSources New sampleCalls).1 = (sampleCalls.map Prod.fst).map
        (fun n => ((firstSeen (sampleCalls.map Prod.fst)).indexOf n : Int)) ∧
      (∀ i j : Nat, (sampleCalls.map Prod.fst)[i]? = (sampleCalls.map Prod.fst)[j]? →
        (addSources New sampleCalls).1[i]? = (addSources New sampleCalls).1[j]?) ∧
      (∀ pre c post, sampleCalls = pre ++ c :: post → c.1 ∉ pre.map Prod.fst →
        (addSources New sampleCalls).1[pre.length]?
          = some ((firstSeen (pre.map Prod.fst)).length : Int))) ∧
    ((addNames New sampleNames).2.Names = firstSeen sampleNames ∧
      (addNames New sampleNames).1
        = sampleNames.map (fun n => ((firstSeen sampleNames).indexOf n : Int)) ∧
      (∀ i j : Nat, sampleNames[i]? = sampleNames[j]? →
        (addNames New sampleNames).1[i]? = (addNames New sampleNames).1[j]?) ∧
      (∀ pre c post, sampleNames = pre ++ c :: post → c ∉ pre →
        (addNames New sampleNames).1[pre.length]? = some ((firstSeen pre).length : Int))) :=
  ⟨by decide, by decide, by decide,
    interning_indices sampleCalls sampleNames (by decide) (by decide)⟩

/-- C12. String-table invariant. Run any sequence of `New`, `AddSource`, `AddName`,
`AddMapping`, `ClearMappings`, `EncodeMappings` and `Append` calls, every one of
which returns, on a heap `h0` of maps that exist beforehand (any maps: they and the
new maps may be the source of an `Append`, and a record given to `AddMapping` may
point back at any of them or nowhere). Every map that `New()` has made during the
run has no value twice in `Sources` or in `Names`, `IndexForSource(Sources[i]) = i`
and `IndexForName(Names[i]) = i` for every valid `i`, and `IndexForSource` and
`IndexForName` return -1 for every string that is not in the table. -/
theorem string_table_invariant (P : PathLib)
    (osort : List (Option Nat × Mapping) → List (Option Nat × Mapping)) (fuel : Nat)
    (h0 : List Obj) (ops : List Op) (h : List Obj) (p : Nat) (o : Obj)
    (hrun : runOps P osort fuel h0 ops = some h) (hnew : h0.length ≤ p)
    (ho : h.get? p = some o) :
    o.map.Sources.Nodup ∧ o.map.Names.Nodup ∧
      (∀ (i : Nat) (hi : i < o.map.Sources.length),
        IndexForSource o.map (o.map.Sources.get ⟨i, hi⟩) = (i : Int)) ∧
      (∀ (i : Nat) (hi : i < o.map.Names.length),
        IndexForName o.map (o.map.Names.get ⟨i, hi⟩) = (i : Int)) ∧
      (∀ x, x ∉ o.map.Sources → IndexForSource o.map x = -1) ∧
      (∀ x, x ∉ o.map.Names → IndexForName o.map x = -1) := by
  have hstart : ∀ q o1, h0.length ≤ q → h0.get? q = some o1 → o1.map.tablesExact := by
    intro q o1 hq hget
    rw [List.get?_eq_getElem?] at hget
    have := (List.getElem?_eq_some_iff.mp hget).1
    omega
  obtain ⟨h1, h2, h3, h4⟩ :=
    runOps_tables P osort fuel h0.length ops h0 h hrun hstart p o hnew ho
  obtain ⟨s1, s2⟩ := tableExact_index h1 h3
  obtain ⟨n1, n2⟩ := tableExact_index h2 h4
  refine ⟨h1, h2, ?_, ?_, ?_, ?_⟩
  · intro i hi
    unfold IndexForSource
    rw [s1 i hi]
  · intro i hi
    unfold IndexForName
    rw [n1 i hi]
  · intro x hx
    unfold IndexForSource
    rw [s2 x hx]
  · intro x hx
    unfold IndexForName
    rw [n2 x hx]

/-- C12 on a sequence of calls that uses every method, on the heap that holds a
loaded map: the calls return, and the map made by `New()` ends with the sources
`one.js`, `three.js`, `four.js` and the names `bar`, `foo`. -/
theorem string_table_invariant_witness :
    ∃ h o, runOps goPath insertionSortOwned 20 [⟨sampleDocument, []⟩] sampleOps = some h ∧
      [(⟨sampleDocument, []⟩ : Obj)].length ≤ 1 ∧ h.get? 1 = some o ∧
      (o.map.Sources = ["one.js", "three.js", "four.js"] ∧ o.map.Names = ["bar", "foo"]) ∧
      (o.map.Sources.Nodup ∧ o.map.Names.Nodup ∧
      (∀ (i : Nat) (hi : i < o.map.Sources.length),
        IndexForSource o.map (o.map.Sources.get ⟨i, hi⟩) = (i : Int)) ∧
      (∀ (i : Nat) (hi : i < o.map.Names.length),
        IndexForName o.map (o.map.Names.get ⟨i, hi⟩) = (i : Int)) ∧
      (∀ x, x ∉ o.map.Sources → IndexForSource o.map x = -1) ∧
      (∀ x, x ∉ o.map.Names → IndexForName o.map x = -1)) :=
  (Option.isSome_iff_exists.mp
    (by decide! : ((runOps goPath insertionSortOwned 20 [⟨sampleDocument, []⟩] sampleOps).bind
      fun h => (h.get? 1).bind fun o =>
        if o.map.Sources = ["one.js", "three.js", "four.js"] ∧ o.map.Names = ["bar", "foo"]
        then some (h, o) else none).isSome = true)).elim
    fun r hr => by
      cases hrun : runOps goPath insertionSortOwned 20 [⟨sampleDocument, []⟩] sampleOps with
      | none => rw [hrun] at hr; simp at hr
      | some h =>
        rw [hrun] at hr
        simp only [Option.some_bind] at hr
        cases ho : h.get? 1 with
        | none => rw [ho] at hr; simp at hr
        | some o =>
          rw [ho] at hr
          simp only [Option.some_bind] at hr
          split_ifs at hr with hc
          exact ⟨h, o, rfl, by decide, ho, hc,
            string_table_invariant goPath insertionSortOwned 20 [⟨sampleDocument, []⟩]
              sampleOps h 1 o hrun (by decide) ho⟩

/-- C13, as stated, fails on the code: `sort.Sort` is not stable. The thirteen
records of `sampleThirteen` are twelve records on line 1, column 5, numbered 0 to
11 by their original column, and then one record on line 1, column 0, numbered 12.
After `EncodeMappings` the records are in ascending order, and the twelve records
with the same line and column stand in the order 6, 2, 3, 4, 5, 0, 7, 8, 9, 10,
11, 1. -/
theorem encode_reorders_ties :
    sampleThirteen.map (fun r => (r.GeneratedLine, r.GeneratedColumn, r.OriginalColumn))
      = [(1, 5, 0), (1, 5, 1), (1, 5, 2), (1, 5, 3), (1, 5, 4), (1, 5, 5), (1, 5, 6),
         (1, 5, 7), (1, 5, 8), (1, 5, 9), (1, 5, 10), (1, 5, 11), (1, 0, 12)] ∧
    (EncodeMappings goSort 0 sampleThirteenMap).map
        (fun m => (sliceOf m.decodedMappings).map
          (fun r => (r.GeneratedLine, r.GeneratedColumn, r.OriginalColumn)))
      = some [(1, 0, 12), (1, 5, 6), (1, 5, 2), (1, 5, 3), (1, 5, 4), (1, 5, 5), (1, 5, 0),
              (1, 5, 7), (1, 5, 8), (1, 5, 9), (1, 5, 10), (1, 5, 11), (1, 5, 1)] := by
  refine ⟨?_, ?_⟩ <;> decide!

/-- C13, amended. For every sorting procedure that keeps the promise of `sort.Sort`
and every map with the record list `l`: when `EncodeMappings` returns, the records
are a rearrangement of `l` in ascending (GeneratedLine, GeneratedColumn) order, no
record standing before one with a smaller line or the same line and a smaller
column; and when no two records of `l` have the same line and column, the order
is strictly ascending and is the same for every such sorting procedure. -/
theorem encode_sorts_records (sort : List Mapping → List Mapping) (hsort : SortContract sort)
    (fuel : Nat) (m m0 m1 : Map) (l : List Mapping)
    (hd : DecodedMappings fuel m = some (m0, l)) (he : EncodeMappings sort fuel m = some m1) :
    (sliceOf m1.decodedMappings).Perm l ∧
      (sliceOf m1.decodedMappings).Pairwise (fun a b =>
        a.GeneratedLine < b.GeneratedLine ∨
          (a.GeneratedLine = b.GeneratedLine ∧ a.GeneratedColumn ≤ b.GeneratedColumn)) ∧
      (l.Pairwise (fun a b => a.key ≠ b.key) →
        (sliceOf m1.decodedMappings).Pairwise (fun a b =>
          a.GeneratedLine < b.GeneratedLine ∨
            (a.GeneratedLine = b.GeneratedLine ∧ a.GeneratedColumn < b.GeneratedColumn)) ∧
        ∀ sort2, SortContract sort2 → sort2 l = sliceOf m1.decodedMappings) := by
  obtain ⟨buf, -, hslice, -⟩ := EncodeMappings_eq sort hsort fuel m m0 m1 l hd he
  obtain ⟨p, s⟩ := hsort l
  rw [hslice]
  refine ⟨p, s.imp ?_, ?_⟩
  · intro a b h
    rw [Less_false_iff] at h
    omega
  · intro hk
    obtain ⟨-, -, hstrict⟩ := sort_perm_eq sort hsort l l (List.Perm.refl l) hk
    refine ⟨hstrict.imp ?_, ?_⟩
    · intro a b h
      rw [Less_iff] at h
      exact h
    · intro sort2 hsort2
      obtain ⟨-, p2, s2⟩ := sort_perm_eq sort2 hsort2 l l (List.Perm.refl l) hk
      exact strict_sorted_unique (p2.trans p.symm) s2 hstrict

/-- C13 (amended) on three records with distinct lines and columns. -/
theorem encode_sorts_records_witness :
    DecodedMappings 0 sampleShuffledMap = some (sampleShuffledMap, sampleRecordsShuffled) ∧
    EncodeMappings insertionSort 0 sampleShuffledMap = some sampleEncoded ∧
    sampleRecordsShuffled.Pairwise (fun a b => a.key ≠ b.key) ∧
    ((sliceOf sampleEncoded.decodedMappings).Perm sampleRecordsShuffled ∧
      (sliceOf sampleEncoded.decodedMappings).Pairwise (fun a b =>
        a.GeneratedLine < b.GeneratedLine ∨
          (a.GeneratedLine = b.GeneratedLine ∧ a.GeneratedColumn ≤ b.GeneratedColumn)) ∧
      (sampleRecordsShuffled.Pairwise (fun a b => a.key ≠ b.key) →
        (sliceOf sampleEncoded.decodedMappings).Pairwise (fun a b =>
          a.GeneratedLine < b.GeneratedLine ∨
            (a.GeneratedLine = b.GeneratedLine ∧ a.GeneratedColumn < b.GeneratedColumn)) ∧
        ∀ sort2, SortContract sort2 →
          sort2 sampleRecordsShuffled = sliceOf sampleEncoded.decodedMappings)) :=
  ⟨by decide, by decide, by decide,
    encode_sorts_records insertionSort insertionSort_contract 0 sampleShuffledMap
      sampleShuffledMap sampleEncoded sampleRecordsShuffled (by decide) (by decide)⟩

/-- C14. `EncodeMappings` is idempotent. The procedure `sort.Sort` of the standard
library leaves a slice that is in ascending order as it is (`goSort`, and so does
the insertion sort it runs on short slices). For every sorting procedure that does
so and keeps the promise of `sort.Sort`, and every map on which `EncodeMappings`
returns `m1`: a second call with no mutation in between returns and leaves `m1`
as it is, the Mappings string byte for byte and the record list. -/
theorem encode_idempotent :
    (SortKeepsSorted goSort ∧ SortKeepsSorted insertionSort) ∧
    ∀ (sort : List Mapping → List Mapping), SortContract sort → SortKeepsSorted sort →
      ∀ (fuel : Nat) (m m1 : Map), EncodeMappings sort fuel m = some m1 →
        EncodeMappings sort fuel m1 = some m1 ∧
          (EncodeMappings sort fuel m1).map (fun m2 => m2.Mappings) = some m1.Mappings ∧
          (EncodeMappings sort fuel m1).map (fun m2 => m2.decodedMappings)
            = some m1.decodedMappings := by
  refine ⟨⟨goSort_keepsSorted, insertionSort_keepsSorted⟩, ?_⟩
  intro sort hsort hkeep fuel m m1 he
  suffices hmain : EncodeMappings sort fuel m1 = some m1 by
    rw [hmain]
    exact ⟨rfl, rfl, rfl⟩
  have hdec : ∃ m0, decodeMappings fuel m = some m0 := by
    unfold EncodeMappings Len at he
    cases h : decodeMappings fuel m with
    | none => simp [h] at he
    | some m0 => exact ⟨m0, rfl⟩
  obtain ⟨m0, h0⟩ := hdec
  have hd : DecodedMappings fuel m = some (m0, sliceOf m0.decodedMappings) := by
    unfold DecodedMappings
    rw [h0]; rfl
  obtain ⟨buf, hbuf, hslice, hm1⟩ :=
    EncodeMappings_eq sort hsort fuel m m0 m1 (sliceOf m0.decodedMappings) hd he
  have hss : sort (sort (sliceOf m0.decodedMappings)) = sort (sliceOf m0.decodedMappings) :=
    hkeep _ (hsort _).2
  have hdm : m1.decodedMappings.map sort = m1.decodedMappings := by
    rw [hm1]
    simp only
    cases hx : m0.decodedMappings with
    | none => rfl
    | some x =>
      simp only [Option.map_some', Option.some.injEq]
      rw [hx] at hss
      simpa [sliceOf] using hss
  have hM : m1.Mappings = buf := by rw [hm1]
  have hdec1 : decodeMappings fuel m1 = some m1 := by
    cases hx : m0.decodedMappings with
    | some x =>
      unfold decodeMappings
      rw [hm1]
      simp [hx]
    | none =>
      have hb : buf = [] := by
        rw [hx] at hbuf
        simp only [sliceOf, Option.getD_none, sort_nil sort hsort] at hbuf
        have : encodeRecords [] = some [] := rfl
        rw [this] at hbuf
        injection hbuf with hbuf
        exact hbuf.symm
      have hnone : m1.decodedMappings = none := by rw [hm1]; simp [hx]
      have hds : decodeString fuel [] = some [] := by
        cases fuel <;> rfl
      unfold decodeMappings
      rw [hnone]
      simp only [hM, hb, hds]
  unfold EncodeMappings Len DecodedMappings
  simp only [hdec1, Option.some_bind, Option.map_some']
  rw [hdm, hslice, hbuf]
  simp only [Option.map_some', Option.some.injEq]
  rw [hm1]

/-- C14 on three records given out of order, and on the thirteen records of
`sampleThirteen`, of which twelve have the same line and column, with the
procedure of the standard library: the second call changes nothing. -/
theorem encode_idempotent_witness :
    EncodeMappings insertionSort 0 sampleShuffledMap = some sampleEncoded ∧
    (EncodeMappings insertionSort 0 sampleEncoded = some sampleEncoded ∧
      (EncodeMappings insertionSort 0 sampleEncoded).map (fun m2 => m2.Mappings)
        = some sampleEncoded.Mappings ∧
      (EncodeMappings insertionSort 0 sampleEncoded).map (fun m2 => m2.decodedMappings)
        = some sampleEncoded.decodedMappings) ∧
    (EncodeMappings goSort 0 sampleThirteenMap).bind (EncodeMappings goSort 0)
      = EncodeMappings goSort 0 sampleThirteenMap ∧
    (EncodeMappings goSort 0 sampleThirteenMap).isSome = true :=
  ⟨by decide,
    encode_idempotent.2 insertionSort insertionSort_contract insertionSort_keepsSorted 0
      sampleShuffledMap sampleEncoded (by decide),
    by decide!, by decide!⟩

/-- C15. Path resolution cases. For a record whose source index is in bounds, with
the source name `name`, on a map whose path caches are empty: `OriginalSource`
returns `name`; `OriginalFullSource` returns `name` when the source root is empty
and otherwise the join of the source root and `name`; `OriginalResolvedSource`
returns that full source when the file is empty or the full source is absolute,
and otherwise the cleaned join of the directory of the file with the full source.
For a record with a negative source index the three functions return the empty
string. On a map loaded with the source root `/the/root` and the source `one.js`,
`OriginalFullSource` returns `/the/root/one.js`. -/
theorem path_resolution_cases (P : PathLib) (m : Map) (r : Mapping) (name : String) :
    (0 ≤ r.OriginalSourceIndex → index m.Sources r.OriginalSourceIndex = some name →
      m.fullSources = [] → m.resolvedSources = [] →
      OriginalSource m r = some name ∧
      (OriginalFullSource P m r).map Prod.fst
        = some (if m.SourceRoot = "" then name else P.Join m.SourceRoot name) ∧
      (OriginalResolvedSource P m r).map Prod.fst
        = some (if m.File = "" ∨
              P.IsAbs (if m.SourceRoot = "" then name else P.Join m.SourceRoot name) = true
            then (if m.SourceRoot = "" then name else P.Join m.SourceRoot name)
            else P.Clean (P.Join (P.Dir m.File)
              (if m.SourceRoot = "" then name else P.Join m.SourceRoot name)))) ∧
    (r.OriginalSourceIndex < 0 →
      OriginalSource m r = some "" ∧ (OriginalFullSource P m r).map Prod.fst = some "" ∧
      (OriginalResolvedSource P m r).map Prod.fst = some "") ∧
    (OriginalFullSource goPath sampleLoaded ⟨1, 1, 0, 1, 1, -1⟩).map Prod.fst
      = some "/the/root/one.js" := by
  refine ⟨?_, ?_, by decide⟩
  · intro h0 hname hfull hres
    have hneg : ¬ r.OriginalSourceIndex < 0 := by omega
    have hsrc : OriginalSource m r = some name := by
      unfold OriginalSource
      rw [if_neg hneg, hname]
    have hf : (OriginalFullSource P m r).map Prod.fst
        = some (if m.SourceRoot = "" then name else P.Join m.SourceRoot name) := by
      unfold OriginalFullSource
      rw [if_neg hneg, hsrc, hfull]
      by_cases hroot : m.SourceRoot = ""
      · simp [hroot]
      · simp [hroot, mapLookup]
    refine ⟨hsrc, hf, ?_⟩
    rw [OriginalResolvedSource_fst, if_neg hneg, hf, hres]
    by_cases hfile : m.File = ""
    · simp [hfile]
    · by_cases habs : P.IsAbs (if m.SourceRoot = "" then name else P.Join m.SourceRoot name) = true
      · simp [hfile, habs, mapLookup]
      · simp [hfile, habs, mapLookup]
  · intro hneg
    refine ⟨?_, ?_, ?_⟩
    · unfold OriginalSource; rw [if_pos hneg]
    · unfold OriginalFullSource; rw [if_pos hneg]; rfl
    · unfold OriginalResolvedSource; rw [if_pos hneg]; rfl

/-- C15 on the first source of a map loaded with the source root `/the/root` and
the file `min.js`: the full source is absolute, so it is the resolved source. -/
theorem path_resolution_cases_witness :
    (0 : Int) ≤ 0 ∧ index sampleLoaded.Sources 0 = some "one.js" ∧
    sampleLoaded.fullSources = [] ∧ sampleLoaded.resolvedSources = [] ∧
    (OriginalSource sampleLoaded ⟨1, 1, 0, 1, 1, -1⟩ = some "one.js" ∧
      (OriginalFullSource goPath sampleLoaded ⟨1, 1, 0, 1, 1, -1⟩).map Prod.fst
        = some (if sampleLoaded.SourceRoot = "" then "one.js"
            else goPath.Join sampleLoaded.SourceRoot "one.js") ∧
      (OriginalResolvedSource goPath sampleLoaded ⟨1, 1, 0, 1, 1, -1⟩).map Prod.fst
        = some (if sampleLoaded.File = "" ∨
              goPath.IsAbs (if sampleLoaded.SourceRoot = "" then "one.js"
                else goPath.Join sampleLoaded.SourceRoot "one.js") = true
            then (if sampleLoaded.SourceRoot = "" then "one.js"
              else goPath.Join sampleLoaded.SourceRoot "one.js")
            else goPath.Clean (goPath.Join (goPath.Dir sampleLoaded.File)
              (if sampleLoaded.SourceRoot = "" then "one.js"
                else goPath.Join sampleLoaded.SourceRoot "one.js")))) ∧
    (OriginalResolvedSource goPath sampleLoaded ⟨1, 1, 0, 1, 1, -1⟩).map Prod.fst
      = some "/the/root/one.js" :=
  ⟨by decide, by decide, by decide, by decide,
    (path_resolution_cases goPath sampleLoaded ⟨1, 1, 0, 1, 1, -1⟩ "one.js").1
      (by decide) (by decide) (by decide) (by decide),
    by decide⟩

/-- C18. Content table alignment. Every `AddSource` call keeps
`len(SourcesContent) <= len(Sources)` when it held before. When `AddSource` is
called with a content that is not nil and a name that is not empty and has no entry
in the lookup table, it returns the previous length of `Sources`, afterwards
`len(SourcesContent) = len(Sources)`, the entry at the returned index is the
content, every earlier index keeps the content it had before (nil where it had
none), and `OriginalSourceContent` of a record with the returned index returns the
content. With the empty name the call changes nothing and returns -1. -/
theorem content_alignment (m : Map) (name : String) (content : Option (List Nat)) :
    (m.SourcesContent.length ≤ m.Sources.length →
      (AddSource m name content).2.SourcesContent.length
        ≤ (AddSource m name content).2.Sources.length) ∧
    (∀ c, content = some c → name ≠ "" → mapLookup m.fileIndexMap name = none →
      (AddSource m name content).1 = (m.Sources.length : Int) ∧
      (AddSource m name content).2.SourcesContent.length
        = (AddSource m name content).2.Sources.length ∧
      (AddSource m name content).2.SourcesContent[m.Sources.length]? = some (some c) ∧
      (∀ j, j < m.Sources.length →
        (AddSource m name content).2.SourcesContent[j]? = some (m.SourcesContent[j]?).join) ∧
      (∀ r : Mapping, r.OriginalSourceIndex = (AddSource m name content).1 →
        OriginalSourceContent (AddSource m name content).2 r = some c)) ∧
    AddSource m "" content = (-1, m) := by
  refine ⟨?_, ?_, AddSource_empty m content⟩
  · intro hle
    by_cases hname : name = ""
    · subst hname; rw [AddSource_empty]; exact hle
    · cases hl : mapLookup m.fileIndexMap name with
      | some i => rw [AddSource_found m name content i hname hl]; exact hle
      | none =>
        obtain ⟨-, n2, -⟩ := AddSource_new m name content hname hl
        cases content with
        | none =>
          rw [n2]
          simp only [AddSource, hname, hl, if_false, List.length_append, List.length_singleton]
          omega
        | some c =>
          rw [n2, (AddSource_content m name c hname hl).1]
          simp
  · intro c hc hname hl
    subst hc
    obtain ⟨n1, n2, -⟩ := AddSource_new m name (some c) hname hl
    obtain ⟨c1, c2, c3⟩ := AddSource_content m name c hname hl
    refine ⟨n1, ?_, c2, c3, ?_⟩
    · rw [c1, n2]; simp
    · intro r hr
      rw [n1] at hr
      unfold OriginalSourceContent
      rw [hr, if_neg (by omega), c1, if_pos (by push_cast; omega)]
      rw [Int.toNat_ofNat, List.get?_eq_getElem?, c2]
      rfl

/-- C18 on a map with three sources of which only the first has a content: the call
`AddSource("d.js", content)` pads the content table up to the new index. -/
theorem content_alignment_witness :
    sampleContent.SourcesContent.length ≤ sampleContent.Sources.length ∧
    ("d.js" ≠ "" ∧ mapLookup sampleContent.fileIndexMap "d.js" = none) ∧
    (AddSource sampleContent "d.js" (some [100])).2.SourcesContent
      = [some [97], none, none, some [100]] ∧
    ((AddSource sampleContent "d.js" (some [100])).1 = (sampleContent.Sources.length : Int) ∧
      (AddSource sampleContent "d.js" (some [100])).2.SourcesContent.length
        = (AddSource sampleContent "d.js" (some [100])).2.Sources.length ∧
      (AddSource sampleContent "d.js" (some [100])).2.SourcesContent[
        sampleContent.Sources.length]? = some (some [100]) ∧
      (∀ j, j < sampleContent.Sources.length →
        (AddSource sampleContent "d.js" (some [100])).2.SourcesContent[j]?
          = some (sampleContent.SourcesContent[j]?).join) ∧
      (∀ r : Mapping,
        r.OriginalSourceIndex = (AddSource sampleContent "d.js" (some [100])).1 →
        OriginalSourceContent (AddSource sampleContent "d.js" (some [100])).2 r
          = some [100])) :=
  ⟨by decide, ⟨by decide, by decide⟩, by decide,
    (content_alignment sampleContent "d.js" (some [100])).2.1 [100] rfl (by decide)
      (by decide)⟩

/-- C19, as stated, fails on the code: the loop of `ReadFrom` stores every index
over the one stored before, so a value that stands in the list more than once is
looked up to its last position. With the sources `a.js`, `b.js`, `a.js` the index
of `a.js` is 2, not 0, and a later `AddSource` returns 2. -/
theorem loaded_duplicate_gets_last_index :
    sampleDuplicates.Sources = ["a.js", "b.js", "a.js"] ∧
      IndexForSource sampleDuplicates "a.js" = 2 ∧
      IndexForName sampleDuplicates "n" = 1 ∧
      AddSource sampleDuplicates "a.js" none = (2, sampleDuplicates) ∧
      AddName sampleDuplicates "n" = (1, sampleDuplicates) := by
  decide

/-- C19, amended. For every loaded sources list and every string `x`: after the
load `IndexForSource(x)` is -1 when `x` does not stand in the list, and otherwise
the position where `x` stands last, which is its only position, hence the first,
when the list has no duplicates; a later `AddSource(x)` with a non-empty `x` that
stands in the list returns that index and changes nothing. The same holds for the
names list, `IndexForName` and `AddName`. -/
theorem loaded_lookup (m : Map) (x : String) :
    ((x ∉ m.Sources → IndexForSource (rebuildTables m) x = -1) ∧
      (x ∈ m.Sources → ∃ i : Nat, IndexForSource (rebuildTables m) x = (i : Int) ∧
        m.Sources[i]? = some x ∧ (∀ j, i < j → m.Sources[j]? ≠ some x) ∧
        (m.Sources.Nodup → i = m.Sources.indexOf x) ∧
        (x ≠ "" → ∀ c, AddSource (rebuildTables m) x c = ((i : Int), rebuildTables m)))) ∧
    ((x ∉ m.Names → IndexForName (rebuildTables m) x = -1) ∧
      (x ∈ m.Names → ∃ i : Nat, IndexForName (rebuildTables m) x = (i : Int) ∧
        m.Names[i]? = some x ∧ (∀ j, i < j → m.Names[j]? ≠ some x) ∧
        (m.Names.Nodup → i = m.Names.indexOf x) ∧
        (x ≠ "" → AddName (rebuildTables m) x = ((i : Int), rebuildTables m)))) := by
  obtain ⟨t1, t2, -, -⟩ := rebuildTables_tables m
  refine ⟨⟨?_, ?_⟩, ⟨?_, ?_⟩⟩
  · intro hx
    unfold IndexForSource
    rw [t1, (tableOf_lookup m.Sources x).1 hx]
  · intro hx
    obtain ⟨i, h1, h2, h3⟩ := (tableOf_lookup m.Sources x).2 hx
    refine ⟨i, ?_, h2, h3, fun hn => indexOf_of_getElem? hn h2, ?_⟩
    · unfold IndexForSource
      rw [t1, h1]
    · intro hne c
      exact AddSource_found _ x c i hne (by rw [t1]; exact h1)
  · intro hx
    unfold IndexForName
    rw [t2, (tableOf_lookup m.Names x).1 hx]
  · intro hx
    obtain ⟨i, h1, h2, h3⟩ := (tableOf_lookup m.Names x).2 hx
    refine ⟨i, ?_, h2, h3, fun hn => indexOf_of_getElem? hn h2, ?_⟩
    · unfold IndexForName
      rw [t2, h1]
    · intro hne
      exact AddName_found _ x i hne (by rw [t2]; exact h1)

/-- C19 (amended) on the sources `a.js`, `b.js`, `a.js` and the value `b.js`. -/
theorem loaded_lookup_witness :
    "b.js" ∈ sampleDuplicates.Sources ∧ IndexForSource sampleDuplicates "b.js" = 1 ∧
    ∃ i : Nat, IndexForSource (rebuildTables sampleDuplicates) "b.js" = (i : Int) ∧
      sampleDuplicates.Sources[i]? = some "b.js" ∧
      (∀ j, i < j → sampleDuplicates.Sources[j]? ≠ some "b.js") ∧
      (sampleDuplicates.Sources.Nodup → i = sampleDuplicates.Sources.indexOf "b.js") ∧
      ("b.js" ≠ "" → ∀ c, AddSource (rebuildTables sampleDuplicates) "b.js" c
        = ((i : Int), rebuildTables sampleDuplicates)) :=
  ⟨by decide, by decide, (loaded_lookup sampleDuplicates "b.js").1.2 (by decide)⟩

/-- C20. Failing input: a map loaded with the mappings string `CAAC,`, not decoded
yet. `DecodedMappings()` before the call would return the record of `CAAC`; after
`AddMapping(r)` it returns `r` alone, because the record list is no longer nil and
the string is never decoded. In general the records after `AddMapping(r)` are the
records the map held at the call, decoded or not, followed by `r`. -/
theorem AddMapping_skips_undecoded :
    ((DecodedMappings 8 sampleUndecoded).map Prod.snd = some [⟨1, 1, 0, 1, 1, -1⟩] ∧
      (DecodedMappings 8 (AddMapping sampleUndecoded ⟨2, 0, 0, 1, 0, -1⟩)).map Prod.snd
        = some [⟨2, 0, 0, 1, 0, -1⟩]) ∧
    ∀ (fuel : Nat) (m : Map) (r : Mapping),
      (DecodedMappings fuel (AddMapping m r)).map Prod.snd
        = some (sliceOf m.decodedMappings ++ [r]) := by
  refine ⟨by decide!, ?_⟩
  intro fuel m r
  simp [DecodedMappings, decodeMappings, AddMapping, sliceOf]

/-- C16, as stated, fails on the code: the reuse shortcut changes the result. In
`sampleForeign` the map `b` holds the record of `x` and the record of `y`, both
with the source index 0, in bounds of the table of `b`. `a.Append(b, 0)` as written
reuses the destination index of the first record for the second and leaves `a`
with the Sources `x.js` and the source indices 0, 0; the naive version, which
calls `a.AddSource(resolved path, content)` for every record of `b`, leaves `a`
with the Sources `x.js`, `y.js` and the source indices 0, 1. On the merge scenario,
where the records of `b` point back at `b`, the two return the same heap. -/
theorem Append_shortcut_differs :
    ((sampleForeign.get? 1).map fun b =>
        (ownedRecords b).map fun r =>
          (r.1, r.2.OriginalSourceIndex,
            decide (r.2.OriginalSourceIndex < (b.map.Sources.length : Int))))
      = some [(some 2, 0, true), (some 3, 0, true)] ∧
    ((Append goPath 0 sampleForeign 0 1 0).bind fun h =>
        (h.get? 0).map fun a =>
          (a.map.Sources, (sliceOf a.map.decodedMappings).map fun r => r.OriginalSourceIndex))
      = some (["x.js"], [0, 0]) ∧
    ((AppendNaive goPath 0 sampleForeign 0 1 0).bind fun h =>
        (h.get? 0).map fun a =>
          (a.map.Sources, (sliceOf a.map.decodedMappings).map fun r => r.OriginalSourceIndex))
      = some (["x.js", "y.js"], [0, 1]) ∧
    Append goPath 0 sampleForeign 0 1 0 ≠ AppendNaive goPath 0 sampleForeign 0 1 0 ∧
    (Append goPath 0 sampleMerge 0 1 2).isSome = true ∧
    Append goPath 0 sampleMerge 0 1 2 = AppendNaive goPath 0 sampleMerge 0 1 2 := by
  refine ⟨?_, ?_, ?_, ?_, ?_, ?_⟩ <;> decide!

/-- C17. Source-less records collapse to one field. Whenever `EncodeMappings` writes
a record: a record with `OriginalSourceIndex < 0` is written as its separators and
one field, the generated-column delta, and leaves the running source, original
line, original column and name as they are; a record with a source is written with
5 fields when `OriginalNameIndex >= 0` and with 4 fields otherwise. So the record
with its OriginalLine, OriginalColumn and OriginalNameIndex replaced by 0, 0 and -1
is written alike, and with a sorting procedure that reads the records through
`Less` only, as `sort.Sort` does, the encoded string of a record list is the one of
the list with that replacement made in a source-less record. -/
theorem sourceless_collapse :
    (∀ st m out st', encodeRecord st m = some (out, st') →
      ∃ fs : List (List Nat),
        out = List.replicate (m.GeneratedLine - st.generatedLine).toNat 59 ++
          (if (advanceLines st m).comma = true then [44] else []) ++ fs.flatten ∧
        (∀ f ∈ fs, isField f = true) ∧
        writeVLQ (wrapInt (m.GeneratedColumn - (advanceLines st m).generatedColumn))
          = fs.head? ∧
        (m.OriginalSourceIndex < 0 →
          fs.length = 1 ∧ st'.originalFile = st.originalFile ∧
          st'.originalLine = st.originalLine ∧ st'.originalColumn = st.originalColumn ∧
          st'.originalName = st.originalName) ∧
        (0 ≤ m.OriginalSourceIndex →
          fs.length = if 0 ≤ m.OriginalNameIndex then 5 else 4)) ∧
    (∀ st m, m.OriginalSourceIndex < 0 →
      encodeRecord st { m with OriginalLine := 0, OriginalColumn := 0, OriginalNameIndex := -1 }
        = encodeRecord st m) ∧
    (∀ (sort : List Mapping → List Mapping) (fuel : Nat) (m1 m2 : Map)
        (pre post : List Mapping) (r : Mapping),
      SortUsesLessOnly sort → r.OriginalSourceIndex < 0 →
      m1.decodedMappings = some (pre ++ r :: post) →
      m2.decodedMappings = some (pre ++
        { r with OriginalLine := 0, OriginalColumn := 0, OriginalNameIndex := -1 } :: post) →
      (EncodeMappings sort fuel m2).map (fun m => m.Mappings)
        = (EncodeMappings sort fuel m1).map (fun m => m.Mappings)) := by
  refine ⟨encodeRecord_fields, ?_, ?_⟩
  · intro st m h
    have := encodeRecord_collapse st m
    unfold collapse at this
    rw [if_pos h] at this
    exact this
  · intro sort fuel m1 m2 pre post r hsort hr h1 h2
    apply EncodeMappings_congr_collapse sort hsort fuel m2 m1 _ _ h2 h1
    have hc : collapse
        { r with OriginalLine := 0, OriginalColumn := 0, OriginalNameIndex := -1 }
          = collapse r := by
      unfold collapse
      simp [hr]
    simp only [List.map_append, List.map_cons, hc]

/-- C17 on two records, the first without a source and with the fields 5, 6, 7 where
the decoder would give 0, 0, -1: both lists are written as `A,IAAI`. -/
theorem sourceless_collapse_witness :
    SortUsesLessOnly insertionSort ∧ (-1 : Int) < 0 ∧
    (EncodeMappings insertionSort 0
        { New with decodedMappings := some ([] ++ (⟨1, 0, -1, 0, 0, -1⟩ : Mapping) ::
          [⟨1, 4, 0, 1, 4, -1⟩]) }).map (fun m => m.Mappings)
      = (EncodeMappings insertionSort 0
        { New with decodedMappings := some ([] ++ (⟨1, 0, -1, 5, 6, 7⟩ : Mapping) ::
          [⟨1, 4, 0, 1, 4, -1⟩]) }).map (fun m => m.Mappings) ∧
    (EncodeMappings insertionSort 0 { New with decodedMappings := some sampleSourceless }).map
      (fun m => m.Mappings) = some (ascii "A,IAAI") :=
  ⟨insertionSort_usesLessOnly, by decide,
    sourceless_collapse.2.2 insertionSort 0
      { New with decodedMappings := some ([] ++ (⟨1, 0, -1, 5, 6, 7⟩ : Mapping) ::
          [⟨1, 4, 0, 1, 4, -1⟩]) }
      { New with decodedMappings := some ([] ++ (⟨1, 0, -1, 0, 0, -1⟩ : Mapping) ::
          [⟨1, 4, 0, 1, 4, -1⟩]) }
      [] [⟨1, 4, 0, 1, 4, -1⟩] ⟨1, 0, -1, 5, 6, 7⟩ insertionSort_usesLessOnly (by decide)
      rfl rfl,
    by decide⟩

end Sourcemap
